import Mathlib

/-!
# Pane-splitting layout engine (`src/editor/win.go`)

A shallow embedding of the frame tree of `win.go` and of its operations.

Go pointers are addresses: a `*Frame` is an index into the list of allocated
frames, a `*Window` an index into the list of allocated windows, `nil` is
`none`.  Allocation appends to the list.  A Go run-time panic (nil dereference,
index out of range, division by zero) and a recursion that never returns are
both the result `none`.  Go `int` is the 64-bit two's-complement integer: pixel
values are `Int`s, and the products and sums that `setSize` and `setPos` compute
on them are reduced to the 64-bit range (`wrap`); `/` is truncated division,
`Int.tdiv`.  The counts of `countSplits` and the window id counter are numbers
of frames and of windows; they are left without wrap-around.

The recursive methods take a recursion budget.  The entry points give them one
more than the number of allocated frames: a recursion that goes deeper than
that walks a cycle of pointers, on which the Go code does not return.
-/

namespace Lapce

/-! ## Data model -/

/-- The `Frame` struct.  The `editor` field is left out: there is one editor,
the state all operations act on. -/
structure Frame where
  vertical : Bool
  width : Int
  height : Int
  x : Int
  y : Int
  children : List Nat
  parent : Option Nat
  win : Option Nat
deriving DecidableEq

/-- The `Window` struct.  `buffer` is a possibly nil pointer to a buffer; of
the `view` only whether it has been hidden is kept. -/
structure Window where
  id : Nat
  frame : Nat
  buffer : Option Nat
  hidden : Bool
deriving DecidableEq

/-- The heap of allocated frames: address `a` holds `h[a]?`. -/
abbrev Heap := List Frame

/-- The zero-valued frame `&Frame{}`. -/
def Frame.zero : Frame :=
  { vertical := false, width := 0, height := 0, x := 0, y := 0,
    children := [], parent := none, win := none }

/-- Source: `Frame.hasChildren`, `f.children != nil && len(f.children) > 0`. -/
def hasChildren (fr : Frame) : Bool :=
  decide (0 < fr.children.length)

/-! ## Layout engine -/

/-- The value of a Go `int` expression whose exact value is `z`: `z` reduced to
the 64-bit two's-complement range. -/
def wrap (z : Int) : Int :=
  (z + 9223372036854775808) % 18446744073709551616 - 9223372036854775808

/-- The integer `z` is a value of the Go type `int`. -/
def InInt (z : Int) : Prop :=
  -9223372036854775808 ≤ z ∧ z < 9223372036854775808

/-- Source: `Frame.countSplits`, with a recursion budget. -/
def countSplitsAux : Nat → Heap → Nat → Bool → Option Int
  | 0, _, _, _ => none
  | fuel + 1, h, f, vertical =>
    match h[f]? with
    | none => none
    | some fr =>
      if !hasChildren fr then some 1
      else if fr.vertical == vertical then
        fr.children.foldlM
          (fun (n : Int) child =>
            (countSplitsAux fuel h child vertical).bind fun v => some (n + v)) 0
      else
        fr.children.foldlM
          (fun (n : Int) child =>
            (countSplitsAux fuel h child vertical).bind fun v =>
              some (if v > n then v else n)) 0

/-- Source: `Frame.countSplits`. -/
def countSplits (h : Heap) (f : Nat) (vertical : Bool) : Option Int :=
  countSplitsAux (h.length + 1) h f vertical

/-- The assignment `f.width = v` (vertical) or `f.height = v`. -/
def Frame.setDim (fr : Frame) (vertical : Bool) (v : Int) : Frame :=
  if vertical then { fr with width := v } else { fr with height := v }

/-- The size of a frame along an axis: `width` on the side-by-side axis
(`vertical = true`), `height` on the other. -/
def Frame.dim (fr : Frame) (vertical : Bool) : Int :=
  if vertical then fr.width else fr.height

/-- Source: `Frame.setSize`, with a recursion budget. -/
def setSizeAux : Nat → Heap → Nat → Bool → Int → Option Heap
  | 0, _, _, _, _ => none
  | fuel + 1, h, f, vertical, singleValue =>
    match h[f]? with
    | none => none
    | some fr =>
      if !hasChildren fr then
        some (h.set f (fr.setDim vertical singleValue))
      else
        (countSplits h f vertical).bind fun max =>
          let h1 := h.set f (fr.setDim vertical (wrap (max * singleValue)))
          if fr.vertical == vertical then
            fr.children.foldlM
              (fun (hc : Heap) child => setSizeAux fuel hc child vertical singleValue) h1
          else
            fr.children.foldlM
              (fun (hc : Heap) child =>
                (countSplits hc child vertical).bind fun n =>
                  if n = 0 then none
                  else
                    setSizeAux fuel hc child vertical (Int.tdiv (wrap (singleValue * max)) n)) h1

/-- Source: `Frame.setSize`. -/
def setSize (h : Heap) (f : Nat) (vertical : Bool) (singleValue : Int) : Option Heap :=
  setSizeAux (h.length + 1) h f vertical singleValue

/-- Source: `Frame.setPos`, with a recursion budget.  The loop state is the
heap and the running `x`, `y`. -/
def setPosAux : Nat → Heap → Nat → Int → Int → Option Heap
  | 0, _, _, _, _ => none
  | fuel + 1, h, f, x, y =>
    match h[f]? with
    | none => none
    | some fr =>
      let h1 := h.set f { fr with x := x, y := y }
      if !hasChildren fr then some h1
      else
        (fr.children.foldlM
          (fun (st : Heap × Int × Int) child =>
            (setPosAux fuel st.1 child st.2.1 st.2.2).bind fun h2 =>
              (h2[child]?).bind fun c =>
                (h2[f]?).bind fun pf =>
                  if pf.vertical then some (h2, wrap (st.2.1 + c.width), st.2.2)
                  else some (h2, st.2.1, wrap (st.2.2 + c.height)))
          (h1, x, y)).map fun st => st.1

/-- Source: `Frame.setPos`. -/
def setPos (h : Heap) (f : Nat) (x y : Int) : Option Heap :=
  setPosAux (h.length + 1) h f x y

/-! ## Editor state -/

/-- The part of the `Editor` the frame code uses, with the two heaps.  `wins`
is the registry map from window id to window, `winIndex` the id counter,
`topFrame` the root of the frame tree, `width` and `height` the pixels the
layout pass divides, `focus` the window whose view last received
`SetFocus2`. -/
structure Editor where
  frames : Heap
  windows : List Window
  wins : List (Nat × Nat)
  winIndex : Nat
  topFrame : Nat
  width : Int
  height : Int
  focus : Option Nat
deriving DecidableEq

/-- Modelled from the spec: `Editor.equalWins`, the layout pass every mutator
calls, is not in the source.  It is `setSize` on the side-by-side axis with unit
`width / countSplits(root, side-by-side)`, `setSize` on the stacked axis with
unit `height / countSplits(root, stacked)`, then `setPos(root, 0, 0)`. -/
def equalWins (s : Editor) : Option Editor :=
  (countSplits s.frames s.topFrame true).bind fun nw =>
    if nw = 0 then none
    else (setSize s.frames s.topFrame true (Int.tdiv s.width nw)).bind fun h1 =>
      (countSplits h1 s.topFrame false).bind fun nh =>
        if nh = 0 then none
        else (setSize h1 s.topFrame false (Int.tdiv s.height nh)).bind fun h2 =>
          (setPos h2 s.topFrame 0 0).map fun h3 => { s with frames := h3 }

/-- Source: `Frame.setFocus`, with a recursion budget. -/
def setFocusAux : Nat → Editor → Nat → Option Editor
  | 0, _, _ => none
  | fuel + 1, s, f =>
    match s.frames[f]? with
    | none => none
    | some fr =>
      if hasChildren fr then
        (fr.children[0]?).bind fun c => setFocusAux fuel s c
      else
        fr.win.bind fun w =>
          (s.windows[w]?).map fun _ => { s with focus := some w }

/-- Source: `Frame.setFocus`. -/
def setFocus (s : Editor) (f : Nat) : Option Editor :=
  setFocusAux (s.frames.length + 1) s f

/-! ## Windows -/

/-- The map assignment `wins[id] = w`. -/
def regInsert (wins : List (Nat × Nat)) (id w : Nat) : List (Nat × Nat) :=
  (id, w) :: wins.filter fun e => e.1 != id

/-- The map deletion `delete(wins, id)`. -/
def regDelete (wins : List (Nat × Nat)) (id : Nat) : List (Nat × Nat) :=
  wins.filter fun e => e.1 != id

/-- Source: `NewWindow`, the part under the lock; returns the new window. -/
def NewWindow (s : Editor) (frame : Nat) : Option (Editor × Nat) :=
  (s.frames[frame]?).map fun fr =>
    let w := s.windows.length
    ({ s with
        windows := s.windows ++ [{ id := s.winIndex, frame := frame, buffer := none,
                                   hidden := false }]
        frames := s.frames.set frame { fr with win := some w }
        winIndex := s.winIndex + 1
        wins := regInsert s.wins s.winIndex w }, w)

/-- Source: `Window.loadBuffer`; `buffer.scence` dereferences the buffer. -/
def loadBuffer (s : Editor) (w : Nat) (buffer : Option Nat) : Option Editor :=
  (s.windows[w]?).bind fun win =>
    buffer.map fun _ => { s with windows := s.windows.set w { win with buffer := buffer } }

/-! ## Split -/

/-- Source: `Frame.split`, the branch `parent != nil && parent.vertical == vertical`. -/
def splitFlat (s : Editor) (f p newFrame : Nat) : Option Editor :=
  (s.frames[newFrame]?).bind fun nf =>
    let h1 : Heap := s.frames.set newFrame { nf with parent := some p }
    (h1[p]?).map fun pfr =>
      let children := pfr.children.foldl
        (fun acc child => if child = f then acc ++ [child, newFrame] else acc ++ [child]) []
      { s with frames := h1.set p { pfr with children := children } }

/-- Source: `Frame.split`, the `else` branch. -/
def splitNest (s : Editor) (f win newFrame : Nat) (vertical : Bool) : Option Editor :=
  (s.frames[newFrame]?).bind fun nf =>
    let h1 : Heap := s.frames.set newFrame { nf with parent := some f }
    let frame := h1.length
    let h2 : Heap := h1 ++ [{ Frame.zero with parent := some f, win := some win }]
    (s.windows[win]?).bind fun w =>
      (h2[f]?).map fun fr =>
        { s with
            frames := h2.set f { fr with children := [frame, newFrame], vertical := vertical,
                                         win := none }
            windows := s.windows.set win { w with frame := frame } }

/-- Source: `Frame.split`. -/
def split (s : Editor) (f : Nat) (vertical : Bool) : Option Editor :=
  (s.frames[f]?).bind fun fr =>
    if hasChildren fr then some s
    else
      match fr.win with
      | none => some s
      | some win =>
        (s.windows[win]?).bind fun w =>
          let newFrame := s.frames.length
          (NewWindow { s with frames := s.frames ++ [Frame.zero] } newFrame).bind fun nw =>
            (loadBuffer nw.1 nw.2 w.buffer).bind fun (s2 : Editor) =>
              (match fr.parent with
                | none => splitNest s2 f win newFrame vertical
                | some p =>
                  (s2.frames[p]?).bind fun pfr =>
                    if pfr.vertical == vertical then splitFlat s2 f p newFrame
                    else splitNest s2 f win newFrame vertical).bind fun (s3 : Editor) =>
                (equalWins s3).map fun (s4 : Editor) => { s4 with focus := some win }

/-! ## Exchange -/

/-- The loop of `Frame.exchange`: the first index of `f`, 0 when absent. -/
def exchangeIndex (f : Nat) : List Nat → Nat → Nat
  | [], _ => 0
  | child :: rest, index => if child = f then index else exchangeIndex f rest (index + 1)

/-- Source: `Frame.exchange`, from the search for the index of `f` on: the swap
in the children of the parent `p`, whose frame is `pfr`, the layout pass and the
focus. -/
def exchangeSwap (s : Editor) (f p : Nat) (pfr : Frame) : Option Editor :=
  let i := exchangeIndex f pfr.children 0
  let j := if i + 1 = pfr.children.length then i - 1 else i + 1
  (pfr.children[i]?).bind fun ci =>
    (pfr.children[j]?).bind fun cj =>
      let children := (pfr.children.set i cj).set j ci
      (equalWins { s with frames := s.frames.set p { pfr with children := children } }).bind
        fun s1 => (children[i]?).bind fun c => setFocus s1 c

/-- Source: `Frame.exchange`, with a recursion budget. -/
def exchangeAux : Nat → Editor → Nat → Option Editor
  | 0, _, _ => none
  | fuel + 1, s, f =>
    match s.frames[f]? with
    | none => none
    | some fr =>
      match fr.parent with
      | none => some s
      | some p =>
        (s.frames[p]?).bind fun pfr =>
          if pfr.children.length = 1 then exchangeAux fuel s p
          else exchangeSwap s f p pfr

/-- Source: `Frame.exchange`. -/
def exchange (s : Editor) (f : Nat) : Option Editor :=
  exchangeAux (s.frames.length + 1) s f

/-! ## Close -/

/-- The loop of `Frame.close` over `parent.children`, from loop variables
`index`, `children`, `i`: the children other than `f`, and the last index of `f`. -/
def closeLoop (f : Nat) : List Nat → Nat → List Nat → Nat → List Nat × Nat
  | [], _, children, i => (children, i)
  | child :: rest, index, children, i =>
    if child ≠ f then closeLoop f rest (index + 1) (children ++ [child]) i
    else closeLoop f rest (index + 1) children index

/-- Source: `Frame.close`, with a recursion budget; returns the focus candidate. -/
def closeAux : Nat → Editor → Nat → Option (Editor × Option Nat)
  | 0, _, _ => none
  | fuel + 1, s, f =>
    match s.frames[f]? with
    | none => none
    | some fr =>
      if hasChildren fr then some (s, none)
      else
        match fr.parent with
        | none => some (s, none)
        | some p =>
          (s.frames[p]?).bind fun pfr =>
            let loop := closeLoop f pfr.children 0 [] 0
            let children := loop.1
            let s1 := { s with frames := s.frames.set p { pfr with children := children } }
            (if children.length = 0 then closeAux fuel s1 p
              else
                (children[if loop.2 > 0 then loop.2 - 1 else loop.2]?).map fun c =>
                  (s1, some c)).bind fun res =>
              let s2 := res.1
              let newFocus := res.2
              (s2.frames[f]?).bind fun fr2 =>
                match fr2.win with
                | none => some (s2, newFocus)
                | some win =>
                  (s2.windows[win]?).bind fun w =>
                    (equalWins { s2 with
                        wins := regDelete s2.wins w.id
                        windows := s2.windows.set win { w with hidden := true } }).bind fun s3 =>
                      match newFocus with
                      | none => some (s3, none)
                      | some nf => (setFocus s3 nf).map fun s4 => (s4, some nf)

/-- Source: `Frame.close`. -/
def close (s : Editor) (f : Nat) : Option (Editor × Option Nat) :=
  closeAux (s.frames.length + 1) s f

/-! ## Sample states -/

/-- A frame tree to evaluate on: a side-by-side root `0` with a leaf `1` and a
stacked node `2` of three leaves `3`, `4`, `5`. -/
def sampleHeap : Heap :=
  [ { Frame.zero with vertical := true, children := [1, 2] },
    { Frame.zero with parent := some 0, win := some 0 },
    { Frame.zero with parent := some 0, children := [3, 4, 5] },
    { Frame.zero with parent := some 2, win := some 1 },
    { Frame.zero with parent := some 2, win := some 2 },
    { Frame.zero with parent := some 2, win := some 3 } ]

/-- The editor after one side-by-side split of the start-up state of an 800 by
600 editor: the root `0` holds the leaves `2` (window 0) and `1` (window 1). -/
def twoPanes : Editor :=
  { frames :=
      [ { Frame.zero with vertical := true, width := 800, height := 600, children := [2, 1] },
        { Frame.zero with width := 400, height := 600, x := 400, parent := some 0,
                          win := some 1 },
        { Frame.zero with width := 400, height := 600, parent := some 0, win := some 0 } ],
    windows :=
      [ { id := 0, frame := 2, buffer := some 7, hidden := false },
        { id := 1, frame := 1, buffer := some 7, hidden := false } ],
    wins := [(1, 1), (0, 0)], winIndex := 2, topFrame := 0, width := 800, height := 600,
    focus := some 0 }

/-- The editor after a second side-by-side split, of the leaf `1`: the root `0`
holds the three leaves `2`, `1`, `3` in this order. -/
def threePanes : Editor :=
  { frames :=
      [ { Frame.zero with vertical := true, width := 798, height := 600, children := [2, 1, 3] },
        { Frame.zero with width := 266, height := 600, x := 266, parent := some 0,
                          win := some 1 },
        { Frame.zero with width := 266, height := 600, parent := some 0, win := some 0 },
        { Frame.zero with width := 266, height := 600, x := 532, parent := some 0,
                          win := some 2 } ],
    windows :=
      [ { id := 0, frame := 2, buffer := some 7, hidden := false },
        { id := 1, frame := 1, buffer := some 7, hidden := false },
        { id := 2, frame := 3, buffer := some 7, hidden := false } ],
    wins := [(2, 2), (1, 1), (0, 0)], winIndex := 3, topFrame := 0, width := 800, height := 600,
    focus := some 1 }

/-- The editor after a stacked split of the leaf `1` of `twoPanes`: the root `0`
holds the leaf `2` and the node `1`, which holds the leaves `4` (window 1) and
`3` (window 2). -/
def stackedPanes : Editor :=
  { frames :=
      [ { Frame.zero with vertical := true, width := 800, height := 600, children := [2, 1] },
        { Frame.zero with width := 400, height := 600, x := 400, children := [4, 3],
                          parent := some 0 },
        { Frame.zero with width := 400, height := 600, parent := some 0, win := some 0 },
        { Frame.zero with width := 400, height := 300, x := 400, y := 300, parent := some 1,
                          win := some 2 },
        { Frame.zero with width := 400, height := 300, x := 400, parent := some 1,
                          win := some 1 } ],
    windows :=
      [ { id := 0, frame := 2, buffer := some 7, hidden := false },
        { id := 1, frame := 4, buffer := some 7, hidden := false },
        { id := 2, frame := 3, buffer := some 7, hidden := false } ],
    wins := [(2, 2), (1, 1), (0, 0)], winIndex := 3, topFrame := 0, width := 800, height := 600,
    focus := some 1 }

/-- The editor after a stacked split of the leaf `1` of `twoPanes` and the close
of the lower leaf `3`: the root `0` holds the leaf `2` and the node `1`, whose
only child is the leaf `4`; the frame `3` is out of the tree. -/
def nestedPanes : Editor :=
  { frames :=
      [ { Frame.zero with vertical := true, width := 800, height := 600, children := [2, 1] },
        { Frame.zero with width := 400, height := 600, x := 400, children := [4],
                          parent := some 0 },
        { Frame.zero with width := 400, height := 600, parent := some 0, win := some 0 },
        { Frame.zero with width := 400, height := 300, x := 400, y := 300, parent := some 1,
                          win := some 2 },
        { Frame.zero with width := 400, height := 600, x := 400, parent := some 1,
                          win := some 1 } ],
    windows :=
      [ { id := 0, frame := 2, buffer := some 7, hidden := false },
        { id := 1, frame := 4, buffer := some 7, hidden := false },
        { id := 2, frame := 3, buffer := some 7, hidden := true } ],
    wins := [(1, 1), (0, 0)], winIndex := 3, topFrame := 0, width := 800, height := 600,
    focus := some 1 }

/-! ## Frame trees -/

/-- The children of the frame at address `p` (none for an unallocated address). -/
def childrenOf (h : Heap) (p : Nat) : List Nat :=
  match h[p]? with
  | some fr => fr.children
  | none => []

/-- The heap is a forest under `r`: every child pointer is allocated and `r`,
a height bounded by the number of frames, strictly decreases along it.  So no
frame is its own descendant. -/
structure Ranked (h : Heap) (r : Nat → Nat) : Prop where
  child : ∀ p < h.length, ∀ c ∈ childrenOf h p, c < h.length ∧ r c < r p
  bound : ∀ a < h.length, r a ≤ h.length

/-- The heap `k` has the frames of `h` with the same orientation, children,
parent and window: only geometry may differ. -/
structure SameTree (h k : Heap) : Prop where
  len : k.length = h.length
  frames : ∀ (a : Nat) (fr : Frame), h[a]? = some fr →
    ∃ fr' : Frame, k[a]? = some fr' ∧ fr'.vertical = fr.vertical ∧
      fr'.children = fr.children ∧ fr'.parent = fr.parent ∧ fr'.win = fr.win

/-- The frame `b` is `a` or a descendant of `a` along child pointers. -/
inductive Desc (h : Heap) : Nat → Nat → Prop
  | refl (a : Nat) : Desc h a a
  | step {a c b : Nat} : c ∈ childrenOf h a → Desc h c b → Desc h a b

/-- The parent pointer of the frame at address `a`. -/
def parentOf (h : Heap) (a : Nat) : Option Nat :=
  (h[a]?).bind fun fr => fr.parent

/-- The window pointer of the frame at address `a`. -/
def winOf (h : Heap) (a : Nat) : Option Nat :=
  (h[a]?).bind fun fr => fr.win

/-- The orientation of the frame at address `a`. -/
def verticalOf (h : Heap) (a : Nat) : Bool :=
  match h[a]? with
  | some fr => fr.vertical
  | none => false

/-- The buffer of the window at address `w`. -/
def bufferOf (ws : List Window) (w : Nat) : Option Nat :=
  (ws[w]?).bind fun win => win.buffer

/-- The frame `a` is in the tree of the editor: the root or one of its
descendants. -/
def InTree (s : Editor) (a : Nat) : Prop :=
  Desc s.frames s.topFrame a

/-- Well-formed editor state, up to one frame `hole` that may be a child with
neither children nor window (the state `close` leaves for its recursive call).

* the root is allocated and has no parent;
* every child pointer goes to an allocated frame that was allocated after its
  parent and whose parent pointer points back; a child has children or a window;
* no frame occurs twice among the children of a frame;
* no frame has both children and a window;
* the window of a frame is allocated and has a buffer. -/
structure WFx (s : Editor) (hole : Option Nat) : Prop where
  root : s.topFrame < s.frames.length
  rootParent : parentOf s.frames s.topFrame = none
  edge : ∀ p < s.frames.length, ∀ c ∈ childrenOf s.frames p,
    p < c ∧ c < s.frames.length ∧ parentOf s.frames c = some p ∧
      (some c ≠ hole → childrenOf s.frames c = [] → winOf s.frames c ≠ none)
  nodup : ∀ p < s.frames.length, (childrenOf s.frames p).Nodup
  noBoth : ∀ p < s.frames.length, childrenOf s.frames p ≠ [] → winOf s.frames p = none
  winOk : ∀ p < s.frames.length,
    ((winOf s.frames p).all fun w => (bufferOf s.windows w).isSome) = true

/-- Well-formed editor state. -/
def WF (s : Editor) : Prop := WFx s none

/-- The editor right after start-up: a single root leaf holding window 0, which
shows buffer `b`, in an editor of `w` by `h` pixels. -/
def initEditor (b : Nat) (w h : Int) : Editor :=
  { frames := [{ Frame.zero with win := some 0 }],
    windows := [{ id := 0, frame := 0, buffer := some b, hidden := false }],
    wins := [(0, 0)], winIndex := 1, topFrame := 0, width := w, height := h,
    focus := some 0 }

/-- The editor `twoPanes` after the close of the leaf `1`: the root `0` holds
the leaf `2` only. -/
def onePane : Editor :=
  { frames :=
      [ { Frame.zero with vertical := true, width := 800, height := 600, children := [2] },
        { Frame.zero with width := 400, height := 600, x := 400, parent := some 0,
                          win := some 1 },
        { Frame.zero with width := 800, height := 600, parent := some 0, win := some 0 } ],
    windows :=
      [ { id := 0, frame := 2, buffer := some 7, hidden := false },
        { id := 1, frame := 1, buffer := some 7, hidden := true } ],
    wins := [(0, 0)], winIndex := 2, topFrame := 0, width := 800, height := 600,
    focus := some 0 }

/-- The editor `onePane` after the close of the leaf `2`: the root `0` has no
children and no window. -/
def noPane : Editor :=
  { frames :=
      [ { Frame.zero with vertical := true, width := 800, height := 600 },
        { Frame.zero with width := 400, height := 600, x := 400, parent := some 0,
                          win := some 1 },
        { Frame.zero with width := 800, height := 600, parent := some 0, win := some 0 } ],
    windows :=
      [ { id := 0, frame := 2, buffer := some 7, hidden := true },
        { id := 1, frame := 1, buffer := some 7, hidden := true } ],
    wins := [], winIndex := 2, topFrame := 0, width := 800, height := 600, focus := some 0 }

/-! ## Sequences of operations -/

/-- The three mutators, each on a frame. -/
inductive Op where
  | split (f : Nat) (vertical : Bool)
  | close (f : Nat)
  | exchange (f : Nat)

/-- The frame an operation is applied to. -/
def Op.target : Op → Nat
  | .split f _ => f
  | .close f => f
  | .exchange f => f

/-- One operation; the focus candidate `close` returns is dropped. -/
def step (s : Editor) : Op → Option Editor
  | .split f vertical => split s f vertical
  | .close f => (close s f).map fun r => r.1
  | .exchange f => exchange s f

/-- The states reached from the start-up state, a single root leaf with a window
showing buffer `b` in an editor of `w` by `h` pixels, by operations each applied
to a frame of the tree of the state it acts on. -/
inductive Reachable (b : Nat) (w h : Int) : Editor → Prop
  | init : Reachable b w h (initEditor b w h)
  | step {s s' : Editor} (op : Op) : Reachable b w h s → InTree s op.target →
      step s op = some s' → Reachable b w h s'

/-! ## Descriptions of the states the mutators produce -/

/-- The children of a frame after `newFrame` is put right behind `f`: what the
loop of `Frame.split` builds. -/
def insAfter (f newFrame : Nat) : List Nat → List Nat
  | [] => []
  | child :: rest =>
    if child = f then child :: newFrame :: insAfter f newFrame rest
    else child :: insAfter f newFrame rest

/-- The frame pointer of the window at address `w`. -/
def frameOf (ws : List Window) (w : Nat) : Option Nat :=
  (ws[w]?).map fun win => win.frame

/-- The state of `split` after the new frame and the new window are made;
`buffer` is the buffer of the new window. -/
def splitBase (s : Editor) (buffer : Option Nat) : Editor :=
  { s with
      frames := s.frames ++ [{ Frame.zero with win := some s.windows.length }]
      windows := s.windows ++ [{ id := s.winIndex, frame := s.frames.length, buffer := buffer,
                                 hidden := false }]
      winIndex := s.winIndex + 1
      wins := regInsert s.wins s.winIndex s.windows.length }

/-- The state `split` hands to the layout pass when the new leaf goes next to
`f` under the parent `p`, whose frame is `pfr`. -/
def flatState (s : Editor) (f p b : Nat) (pfr : Frame) : Editor :=
  { splitBase s (some b) with
      frames :=
        (s.frames ++
          [{ Frame.zero with parent := some p, win := some s.windows.length }]).set p
          { pfr with children := insAfter f s.frames.length pfr.children } }

/-- The state `split` hands to the layout pass when the leaf `f`, whose frame
is `fr` and whose window `w` is `win`, becomes a node of two leaves. -/
def nestState (s : Editor) (f w b : Nat) (v : Bool) (fr : Frame) (win : Window) : Editor :=
  { splitBase s (some b) with
      frames :=
        ((s.frames ++ [{ Frame.zero with parent := some f, win := some s.windows.length }]) ++
          [{ Frame.zero with parent := some f, win := some w }]).set f
          { fr with children := [s.frames.length + 1, s.frames.length], vertical := v,
                    win := none }
      windows :=
        (s.windows ++ [({ id := s.winIndex, frame := s.frames.length, buffer := some b,
                          hidden := false } : Window)]).set w
          { win with frame := s.frames.length + 1 } }

/-- What `split` makes of `s` when it puts the new leaf next to `f` under the
parent `p`: the new frame is `s.frames.length`, the new window
`s.windows.length`. -/
structure FlatSplit (s s' : Editor) (f p : Nat) : Prop where
  len : s'.frames.length = s.frames.length + 1
  children : ∀ a, childrenOf s'.frames a =
    if a = p then insAfter f s.frames.length (childrenOf s.frames p) else childrenOf s.frames a
  parent : ∀ a, parentOf s'.frames a =
    if a = s.frames.length then some p else parentOf s.frames a
  win : ∀ a, winOf s'.frames a =
    if a = s.frames.length then some s.windows.length else winOf s.frames a
  vertical : ∀ a, verticalOf s'.frames a = verticalOf s.frames a
  windows : ∃ b, s'.windows = s.windows ++
    [({ id := s.winIndex, frame := s.frames.length, buffer := some b, hidden := false } : Window)]
  wins : s'.wins = regInsert s.wins s.winIndex s.windows.length
  winIndex : s'.winIndex = s.winIndex + 1
  top : s'.topFrame = s.topFrame

/-- What `split` makes of `s` when it turns the leaf `f`, holding window `w`,
into a node of two leaves: the new leaf is `s.frames.length`, the leaf that
takes over `w` is `s.frames.length + 1`, the new window `s.windows.length`. -/
structure NestSplit (s s' : Editor) (f w : Nat) (v : Bool) : Prop where
  len : s'.frames.length = s.frames.length + 2
  children : ∀ a, childrenOf s'.frames a =
    if a = f then [s.frames.length + 1, s.frames.length] else childrenOf s.frames a
  parent : ∀ a, parentOf s'.frames a =
    if a = s.frames.length ∨ a = s.frames.length + 1 then some f else parentOf s.frames a
  win : ∀ a, winOf s'.frames a =
    if a = f then none else if a = s.frames.length then some s.windows.length
    else if a = s.frames.length + 1 then some w else winOf s.frames a
  vertical : ∀ a, verticalOf s'.frames a = if a = f then v else verticalOf s.frames a
  windows : ∃ b win, s.windows[w]? = some win ∧ s'.windows = (s.windows ++
    [({ id := s.winIndex, frame := s.frames.length, buffer := some b,
        hidden := false } : Window)]).set w
      { win with frame := s.frames.length + 1 }
  wins : s'.wins = regInsert s.wins s.winIndex s.windows.length
  winIndex : s'.winIndex = s.winIndex + 1
  top : s'.topFrame = s.topFrame

/-- The frame `a` and the chain of its ancestors below `t` were taken out of
the tree between `h` and `h'`: `a` is a child of `t` and is filtered out of the
children of `t`, or the parent of `a` had `a` as its only child, has no child in
`h'` and is itself taken out in the same way. -/
inductive Collapsed (h h' : Heap) : Nat → Nat → Prop
  | stop {a t : Nat} : parentOf h a = some t → a ∈ childrenOf h t →
      childrenOf h' t = (childrenOf h t).filter (fun c => c ≠ a) → Collapsed h h' a t
  | up {a p t : Nat} : parentOf h a = some p → childrenOf h p = [a] →
      childrenOf h' p = [] → Collapsed h h' p t → Collapsed h h' a t

/-- What `close` of the frame `f` makes of the tree `h`, with the focus
candidate `nf` it returns: parents, windows and orientations stay, children are
only removed, and only from proper ancestors of `f`; the chain of `f` and its
ancestors is taken out up to a frame that keeps children, a child of which is
the candidate, or up to a frame without parent, and then there is no
candidate; when `f` is a leaf, a child that is taken out has no leaf below it
but `f`. -/
structure CloseTree (h h' : Heap) (f : Nat) (nf : Option Nat) : Prop where
  len : h'.length = h.length
  parent : ∀ a, parentOf h' a = parentOf h a
  win : ∀ a, winOf h' a = winOf h a
  vertical : ∀ a, verticalOf h' a = verticalOf h a
  sub : ∀ a, (childrenOf h' a).Sublist (childrenOf h a)
  frame : ∀ a, ¬ (Desc h a f ∧ a ≠ f) → childrenOf h' a = childrenOf h a
  rootCase : parentOf h f = none → (∀ a, childrenOf h' a = childrenOf h a) ∧ nf = none
  chain : ∀ p, parentOf h f = some p → ∃ t, Collapsed h h' f t ∧
    ((childrenOf h' t ≠ [] ∧ ∃ c, nf = some c ∧ c ∈ childrenOf h' t) ∨
      (childrenOf h' t = [] ∧ parentOf h t = none ∧ nf = none))
  kept : childrenOf h f = [] → ∀ q c, c ∈ childrenOf h q → c ∉ childrenOf h' q →
    ∀ a, Desc h c a → childrenOf h a = [] → a = f

/-- What the recursive call of `close` on a frame without window does, for a
given recursion budget: it returns, changes the tree as `CloseTree` says and
nothing else, and leaves a well-formed state. -/
def CloseSpec (fuel : Nat) : Prop :=
  ∀ (s : Editor) (f : Nat), f < fuel → WFx s (some f) → InTree s f →
    childrenOf s.frames f = [] → winOf s.frames f = none →
    ∃ h' nf, closeAux fuel s f = some ({ s with frames := h' }, nf) ∧
      CloseTree s.frames h' f nf ∧ WF { s with frames := h' }

/-- What `close` of a leaf holding the window `x` makes of the editor outside of
the frame tree: the window is hidden and taken out of the registry, the id
counter and the root stay, and the focus moves exactly when there is a focus
candidate `nf`. -/
structure CloseEditor (s s' : Editor) (x : Nat) (nf : Option Nat) : Prop where
  windows : ∃ win : Window, s.windows[x]? = some win ∧
    s'.windows = s.windows.set x { win with hidden := true } ∧
    s'.wins = regDelete s.wins win.id
  winIndex : s'.winIndex = s.winIndex
  top : s'.topFrame = s.topFrame
  width : s'.width = s.width
  height : s'.height = s.height
  focusNone : nf = none → s'.focus = s.focus
  focusSome : nf ≠ none → ∃ y, s'.focus = some y

/-- The state `close` reaches from `s`: the frames are `h`, the window `x`,
which is `win`, is hidden and out of the registry, the focus is `foc`. -/
def closedState (s : Editor) (h : Heap) (x : Nat) (win : Window) (foc : Option Nat) : Editor :=
  { s with
      frames := h
      wins := regDelete s.wins win.id
      windows := s.windows.set x { win with hidden := true }
      focus := foc }

/-- Between `s` and `s'` the neighbours `a` and `b` among the children of the
frame `q` have changed places, and nothing else of the tree, the windows, the
registry or the id counter has changed. -/
structure Swapped (s s' : Editor) (q : Nat) (l1 : List Nat) (a b : Nat) (l2 : List Nat) :
    Prop where
  before : childrenOf s.frames q = l1 ++ a :: b :: l2
  after : childrenOf s'.frames q = l1 ++ b :: a :: l2
  others : ∀ c, c ≠ q → childrenOf s'.frames c = childrenOf s.frames c
  len : s'.frames.length = s.frames.length
  parent : ∀ c, parentOf s'.frames c = parentOf s.frames c
  win : ∀ c, winOf s'.frames c = winOf s.frames c
  vertical : ∀ c, verticalOf s'.frames c = verticalOf s.frames c
  windows : s'.windows = s.windows
  wins : s'.wins = s.wins
  winIndex : s'.winIndex = s.winIndex
  top : s'.topFrame = s.topFrame
  width : s'.width = s.width
  height : s'.height = s.height

/-! ## Measures of the tree -/

/-- The number of leaves below the frame `f` (`f` itself when it has no
children), with a recursion budget. -/
def leavesAux : Nat → Heap → Nat → Option Nat
  | 0, _, _ => none
  | fuel + 1, h, f =>
    match h[f]? with
    | none => none
    | some fr =>
      if !hasChildren fr then some 1
      else
        fr.children.foldlM
          (fun (n : Nat) child => (leavesAux fuel h child).bind fun v => some (n + v)) 0

/-- The number of leaves of the tree below `f`. -/
def leaves (h : Heap) (f : Nat) : Option Nat :=
  leavesAux (h.length + 1) h f

/-- The depth of the tree below the frame `f`: 0 for a frame without children,
one more than the deepest child otherwise; with a recursion budget. -/
def depthAux : Nat → Heap → Nat → Option Nat
  | 0, _, _ => none
  | fuel + 1, h, f =>
    match h[f]? with
    | none => none
    | some fr =>
      if !hasChildren fr then some 0
      else
        fr.children.foldlM
          (fun (n : Nat) child => (depthAux fuel h child).bind fun v => some (max n (v + 1))) 0

/-- The depth of the tree below `f`. -/
def depth (h : Heap) (f : Nat) : Option Nat :=
  depthAux (h.length + 1) h f

/-- The heap `k` is the heap `h` with the children of each frame in some other
order. -/
structure PermTree (h k : Heap) : Prop where
  len : k.length = h.length
  children : ∀ a, (childrenOf k a).Perm (childrenOf h a)
  vertical : ∀ a, verticalOf k a = verticalOf h a

/-! ## Geometry of a frame -/

/-- The size along an axis of the frame at address `a`: its width on the
side-by-side axis (`true`), its height on the other; 0 for an unallocated
address. -/
def dimOf (h : Heap) (a : Nat) (vertical : Bool) : Int :=
  match h[a]? with
  | some fr => fr.dim vertical
  | none => 0

/-- The coordinate along an axis of the frame at address `a`: its `x` on the
side-by-side axis (`true`), its `y` on the other. -/
def posOf (h : Heap) (a : Nat) (vertical : Bool) : Int :=
  match h[a]? with
  | some fr => if vertical then fr.x else fr.y
  | none => 0

/-- The rectangle of the frame at address `a`: `(x, y, width, height)`. -/
def boxOf (h : Heap) (a : Nat) : Int × Int × Int × Int :=
  (posOf h a true, posOf h a false, dimOf h a true, dimOf h a false)

/-- The leaf that the first-child descent of `Frame.setFocus` from `f` ends at,
with a recursion budget. -/
def firstLeafAux : Nat → Heap → Nat → Option Nat
  | 0, _, _ => none
  | fuel + 1, h, f =>
    match h[f]? with
    | none => none
    | some fr =>
      if hasChildren fr then (fr.children[0]?).bind fun c => firstLeafAux fuel h c
      else some f

/-- The leaf that the first-child descent of `Frame.setFocus` from `f` ends at:
`f` when `f` is a leaf, the first leaf below `f` otherwise. -/
def firstLeaf (h : Heap) (f : Nat) : Option Nat :=
  firstLeafAux (h.length + 1) h f

/-- The frame `m` is the frame that `exchange` on `f` works on: `f`, or the
ancestor reached from `f` through parents that have exactly one child. -/
inductive Forwards (s : Editor) : Nat → Nat → Prop
  | here (f : Nat) : Forwards s f f
  | up {f p m : Nat} : parentOf s.frames f = some p →
      (childrenOf s.frames p).length = 1 → Forwards s p m → Forwards s f m

/-- A frame tree: the child pointers are acyclic, no frame occurs twice among
the children of a frame, and the parent pointer of every child points back. -/
structure TreeHeap (h : Heap) (r : Nat → Nat) : Prop where
  ranked : Ranked h r
  nodup : ∀ p < h.length, (childrenOf h p).Nodup
  back : ∀ p < h.length, ∀ c ∈ childrenOf h p, parentOf h c = some p

/-- A frame tree with columns of different counts: a side-by-side root `0` with
the stacked nodes `1` (leaves `3`, `4`) and `2` (leaves `5`, `6`, `7`). -/
def unevenHeap : Heap :=
  [ { Frame.zero with vertical := true, children := [1, 2] },
    { Frame.zero with parent := some 0, children := [3, 4] },
    { Frame.zero with parent := some 0, children := [5, 6, 7] },
    { Frame.zero with parent := some 1, win := some 0 },
    { Frame.zero with parent := some 1, win := some 1 },
    { Frame.zero with parent := some 2, win := some 2 },
    { Frame.zero with parent := some 2, win := some 3 },
    { Frame.zero with parent := some 2, win := some 4 } ]

/-- The extent along the axis `A` of the frames `cs` when they are laid out one
after the other along the orientation `vertical`: the sum of their sizes along
`A` when that is the axis of the layout, nothing otherwise. -/
def spanOf (h : Heap) (vertical : Bool) (cs : List Nat) (A : Bool) : Int :=
  if vertical = A then (cs.map fun c => dimOf h c A).sum else 0

/-- The window-bearing leaves of the tree of the editor. -/
def panes (s : Editor) : Set Nat :=
  {a | InTree s a ∧ childrenOf s.frames a = [] ∧ winOf s.frames a ≠ none}

/-- A run of closes that are not rejected: each one is on a leaf of the tree of
the state it acts on that has a parent. -/
inductive Closes : Editor → List Nat → Editor → Prop
  | done (s : Editor) : Closes s [] s
  | next {s s1 s' : Editor} {f : Nat} {nf : Option Nat} {fs : List Nat} :
      InTree s f → childrenOf s.frames f = [] → parentOf s.frames f ≠ none →
      close s f = some (s1, nf) → Closes s1 fs s' → Closes s (f :: fs) s'

/-- The ids of all windows created so far, in the order of their creation (a
closed window stays in the heap, hidden). -/
def idsOf (s : Editor) : List Nat :=
  s.windows.map fun w => w.id

/-- Window ids are in order: the ids increase in the order of creation, and
every id and every key of the registry is below the id counter. -/
structure IdInv (s : Editor) : Prop where
  increasing : (idsOf s).Pairwise (· < ·)
  below : ∀ i ∈ idsOf s, i < s.winIndex
  keys : ∀ e ∈ s.wins, e.1 < s.winIndex

/-- Between `s` and `s'` windows were only created: the ids of `s` are all in
place, the new ids are the values the id counter went through, in order, and
every new key of the registry is one of these values. -/
structure IdGrow (s s' : Editor) : Prop where
  ids : ∃ new, idsOf s' = idsOf s ++ new ∧ new.Pairwise (· < ·) ∧
    ∀ i ∈ new, s.winIndex ≤ i ∧ i < s'.winIndex
  index : s.winIndex ≤ s'.winIndex
  keys : ∀ e ∈ s'.wins, e ∈ s.wins ∨ (s.winIndex ≤ e.1 ∧ e.1 < s'.winIndex)

/-- The operations that create or close windows, and `exchange`. -/
inductive WinOp where
  | create (frame : Nat)
  | split (f : Nat) (vertical : Bool)
  | close (f : Nat)
  | exchange (f : Nat)

/-- One window operation: `NewWindow` on a frame, `split`, `close` or
`exchange`. -/
def winStep (s : Editor) : WinOp → Option Editor
  | .create frame => (NewWindow s frame).map fun r => r.1
  | .split f vertical => split s f vertical
  | .close f => (close s f).map fun r => r.1
  | .exchange f => exchange s f

/-- A sequence of window operations, each on the state the one before it left. -/
def winRun (s : Editor) : List WinOp → Option Editor
  | [] => some s
  | op :: ops => (winStep s op).bind fun s1 => winRun s1 ops

/-! ## Lemmas on the heap -/

theorem hasChildren_eq_false {fr : Frame} : hasChildren fr = false ↔ fr.children = [] := by
  cases hc : fr.children <;> simp [hasChildren, hc]

theorem hasChildren_eq_true {fr : Frame} : hasChildren fr = true ↔ fr.children ≠ [] := by
  cases hc : fr.children <;> simp [hasChildren, hc]

theorem SameTree.refl (h : Heap) : SameTree h h :=
  ⟨rfl, fun _ fr hfr => ⟨fr, hfr, rfl, rfl, rfl, rfl⟩⟩

theorem SameTree.trans {h k l : Heap} (a : SameTree h k) (b : SameTree k l) :
    SameTree h l := by
  refine ⟨b.1.trans a.1, fun x fr hfr => ?_⟩
  obtain ⟨fr1, h1, e1, e2, e3, e4⟩ := a.2 x fr hfr
  obtain ⟨fr2, h2, g1, g2, g3, g4⟩ := b.2 x fr1 h1
  exact ⟨fr2, h2, g1.trans e1, g2.trans e2, g3.trans e3, g4.trans e4⟩

theorem SameTree.none {h k : Heap} (a : SameTree h k) {x : Nat} (hx : h[x]? = none) :
    k[x]? = none := by
  rw [List.getElem?_eq_none_iff] at hx ⊢
  rw [a.1]; exact hx

theorem SameTree.childrenOf {h k : Heap} (a : SameTree h k) (x : Nat) :
    childrenOf k x = childrenOf h x := by
  unfold Lapce.childrenOf
  cases hx : h[x]? with
  | none => rw [a.none hx]
  | some fr =>
    obtain ⟨fr', hk, _, e, _⟩ := a.2 x fr hx
    rw [hk]; exact e

theorem SameTree.rankedOf {h k : Heap} (a : SameTree h k) {r : Nat → Nat} (hr : Ranked h r) :
    Ranked k r := by
  refine ⟨fun p hp c hc => ?_, fun x hx => ?_⟩
  · rw [a.childrenOf] at hc
    rw [a.1] at hp ⊢
    exact hr.1 p hp c hc
  · rw [a.1] at hx ⊢
    exact hr.2 x hx

/-- Writing geometry into one frame keeps the tree. -/
theorem SameTree.set {h : Heap} {f : Nat} {fr fr' : Frame} (hf : h[f]? = some fr)
    (e1 : fr'.vertical = fr.vertical) (e2 : fr'.children = fr.children)
    (e3 : fr'.parent = fr.parent) (e4 : fr'.win = fr.win) : SameTree h (h.set f fr') := by
  refine ⟨List.length_set _ _ _, fun a g hg => ?_⟩
  by_cases hfa : f = a
  · subst hfa
    have hlt : f < h.length := (List.getElem?_eq_some.1 hf).1
    rw [hf] at hg
    cases hg
    exact ⟨fr', by rw [List.getElem?_set_self hlt], e1, e2, e3, e4⟩
  · exact ⟨g, by rw [List.getElem?_set_ne hfa]; exact hg, rfl, rfl, rfl, rfl⟩

/-- A monadic fold keeps an invariant that every step keeps, and returns. -/
theorem foldlM_inv {α β : Type} (P : β → Prop) (g : β → α → Option β) :
    ∀ (cs : List α) (b : β), P b →
      (∀ b c, c ∈ cs → P b → ∃ b', g b c = some b' ∧ P b') →
      ∃ b', cs.foldlM g b = some b' ∧ P b'
  | [], b, hb, _ => ⟨b, rfl, hb⟩
  | c :: cs, b, hb, hstep => by
    obtain ⟨b1, h1, hP1⟩ := hstep b c (List.mem_cons_self _ _) hb
    obtain ⟨b2, h2, hP2⟩ := foldlM_inv P g cs b1 hP1
      (fun b c hc hb => hstep b c (List.mem_cons_of_mem _ hc) hb)
    exact ⟨b2, by rw [List.foldlM_cons, h1]; exact h2, hP2⟩

/-! ## `countSplits` -/

/-- `countSplits` reads only orientation and children. -/
theorem countSplitsAux_sameTree {h k : Heap} (a : SameTree h k) :
    ∀ (fuel f : Nat) (v : Bool), countSplitsAux fuel k f v = countSplitsAux fuel h f v
  | 0, _, _ => rfl
  | fuel + 1, f, v => by
    unfold countSplitsAux
    cases hx : h[f]? with
    | none => rw [a.none hx]
    | some fr =>
      obtain ⟨fr', hk, e1, e2, _, _⟩ := a.frames f fr hx
      rw [hk]
      simp only [hasChildren, e1, e2, countSplitsAux_sameTree a fuel]

theorem countSplits_sameTree {h k : Heap} (a : SameTree h k) (f : Nat) (v : Bool) :
    countSplits k f v = countSplits h f v := by
  unfold countSplits
  rw [a.len, countSplitsAux_sameTree a]

/-- On a ranked heap `countSplits` returns, and returns at least 1. -/
theorem countSplitsAux_pos {h : Heap} {r : Nat → Nat} (hr : Ranked h r) (v : Bool) :
    ∀ (fuel f : Nat), f < h.length → r f < fuel →
      ∃ n, countSplitsAux fuel h f v = some n ∧ 1 ≤ n
  | 0, _, _, hf => absurd hf (Nat.not_lt_zero _)
  | fuel + 1, f, hlt, hf => by
    unfold countSplitsAux
    obtain ⟨fr, hfr⟩ : ∃ fr, h[f]? = some fr := ⟨h[f], List.getElem?_eq_getElem hlt⟩
    rw [hfr]
    have hch : ∀ c ∈ fr.children, ∃ n, countSplitsAux fuel h c v = some n ∧ 1 ≤ n := by
      intro c hc
      have := hr.child f hlt c (by unfold childrenOf; rw [hfr]; exact hc)
      exact countSplitsAux_pos hr v fuel c this.1 (by omega)
    cases hcs : fr.children with
    | nil => exact ⟨1, by simp [hasChildren, hcs], le_refl _⟩
    | cons c cs =>
      rw [hcs] at hch
      obtain ⟨n0, hn0, hpos⟩ := hch c (List.mem_cons_self _ _)
      have hh : hasChildren fr = true := by simp [hasChildren, hcs]
      simp only [hh, hcs, Bool.not_true, Bool.false_eq_true, if_false, List.foldlM_cons, hn0,
        Option.some_bind, Option.bind_eq_bind]
      split
      · obtain ⟨m, hm, hP⟩ := foldlM_inv (fun b : Int => 1 ≤ b)
          (fun (n : Int) child =>
            (countSplitsAux fuel h child v).bind fun w => some (n + w)) cs (0 + n0) (by omega)
          (fun b c' hc' hb => by
            obtain ⟨n', hn', hp'⟩ := hch c' (List.mem_cons_of_mem _ hc')
            exact ⟨b + n', by show (countSplitsAux fuel h c' v).bind _ = _; rw [hn']; rfl, by omega⟩)
        exact ⟨m, hm, hP⟩
      · obtain ⟨m, hm, hP⟩ := foldlM_inv (fun b : Int => 1 ≤ b)
          (fun (n : Int) child =>
            (countSplitsAux fuel h child v).bind fun w => some (if w > n then w else n)) cs
          (if n0 > 0 then n0 else 0) (by rw [if_pos (by omega)]; exact hpos)
          (fun b c' hc' hb => by
            obtain ⟨n', hn', hp'⟩ := hch c' (List.mem_cons_of_mem _ hc')
            refine ⟨if n' > b then n' else b,
              by show (countSplitsAux fuel h c' v).bind _ = _; rw [hn']; rfl, ?_⟩
            split <;> omega)
        exact ⟨m, hm, hP⟩

theorem countSplits_pos {h : Heap} {r : Nat → Nat} (hr : Ranked h r) (v : Bool) {f : Nat}
    (hf : f < h.length) : ∃ n, countSplits h f v = some n ∧ 1 ≤ n :=
  countSplitsAux_pos hr v _ f hf (Nat.lt_succ_of_le (hr.bound f hf))

/-! ## Go `int` arithmetic -/

theorem wrap_of_inInt {z : Int} (hz : InInt z) : wrap z = z := by
  unfold InInt at hz
  unfold wrap
  omega

theorem inInt_wrap (z : Int) : InInt (wrap z) := by
  unfold InInt wrap
  omega

theorem wrap_add_wrap (a b : Int) : wrap (wrap a + b) = wrap (a + b) := by
  unfold wrap
  omega

/-- Truncated division by a positive number goes towards zero and no further
than the dividend. -/
theorem tdiv_sandwich (W n : Int) (hn : 1 ≤ n) :
    (0 ≤ W → 0 ≤ Int.tdiv W n ∧ Int.tdiv W n ≤ W ∧ 0 ≤ n * Int.tdiv W n ∧
      n * Int.tdiv W n ≤ W) ∧
    (W ≤ 0 → W ≤ Int.tdiv W n ∧ Int.tdiv W n ≤ 0 ∧ W ≤ n * Int.tdiv W n ∧
      n * Int.tdiv W n ≤ 0) := by
  have key : ∀ a : Int, 0 ≤ a → 0 ≤ Int.tdiv a n ∧ Int.tdiv a n ≤ a ∧ 0 ≤ n * Int.tdiv a n ∧
      n * Int.tdiv a n ≤ a := by
    intro a ha
    rw [Int.tdiv_eq_ediv ha (by omega)]
    have h1 : 0 ≤ a / n := Int.ediv_nonneg ha (by omega)
    have h2 : n * (a / n) ≤ a := Int.mul_ediv_self_le (by omega)
    have h3 : a / n ≤ n * (a / n) := by nlinarith
    exact ⟨h1, by omega, by nlinarith, h2⟩
  refine ⟨key W, fun hW => ?_⟩
  have := key (-W) (by omega)
  rw [Int.neg_tdiv] at this
  obtain ⟨h1, h2, h3, h4⟩ := this
  have e : n * -(Int.tdiv W n) = -(n * Int.tdiv W n) := by ring
  rw [e] at h3 h4
  exact ⟨by omega, by omega, by omega, by omega⟩

theorem inInt_tdiv {W n : Int} (hW : InInt W) (hn : 1 ≤ n) :
    InInt (Int.tdiv W n) ∧ InInt (n * Int.tdiv W n) := by
  unfold InInt at *
  have := tdiv_sandwich W n hn
  by_cases h0 : 0 ≤ W
  · obtain ⟨h1, h2, h3, h4⟩ := this.1 h0
    exact ⟨⟨by omega, by omega⟩, ⟨by omega, by omega⟩⟩
  · obtain ⟨h1, h2, h3, h4⟩ := this.2 (by omega)
    exact ⟨⟨by omega, by omega⟩, ⟨by omega, by omega⟩⟩

/-! ## `setSize` -/

theorem Desc.rank_le {h : Heap} {r : Nat → Nat} (hr : Ranked h r) {a b : Nat}
    (d : Desc h a b) (ha : a < h.length) : r b ≤ r a ∧ b < h.length := by
  induction d with
  | refl a => exact ⟨le_refl _, ha⟩
  | step hc _ ih =>
    have := hr.child _ ha _ hc
    have := ih this.1
    exact ⟨by omega, this.2⟩

theorem Desc.fromSameTree {h k : Heap} (s : SameTree h k) {a b : Nat} (d : Desc k a b) :
    Desc h a b := by
  induction d with
  | refl a => exact Desc.refl a
  | step hc _ ih => exact Desc.step (by rw [← s.childrenOf]; exact hc) ih

theorem Frame.dim_setDim (fr : Frame) (v : Bool) (x : Int) : (fr.setDim v x).dim v = x := by
  cases v <;> rfl

theorem countSplits_leaf {h : Heap} {f : Nat} {fr : Frame} (hf : h[f]? = some fr)
    (hl : hasChildren fr = false) (v : Bool) : countSplits h f v = some 1 := by
  unfold countSplits countSplitsAux
  rw [hf]; simp [hl]

/-- What `setSize` does on a ranked heap: it returns, keeps the tree, writes
only into `f` and its descendants, and leaves `f` with `countSplits * singleValue`
along the axis, the product taken in `int` arithmetic. -/
theorem setSizeAux_spec {r : Nat → Nat} (v : Bool) :
    ∀ (fuel : Nat) (h : Heap) (f : Nat) (sv : Int), Ranked h r → f < h.length → r f < fuel →
      ∃ h', setSizeAux fuel h f v sv = some h' ∧ SameTree h h' ∧
        (∀ a, ¬ Desc h f a → h'[a]? = h[a]?) ∧
        ∃ n fr', countSplits h f v = some n ∧ h'[f]? = some fr' ∧
          (InInt sv → fr'.dim v = wrap (n * sv))
  | 0, _, _, _, _, _, hf => absurd hf (Nat.not_lt_zero _)
  | fuel + 1, h, f, sv, hr, hlt, hf => by
    unfold setSizeAux
    obtain ⟨fr, hfr⟩ : ∃ fr, h[f]? = some fr := ⟨h[f], List.getElem?_eq_getElem hlt⟩
    rw [hfr]
    have hne : ∀ a, ¬ Desc h f a → f ≠ a := fun a hd e => hd (e ▸ Desc.refl f)
    cases hh : hasChildren fr with
    | false =>
      simp only [hh, Bool.not_false, if_true]
      refine ⟨_, rfl, SameTree.set hfr (by cases v <;> rfl) (by cases v <;> rfl)
        (by cases v <;> rfl) (by cases v <;> rfl), fun a hd => List.getElem?_set_ne (hne a hd),
        1, _, countSplits_leaf hfr hh v, List.getElem?_set_self hlt, fun hsv => ?_⟩
      rw [Frame.dim_setDim, one_mul, wrap_of_inInt hsv]
    | true =>
      obtain ⟨max, hmax, _⟩ := countSplits_pos hr v hlt
      have hs1 : SameTree h (h.set f (fr.setDim v (wrap (max * sv)))) :=
        SameTree.set hfr (by cases v <;> rfl) (by cases v <;> rfl)
          (by cases v <;> rfl) (by cases v <;> rfl)
      -- the loop invariant, and that one child keeps it
      have key : ∀ (g : Heap → Nat → Option Heap),
          (∀ hc c, c ∈ fr.children → SameTree h hc → ∃ sv', g hc c = setSizeAux fuel hc c v sv') →
          ∃ h', fr.children.foldlM g (h.set f (fr.setDim v (wrap (max * sv)))) = some h' ∧
            (SameTree h h' ∧ (∀ a, ¬ Desc h f a → h'[a]? = h[a]?) ∧
              h'[f]? = some (fr.setDim v (wrap (max * sv)))) := by
        intro g hg
        refine foldlM_inv (fun hc : Heap => SameTree h hc ∧ (∀ a, ¬ Desc h f a → hc[a]? = h[a]?) ∧
          hc[f]? = some (fr.setDim v (wrap (max * sv)))) g fr.children _
          ⟨hs1, fun a hd => List.getElem?_set_ne (hne a hd), List.getElem?_set_self hlt⟩ ?_
        intro hc c hcm ⟨hst, hfc, hff⟩
        have hcf : c ∈ childrenOf h f := by unfold childrenOf; rw [hfr]; exact hcm
        have hcr := hr.child f hlt c hcf
        obtain ⟨sv', hsv'⟩ := hg hc c hcm hst
        obtain ⟨h2, e2, s2, f2, _⟩ := setSizeAux_spec v fuel hc c sv' (hst.rankedOf hr)
          (by rw [hst.len]; exact hcr.1) (by omega)
        refine ⟨h2, hsv'.trans e2, hst.trans s2, fun a hd => ?_, ?_⟩
        · rw [f2 a (fun d => hd (Desc.step hcf (d.fromSameTree hst)))]
          exact hfc a hd
        · rw [f2 f (fun d => ?_)]
          · exact hff
          · have := (d.fromSameTree hst).rank_le hr hcr.1
            omega
      simp only [hh, hmax, Option.some_bind, Option.bind_eq_bind, Bool.not_true,
        Bool.false_eq_true, if_false]
      split
      · obtain ⟨h', e, st, fc, ff⟩ := key _ (fun hc c _ _ => ⟨sv, rfl⟩)
        exact ⟨h', e, st, fc, max, _, rfl, ff, fun _ => Frame.dim_setDim _ _ _⟩
      · obtain ⟨h', e, st, fc, ff⟩ := key
          (fun (hc : Heap) child =>
            (countSplits hc child v).bind fun n =>
              if n = 0 then none
              else setSizeAux fuel hc child v (Int.tdiv (wrap (sv * max)) n))
          (fun hc c hcm hst => by
            have hcf : c ∈ childrenOf h f := by unfold childrenOf; rw [hfr]; exact hcm
            obtain ⟨n, hn, hpos⟩ := countSplits_pos (hst.rankedOf hr) v
              (show c < hc.length by rw [hst.len]; exact (hr.child f hlt c hcf).1)
            refine ⟨Int.tdiv (wrap (sv * max)) n, ?_⟩
            show (countSplits hc c v).bind _ = _
            rw [hn, Option.some_bind, if_neg (by omega)])
        exact ⟨h', e, st, fc, max, _, rfl, ff, fun _ => Frame.dim_setDim _ _ _⟩

/-! ## `setPos` and the layout pass -/

theorem getElem?_of_lt {h : Heap} {a : Nat} (ha : a < h.length) : ∃ fr, h[a]? = some fr :=
  ⟨h[a], List.getElem?_eq_getElem ha⟩

/-- On a ranked heap `setPos` returns and keeps the tree. -/
theorem setPosAux_spec {r : Nat → Nat} :
    ∀ (fuel : Nat) (h : Heap) (f : Nat) (x y : Int), Ranked h r → f < h.length → r f < fuel →
      ∃ h', setPosAux fuel h f x y = some h' ∧ SameTree h h'
  | 0, _, _, _, _, _, _, hf => absurd hf (Nat.not_lt_zero _)
  | fuel + 1, h, f, x, y, hr, hlt, hf => by
    unfold setPosAux
    obtain ⟨fr, hfr⟩ := getElem?_of_lt hlt
    rw [hfr]
    have hs1 : SameTree h (h.set f { fr with x := x, y := y }) :=
      SameTree.set hfr rfl rfl rfl rfl
    cases hh : hasChildren fr with
    | false =>
      simp only [hh, Bool.not_false, if_true]
      exact ⟨_, rfl, hs1⟩
    | true =>
      simp only [hh, Bool.not_true, Bool.false_eq_true, if_false]
      obtain ⟨st, hst, hP⟩ := foldlM_inv (fun st : Heap × Int × Int => SameTree h st.1)
        (fun (st : Heap × Int × Int) child =>
            (setPosAux fuel st.1 child st.2.1 st.2.2).bind fun h2 =>
              (h2[child]?).bind fun c =>
                (h2[f]?).bind fun pf =>
                  if pf.vertical then some (h2, wrap (st.2.1 + c.width), st.2.2)
                  else some (h2, st.2.1, wrap (st.2.2 + c.height)))
        fr.children (h.set f { fr with x := x, y := y }, x, y) hs1
        (fun st c hcm hst => by
          have hcr := hr.child f hlt c (by unfold childrenOf; rw [hfr]; exact hcm)
          obtain ⟨h2, e2, s2⟩ := setPosAux_spec fuel st.1 c st.2.1 st.2.2 (hst.rankedOf hr)
            (by rw [hst.len]; exact hcr.1) (by omega)
          have s3 := hst.trans s2
          obtain ⟨cf, hcf⟩ := getElem?_of_lt (show c < h2.length by rw [s3.len]; exact hcr.1)
          obtain ⟨pf, hpf⟩ := getElem?_of_lt (show f < h2.length by rw [s3.len]; exact hlt)
          by_cases hv : pf.vertical = true
          · exact ⟨(h2, wrap (st.2.1 + cf.width), st.2.2), by simp [e2, hcf, hpf, hv], s3⟩
          · exact ⟨(h2, st.2.1, wrap (st.2.2 + cf.height)), by simp [e2, hcf, hpf, hv], s3⟩)
      exact ⟨st.1, by rw [hst]; rfl, hP⟩

/-- The layout pass returns on a ranked heap and only rewrites geometry. -/
theorem equalWins_spec {s : Editor} {r : Nat → Nat} (hr : Ranked s.frames r)
    (hroot : s.topFrame < s.frames.length) :
    ∃ h', equalWins s = some { s with frames := h' } ∧ SameTree s.frames h' := by
  unfold equalWins
  obtain ⟨nw, hnw, hpw⟩ := countSplits_pos hr true hroot
  obtain ⟨h1, e1, s1, _⟩ := setSizeAux_spec true (s.frames.length + 1) s.frames s.topFrame
    (Int.tdiv s.width nw) hr hroot (Nat.lt_succ_of_le (hr.bound _ hroot))
  have hr1 := s1.rankedOf hr
  have hroot1 : s.topFrame < h1.length := by rw [s1.len]; exact hroot
  obtain ⟨nh, hnh, hph⟩ := countSplits_pos hr1 false hroot1
  obtain ⟨h2, e2, s2, _⟩ := setSizeAux_spec false (h1.length + 1) h1 s.topFrame
    (Int.tdiv s.height nh) hr1 hroot1 (Nat.lt_succ_of_le (hr1.bound _ hroot1))
  have hr2 := s2.rankedOf hr1
  have hroot2 : s.topFrame < h2.length := by rw [s2.len]; exact hroot1
  obtain ⟨h3, e3, s3⟩ := setPosAux_spec (h2.length + 1) h2 s.topFrame 0 0 hr2 hroot2
    (Nat.lt_succ_of_le (hr2.bound _ hroot2))
  refine ⟨h3, ?_, (s1.trans s2).trans s3⟩
  have e1' : setSize s.frames s.topFrame true (Int.tdiv s.width nw) = some h1 := e1
  have e2' : setSize h1 s.topFrame false (Int.tdiv s.height nh) = some h2 := e2
  have e3' : setPos h2 s.topFrame 0 0 = some h3 := e3
  simp only [hnw, Option.some_bind, if_neg (show nw ≠ 0 by omega), e1', hnh,
    if_neg (show nh ≠ 0 by omega), e2', e3', Option.map_some']

/-! ## Reading the heap -/

theorem childrenOf_eq {h : Heap} {a : Nat} {fr : Frame} (hf : h[a]? = some fr) :
    childrenOf h a = fr.children := by
  unfold childrenOf; rw [hf]

theorem parentOf_eq {h : Heap} {a : Nat} {fr : Frame} (hf : h[a]? = some fr) :
    parentOf h a = fr.parent := by
  unfold parentOf; rw [hf]; rfl

theorem winOf_eq {h : Heap} {a : Nat} {fr : Frame} (hf : h[a]? = some fr) :
    winOf h a = fr.win := by
  unfold winOf; rw [hf]; rfl

theorem verticalOf_eq {h : Heap} {a : Nat} {fr : Frame} (hf : h[a]? = some fr) :
    verticalOf h a = fr.vertical := by
  unfold verticalOf; rw [hf]

theorem childrenOf_none {h : Heap} {a : Nat} (hf : h.length ≤ a) : childrenOf h a = [] := by
  unfold childrenOf; rw [List.getElem?_eq_none hf]

theorem parentOf_none {h : Heap} {a : Nat} (hf : h.length ≤ a) : parentOf h a = none := by
  unfold parentOf; rw [List.getElem?_eq_none hf]; rfl

theorem winOf_none {h : Heap} {a : Nat} (hf : h.length ≤ a) : winOf h a = none := by
  unfold winOf; rw [List.getElem?_eq_none hf]; rfl

theorem getElem?_set_eq_ite (h : Heap) (a b : Nat) (fr : Frame) :
    (h.set a fr)[b]? = if a = b ∧ a < h.length then some fr else h[b]? := by
  rw [List.getElem?_set]
  by_cases hab : a = b
  · subst hab
    by_cases hl : a < h.length
    · simp [hl]
    · simp [hl, List.getElem?_eq_none (Nat.le_of_not_lt hl)]
  · simp [hab]

theorem childrenOf_set (h : Heap) (a b : Nat) (fr : Frame) :
    childrenOf (h.set a fr) b = if a = b ∧ a < h.length then fr.children else childrenOf h b := by
  unfold childrenOf; rw [getElem?_set_eq_ite]
  by_cases hc : a = b ∧ a < h.length
  · rw [if_pos hc, if_pos hc]
  · rw [if_neg hc, if_neg hc]

theorem parentOf_set (h : Heap) (a b : Nat) (fr : Frame) :
    parentOf (h.set a fr) b = if a = b ∧ a < h.length then fr.parent else parentOf h b := by
  unfold parentOf; rw [getElem?_set_eq_ite]
  by_cases hc : a = b ∧ a < h.length
  · rw [if_pos hc, if_pos hc]; rfl
  · rw [if_neg hc, if_neg hc]

theorem winOf_set (h : Heap) (a b : Nat) (fr : Frame) :
    winOf (h.set a fr) b = if a = b ∧ a < h.length then fr.win else winOf h b := by
  unfold winOf; rw [getElem?_set_eq_ite]
  by_cases hc : a = b ∧ a < h.length
  · rw [if_pos hc, if_pos hc]; rfl
  · rw [if_neg hc, if_neg hc]

theorem verticalOf_set (h : Heap) (a b : Nat) (fr : Frame) :
    verticalOf (h.set a fr) b =
      if a = b ∧ a < h.length then fr.vertical else verticalOf h b := by
  unfold verticalOf; rw [getElem?_set_eq_ite]
  by_cases hc : a = b ∧ a < h.length
  · rw [if_pos hc, if_pos hc]
  · rw [if_neg hc, if_neg hc]

theorem getElem?_push (h : Heap) (fr : Frame) (b : Nat) :
    (h ++ [fr])[b]? = if b = h.length then some fr else h[b]? := by
  by_cases hb : b < h.length
  · rw [List.getElem?_append_left hb, if_neg (by omega)]
  · rw [List.getElem?_append_right (by omega)]
    by_cases he : b = h.length
    · subst he; simp
    · rw [if_neg he, List.getElem?_eq_none (show h.length ≤ b by omega)]
      exact List.getElem?_eq_none (by simp only [List.length_singleton]; omega)

theorem childrenOf_push (h : Heap) (fr : Frame) (b : Nat) :
    childrenOf (h ++ [fr]) b = if b = h.length then fr.children else childrenOf h b := by
  unfold childrenOf; rw [getElem?_push]
  by_cases hc : b = h.length
  · rw [if_pos hc, if_pos hc]
  · rw [if_neg hc, if_neg hc]

theorem parentOf_push (h : Heap) (fr : Frame) (b : Nat) :
    parentOf (h ++ [fr]) b = if b = h.length then fr.parent else parentOf h b := by
  unfold parentOf; rw [getElem?_push]
  by_cases hc : b = h.length
  · rw [if_pos hc, if_pos hc]; rfl
  · rw [if_neg hc, if_neg hc]

theorem winOf_push (h : Heap) (fr : Frame) (b : Nat) :
    winOf (h ++ [fr]) b = if b = h.length then fr.win else winOf h b := by
  unfold winOf; rw [getElem?_push]
  by_cases hc : b = h.length
  · rw [if_pos hc, if_pos hc]; rfl
  · rw [if_neg hc, if_neg hc]

theorem verticalOf_push (h : Heap) (fr : Frame) (b : Nat) :
    verticalOf (h ++ [fr]) b = if b = h.length then fr.vertical else verticalOf h b := by
  unfold verticalOf; rw [getElem?_push]
  by_cases hc : b = h.length
  · rw [if_pos hc, if_pos hc]
  · rw [if_neg hc, if_neg hc]

theorem SameTree.parentOf {h k : Heap} (a : SameTree h k) (x : Nat) :
    parentOf k x = parentOf h x := by
  cases hx : h[x]? with
  | none => rw [parentOf_none (List.getElem?_eq_none_iff.1 (a.none hx)),
      parentOf_none (List.getElem?_eq_none_iff.1 hx)]
  | some fr =>
    obtain ⟨fr', hk, _, _, e, _⟩ := a.frames x fr hx
    rw [parentOf_eq hk, parentOf_eq hx, e]

theorem SameTree.winOf {h k : Heap} (a : SameTree h k) (x : Nat) :
    winOf k x = winOf h x := by
  cases hx : h[x]? with
  | none => rw [winOf_none (List.getElem?_eq_none_iff.1 (a.none hx)),
      winOf_none (List.getElem?_eq_none_iff.1 hx)]
  | some fr =>
    obtain ⟨fr', hk, _, _, _, e⟩ := a.frames x fr hx
    rw [winOf_eq hk, winOf_eq hx, e]

theorem SameTree.verticalOf {h k : Heap} (a : SameTree h k) (x : Nat) :
    verticalOf k x = verticalOf h x := by
  unfold Lapce.verticalOf
  cases hx : h[x]? with
  | none => rw [a.none hx]
  | some fr =>
    obtain ⟨fr', hk, e, _⟩ := a.frames x fr hx
    rw [hk]; exact e

theorem Desc.of_sameTree {h k : Heap} (s : SameTree h k) {a b : Nat} (d : Desc h a b) :
    Desc k a b := by
  induction d with
  | refl a => exact Desc.refl a
  | step hc _ ih => exact Desc.step (by rw [s.childrenOf]; exact hc) ih

/-! ## Well-formed states -/

theorem WFx.ranked {s : Editor} {hole : Option Nat} (w : WFx s hole) :
    Ranked s.frames (fun a => s.frames.length - a) := by
  refine ⟨fun p hp c hc => ?_, fun a _ => Nat.sub_le _ _⟩
  have := w.edge p hp c hc
  exact ⟨this.2.1, by omega⟩

/-- Well-formedness reads the tree, the root and the buffers only. -/
theorem WFx.geo {s s' : Editor} {hole : Option Nat} (w : WFx s hole)
    (st : SameTree s.frames s'.frames) (ht : s'.topFrame = s.topFrame)
    (hb : ∀ x, (bufferOf s.windows x).isSome = true → (bufferOf s'.windows x).isSome = true) :
    WFx s' hole := by
  refine ⟨?_, ?_, ?_, ?_, ?_, ?_⟩
  · rw [ht, st.len]; exact w.root
  · rw [ht, st.parentOf]; exact w.rootParent
  · intro p hp c hc
    rw [st.len] at hp
    rw [st.childrenOf] at hc
    rw [st.len, st.parentOf, st.childrenOf, st.winOf]
    exact w.edge p hp c hc
  · intro p hp
    rw [st.len] at hp
    rw [st.childrenOf]; exact w.nodup p hp
  · intro p hp
    rw [st.len] at hp
    rw [st.childrenOf, st.winOf]; exact w.noBoth p hp
  · intro p hp
    rw [st.len] at hp
    rw [st.winOf]
    have := w.winOk p hp
    cases hw : winOf s.frames p with
    | none => rfl
    | some x =>
      rw [hw] at this
      simp only [Option.all_some] at this ⊢
      exact hb x this

theorem WFx.weaken {s : Editor} (w : WFx s none) (hole : Option Nat) : WFx s hole :=
  ⟨w.root, w.rootParent, fun p hp c hc =>
    let e := w.edge p hp c hc
    ⟨e.1, e.2.1, e.2.2.1, fun _ => e.2.2.2 (by simp)⟩, w.nodup, w.noBoth, w.winOk⟩

/-- The hole is filled when the frame is not a child any more. -/
theorem WFx.fill {s : Editor} {x : Nat} (w : WFx s (some x))
    (hx : ∀ p < s.frames.length, x ∉ childrenOf s.frames p) : WFx s none :=
  ⟨w.root, w.rootParent, fun p hp c hc =>
    let e := w.edge p hp c hc
    ⟨e.1, e.2.1, e.2.2.1, fun _ => e.2.2.2 (fun h => hx p hp (Option.some.inj h ▸ hc))⟩,
    w.nodup, w.noBoth, w.winOk⟩

/-- A window a frame points to is allocated. -/
theorem WFx.window {s : Editor} {hole : Option Nat} (w : WFx s hole) {p x : Nat}
    (hw : winOf s.frames p = some x) :
    ∃ win b, s.windows[x]? = some win ∧ win.buffer = some b := by
  have hp : p < s.frames.length := by
    by_contra hn
    rw [winOf_none (Nat.le_of_not_lt hn)] at hw
    cases hw
  have := w.winOk p hp
  rw [hw] at this
  simp only [Option.all_some, bufferOf] at this
  cases hx : s.windows[x]? with
  | none => rw [hx] at this; cases this
  | some win =>
    rw [hx] at this
    cases hb : win.buffer with
    | none => simp [hb] at this
    | some b => exact ⟨win, b, rfl, hb⟩

/-- On a well-formed state `setFocus` on a child returns and only moves the
focus, to some window. -/
theorem setFocusAux_spec {s : Editor} (w : WF s) :
    ∀ (fuel c : Nat), (∃ p, p < s.frames.length ∧ c ∈ childrenOf s.frames p) →
      s.frames.length - c < fuel →
      ∃ x, setFocusAux fuel s c = some { s with focus := some x }
  | 0, _, _, hf => absurd hf (Nat.not_lt_zero _)
  | fuel + 1, c, ⟨p, hp, hc⟩, hf => by
    unfold setFocusAux
    have e := w.edge p hp c hc
    obtain ⟨fr, hfr⟩ := getElem?_of_lt e.2.1
    rw [hfr]
    cases hcs : fr.children with
    | nil =>
      have hw := e.2.2.2 (by simp) (by rw [childrenOf_eq hfr]; exact hcs)
      rw [winOf_eq hfr] at hw
      obtain ⟨x, hx⟩ := Option.ne_none_iff_exists'.1 hw
      obtain ⟨win, _, hwin, _⟩ := w.window (show winOf s.frames c = some x by
        rw [winOf_eq hfr]; exact hx)
      exact ⟨x, by simp [hasChildren, hcs, hx, hwin]⟩
    | cons c0 cs =>
      have hc0 : c0 ∈ childrenOf s.frames c := by rw [childrenOf_eq hfr, hcs]; simp
      have e0 := w.edge c e.2.1 c0 hc0
      obtain ⟨x, hx⟩ := setFocusAux_spec w fuel c0 ⟨c, e.2.1, hc0⟩ (by omega)
      exact ⟨x, by simp [hasChildren, hcs, hx]⟩

theorem setFocus_spec {s : Editor} (w : WF s) {c p : Nat} (hp : p < s.frames.length)
    (hc : c ∈ childrenOf s.frames p) : ∃ x, setFocus s c = some { s with focus := some x } :=
  setFocusAux_spec w _ c ⟨p, hp, hc⟩ (by omega)

/-- What `setFocus` does when it returns: it descends along first children to a
leaf and moves the focus to the window of that leaf. -/
theorem setFocusAux_leaf : ∀ (fuel : Nat) (s : Editor) (c : Nat) (s' : Editor),
    setFocusAux fuel s c = some s' →
    ∃ l x, firstLeafAux fuel s.frames c = some l ∧ Desc s.frames c l ∧
      childrenOf s.frames l = [] ∧ winOf s.frames l = some x ∧
      s' = { s with focus := some x }
  | 0, _, _, _, e => by cases e
  | fuel + 1, s, c, s', e => by
    unfold setFocusAux at e
    unfold firstLeafAux
    cases hfr : s.frames[c]? with
    | none => rw [hfr] at e; cases e
    | some fr =>
      rw [hfr] at e
      cases hh : hasChildren fr with
      | true =>
        simp only [hh, if_true] at e ⊢
        obtain ⟨c0, hc0, e0⟩ := Option.bind_eq_some.1 e
        obtain ⟨l, x, hl, d, hleaf, hw, hs⟩ := setFocusAux_leaf fuel s c0 s' e0
        exact ⟨l, x, by rw [hc0]; exact hl,
          Desc.step (by rw [childrenOf_eq hfr]; exact List.getElem?_mem hc0) d, hleaf, hw, hs⟩
      | false =>
        simp only [hh, Bool.false_eq_true, if_false] at e ⊢
        obtain ⟨w, hw, e1⟩ := Option.bind_eq_some.1 e
        obtain ⟨_, _, e2⟩ := Option.map_eq_some'.1 e1
        exact ⟨c, w, rfl, Desc.refl c,
          by rw [childrenOf_eq hfr]; exact hasChildren_eq_false.1 hh,
          by rw [winOf_eq hfr]; exact hw, e2.symm⟩

/-! ## `split` -/

theorem set_push {α : Type} (h : List α) (a b : α) : (h ++ [a]).set h.length b = h ++ [b] := by
  induction h with
  | nil => rfl
  | cons x xs ih => simp [ih]

theorem getElem?_push_self {α : Type} (h : List α) (a : α) :
    (h ++ [a])[h.length]? = some a := by
  simp

theorem insAfter_cons (f n c : Nat) (cs : List Nat) :
    insAfter f n (c :: cs) =
      if c = f then c :: n :: insAfter f n cs else c :: insAfter f n cs := rfl

theorem foldl_insAfter (f n : Nat) : ∀ (cs acc : List Nat),
    cs.foldl (fun acc child => if child = f then acc ++ [child, n] else acc ++ [child]) acc =
      acc ++ insAfter f n cs
  | [], acc => by simp [insAfter]
  | c :: cs, acc => by
    rw [List.foldl_cons, foldl_insAfter f n cs]
    rw [insAfter_cons]
    by_cases hc : c = f <;> simp [hc]

theorem mem_insAfter {f n x : Nat} : ∀ {cs : List Nat},
    x ∈ insAfter f n cs ↔ x ∈ cs ∨ (x = n ∧ f ∈ cs)
  | [] => by simp [insAfter]
  | c :: cs => by
    rw [insAfter_cons]
    by_cases hc : c = f
    · subst hc
      simp only [if_true, List.mem_cons, @mem_insAfter c n x cs, true_or, and_true]
      tauto
    · simp only [if_neg hc, List.mem_cons, @mem_insAfter f n x cs]
      have : f ≠ c := fun h => hc h.symm
      simp only [this, false_or]
      tauto

theorem insAfter_eq_nil {f n : Nat} {cs : List Nat} : insAfter f n cs = [] ↔ cs = [] := by
  cases cs with
  | nil => simp [insAfter]
  | cons c cs => rw [insAfter_cons]; by_cases hc : c = f <;> simp [hc]

theorem nodup_insAfter {f n : Nat} : ∀ {cs : List Nat}, cs.Nodup → n ∉ cs →
    (insAfter f n cs).Nodup
  | [], _, _ => by simp [insAfter]
  | c :: cs, hnd, hn => by
    have hnd' := List.nodup_cons.1 hnd
    have hn' : n ≠ c ∧ n ∉ cs := by simpa using hn
    have ih := nodup_insAfter (f := f) hnd'.2 hn'.2
    rw [insAfter_cons]
    by_cases hc : c = f
    · subst hc
      rw [if_pos rfl]
      refine List.nodup_cons.2 ⟨?_, List.nodup_cons.2 ⟨?_, ih⟩⟩
      · simp only [List.mem_cons, mem_insAfter, not_or]
        exact ⟨fun h => hn'.1 h.symm, hnd'.1, fun h => hnd'.1 h.2⟩
      · simp only [mem_insAfter, not_or]
        exact ⟨hn'.2, fun h => hnd'.1 h.2⟩
    · rw [if_neg hc]
      refine List.nodup_cons.2 ⟨?_, ih⟩
      simp only [mem_insAfter, not_or]
      exact ⟨hnd'.1, fun h => hn'.1 h.1.symm⟩

/-- The new frame comes right behind `f` and nothing else moves. -/
theorem insAfter_append {f n : Nat} : ∀ {pre : List Nat} (post : List Nat), f ∉ pre →
    f ∉ post → insAfter f n (pre ++ f :: post) = pre ++ f :: n :: post
  | [], post, _, hpost => by
    have : ∀ l : List Nat, f ∉ l → insAfter f n l = l := by
      intro l
      induction l with
      | nil => intro _; rfl
      | cons c cs ih =>
        intro h
        have h' : f ≠ c ∧ f ∉ cs := by simpa using h
        rw [insAfter_cons]
        rw [if_neg (fun e => h'.1 e.symm), ih h'.2]
    show insAfter f n (f :: post) = f :: n :: post
    rw [insAfter_cons]
    rw [if_pos rfl, this post hpost]
  | c :: pre, post, hpre, hpost => by
    have h' : f ≠ c ∧ f ∉ pre := by simpa using hpre
    show insAfter f n (c :: (pre ++ f :: post)) = c :: (pre ++ f :: n :: post)
    rw [insAfter_cons]
    rw [if_neg (fun e => h'.1 e.symm), insAfter_append post h'.2 hpost]

theorem NewWindow_push (s : Editor) :
    NewWindow { s with frames := s.frames ++ [Frame.zero] } s.frames.length =
      some (splitBase s none, s.windows.length) := by
  simp only [NewWindow, getElem?_push_self, Option.map_some', set_push, splitBase]

theorem loadBuffer_new (s : Editor) (b : Nat) :
    loadBuffer (splitBase s none) s.windows.length (some b) = some (splitBase s (some b)) := by
  simp only [loadBuffer, getElem?_push_self, Option.some_bind, Option.map_some', set_push,
    splitBase]

/-- The state `split` hands to the layout pass in the flat branch. -/
theorem split_flat_run {s : Editor} {f w p b : Nat} {v : Bool} {fr pfr : Frame} {win : Window}
    (hfr : s.frames[f]? = some fr) (hleaf : fr.children = []) (hw : fr.win = some w)
    (hwin : s.windows[w]? = some win) (hb : win.buffer = some b)
    (hp : fr.parent = some p) (hpfr : s.frames[p]? = some pfr) (hv : pfr.vertical = v) :
    ∃ s3, split s f v = (equalWins s3).map (fun s4 => { s4 with focus := some w }) ∧
      FlatSplit s s3 f p := by
  have hpl : p < s.frames.length := (List.getElem?_eq_some.1 hpfr).1
  have hpb : (splitBase s (some b)).frames[p]? = some pfr := by
    show (s.frames ++ _)[p]? = _
    rw [List.getElem?_append_left hpl, hpfr]
  refine ⟨flatState s f p b pfr, ?_, ?_⟩
  · unfold split
    simp only [hfr, Option.some_bind, hasChildren, hleaf, List.length_nil, lt_irrefl,
      decide_False, Bool.false_eq_true, if_false, hw, hwin, hb, NewWindow_push, loadBuffer_new,
      hp, hpb, hv, beq_self_eq_true, if_true]
    simp only [splitFlat, splitBase, getElem?_push_self, Option.some_bind, set_push,
      List.getElem?_append_left hpl, hpfr, Option.map_some', foldl_insAfter, List.nil_append,
      flatState]
  · refine ⟨?_, ?_, ?_, ?_, ?_, ⟨b, rfl⟩, rfl, rfl, rfl⟩
    · simp [flatState]
    · intro a
      simp only [flatState, childrenOf_set, childrenOf_push, List.length_append, List.length_singleton,
        childrenOf_eq hpfr]
      by_cases ha : a = p
      · subst ha; simp [Nat.lt_succ_of_lt hpl]
      · rw [if_neg (fun h => ha h.1.symm), if_neg ha]
        by_cases hn : a = s.frames.length
        · rw [if_pos hn, hn, childrenOf_none (le_refl _)]; rfl
        · rw [if_neg hn]
    · intro a
      simp only [flatState, parentOf_set, parentOf_push, List.length_append, List.length_singleton]
      by_cases ha : a = p
      · subst ha
        simp only [true_and, Nat.lt_succ_of_lt hpl, if_true, if_neg (Nat.ne_of_lt hpl)]
        rw [parentOf_eq hpfr]
      · rw [if_neg (fun h => ha h.1.symm)]
    · intro a
      simp only [flatState, winOf_set, winOf_push, List.length_append, List.length_singleton]
      by_cases ha : a = p
      · subst ha
        simp only [true_and, Nat.lt_succ_of_lt hpl, if_true, if_neg (Nat.ne_of_lt hpl)]
        rw [winOf_eq hpfr]
      · rw [if_neg (fun h => ha h.1.symm)]
    · intro a
      simp only [flatState, verticalOf_set, verticalOf_push, List.length_append, List.length_singleton]
      by_cases ha : a = p
      · subst ha
        simp only [true_and, Nat.lt_succ_of_lt hpl, if_true]
        rw [verticalOf_eq hpfr]
      · rw [if_neg (fun h => ha h.1.symm)]
        by_cases hn : a = s.frames.length
        · rw [if_pos hn, hn]
          unfold verticalOf
          rw [List.getElem?_eq_none (le_refl _)]; rfl
        · rw [if_neg hn]

/-- The state `split` hands to the layout pass in the nesting branch. -/
theorem split_nest_run {s : Editor} {f w b : Nat} {v : Bool} {fr : Frame} {win : Window}
    (hfr : s.frames[f]? = some fr) (hleaf : fr.children = []) (hw : fr.win = some w)
    (hwin : s.windows[w]? = some win) (hb : win.buffer = some b)
    (hp : fr.parent = none ∨
      ∃ p pfr, fr.parent = some p ∧ s.frames[p]? = some pfr ∧ pfr.vertical ≠ v) :
    split s f v = (equalWins (nestState s f w b v fr win)).map
        (fun s4 => { s4 with focus := some w }) ∧
      NestSplit s (nestState s f w b v fr win) f w v := by
  have hfl : f < s.frames.length := (List.getElem?_eq_some.1 hfr).1
  have hwl : w < s.windows.length := (List.getElem?_eq_some.1 hwin).1
  have hnest : splitNest (splitBase s (some b)) f w s.frames.length v =
      some (nestState s f w b v fr win) := by
    have h2 : ∀ x y : Frame, ((s.frames ++ [x]) ++ [y])[f]? = some fr := by
      intro x y
      rw [List.getElem?_append_left (by rw [List.length_append]; omega),
        List.getElem?_append_left hfl, hfr]
    simp only [splitNest, splitBase, getElem?_push_self, Option.some_bind, set_push,
      List.getElem?_append_left hwl, hwin, List.length_append, List.length_singleton,
      h2, Option.map_some', nestState]
  refine ⟨?_, ?_⟩
  · unfold split
    simp only [hfr, Option.some_bind, hasChildren, hleaf, List.length_nil, lt_irrefl,
      decide_False, Bool.false_eq_true, if_false, hw, hwin, hb, NewWindow_push, loadBuffer_new]
    rcases hp with hp | ⟨p, pfr, hp, hpfr, hv⟩
    · simp only [hp, hnest, Option.some_bind]
    · have hpl : p < s.frames.length := (List.getElem?_eq_some.1 hpfr).1
      have hpb : (splitBase s (some b)).frames[p]? = some pfr := by
        show (s.frames ++ _)[p]? = _
        rw [List.getElem?_append_left hpl, hpfr]
      have hvv : (pfr.vertical == v) = false := by
        cases hx : pfr.vertical <;> cases v <;> simp_all
      simp only [hp, hpb, Option.some_bind, hvv, Bool.false_eq_true, if_false, hnest]
  · refine ⟨?_, ?_, ?_, ?_, ?_, ⟨b, win, hwin, rfl⟩, rfl, rfl, rfl⟩
    · simp [nestState]
    · intro a
      simp only [nestState, childrenOf_set, childrenOf_push, List.length_append,
        List.length_singleton]
      by_cases ha : a = f
      · subst ha; simp [Nat.lt_succ_of_lt (Nat.lt_succ_of_lt hfl)]
      · rw [if_neg (fun h => ha h.1.symm), if_neg ha]
        by_cases hn : a = s.frames.length + 1
        · rw [if_pos hn, hn, childrenOf_none (Nat.le_succ _)]; rfl
        · rw [if_neg hn]
          by_cases hn' : a = s.frames.length
          · rw [if_pos hn', hn', childrenOf_none (le_refl _)]; rfl
          · rw [if_neg hn']
    · intro a
      simp only [nestState, parentOf_set, parentOf_push, List.length_append,
        List.length_singleton]
      by_cases ha : a = f
      · subst ha
        rw [if_pos ⟨rfl, by omega⟩, if_neg (by omega), parentOf_eq hfr]
      · rw [if_neg (fun h => ha h.1.symm)]
        by_cases hn : a = s.frames.length + 1
        · rw [if_pos hn, if_pos (Or.inr hn)]
        · rw [if_neg hn]
          by_cases hn' : a = s.frames.length
          · rw [if_pos hn', if_pos (Or.inl hn')]
          · rw [if_neg hn', if_neg (by omega)]
    · intro a
      simp only [nestState, winOf_set, winOf_push, List.length_append, List.length_singleton]
      by_cases ha : a = f
      · subst ha
        rw [if_pos ⟨rfl, by omega⟩, if_pos rfl]
      · rw [if_neg (fun h => ha h.1.symm), if_neg ha]
        by_cases hn : a = s.frames.length + 1
        · rw [if_pos hn, if_neg (by omega), if_pos hn]
        · rw [if_neg hn, if_neg hn]
    · intro a
      simp only [nestState, verticalOf_set, verticalOf_push, List.length_append,
        List.length_singleton]
      by_cases ha : a = f
      · subst ha
        rw [if_pos ⟨rfl, by omega⟩, if_pos rfl]
      · rw [if_neg (fun h => ha h.1.symm), if_neg ha]
        have hz : ∀ x, s.frames.length ≤ x → verticalOf s.frames x = false := by
          intro x hx
          unfold verticalOf
          rw [List.getElem?_eq_none hx]
        by_cases hn : a = s.frames.length + 1
        · rw [if_pos hn, hn, hz _ (Nat.le_succ _)]; rfl
        · rw [if_neg hn]
          by_cases hn' : a = s.frames.length
          · rw [if_pos hn', hn', hz _ (le_refl _)]; rfl
          · rw [if_neg hn']

theorem bufferOf_push (ws : List Window) (w0 : Window) (x : Nat) :
    bufferOf (ws ++ [w0]) x = if x = ws.length then w0.buffer else bufferOf ws x := by
  unfold bufferOf
  by_cases hx : x < ws.length
  · rw [List.getElem?_append_left hx, if_neg (by omega)]
  · rw [List.getElem?_append_right (by omega)]
    by_cases he : x = ws.length
    · subst he; simp
    · rw [if_neg he, List.getElem?_eq_none (show ws.length ≤ x by omega)]
      rw [List.getElem?_eq_none (by simp only [List.length_singleton]; omega)]

theorem bufferOf_set_frame {ws : List Window} {w : Nat} {win : Window}
    (hw : ws[w]? = some win) (k x : Nat) :
    bufferOf (ws.set w { win with frame := k }) x = bufferOf ws x := by
  unfold bufferOf
  rw [List.getElem?_set]
  by_cases hwx : w = x
  · subst hwx
    rw [if_pos rfl, if_pos (List.getElem?_eq_some.1 hw).1, hw]; rfl
  · rw [if_neg hwx]

theorem childrenOf_lt {h : Heap} {q c : Nat} (hc : c ∈ childrenOf h q) : q < h.length := by
  by_contra hge
  rw [childrenOf_none (Nat.le_of_not_lt hge)] at hc
  cases hc

theorem winOf_lt {h : Heap} {q x : Nat} (hc : winOf h q = some x) : q < h.length := by
  by_contra hge
  rw [winOf_none (Nat.le_of_not_lt hge)] at hc
  cases hc

theorem parentOf_lt {h : Heap} {q x : Nat} (hc : parentOf h q = some x) : q < h.length := by
  by_contra hge
  rw [parentOf_none (Nat.le_of_not_lt hge)] at hc
  cases hc

/-- The flat split keeps the state well-formed. -/
theorem FlatSplit.wellFormed {s s' : Editor} {f p : Nat} (w : WF s) (fs : FlatSplit s s' f p)
    (hp : p < s.frames.length) : WF s' := by
  obtain ⟨b, hws⟩ := fs.windows
  have hbuf : ∀ x, (bufferOf s.windows x).isSome = true →
      (bufferOf s'.windows x).isSome = true := by
    intro x hx
    rw [hws, bufferOf_push]
    split
    · rfl
    · exact hx
  refine ⟨?_, ?_, ?_, ?_, ?_, ?_⟩
  · rw [fs.top, fs.len]; exact Nat.lt_succ_of_lt w.root
  · rw [fs.top, fs.parent, if_neg (Nat.ne_of_lt w.root)]; exact w.rootParent
  · intro q _ c hc
    rw [fs.children] at hc
    rw [fs.len, fs.parent, fs.children c, fs.win c]
    by_cases hqp : q = p
    · subst hqp
      rw [if_pos rfl] at hc
      rcases mem_insAfter.1 hc with hc | ⟨rfl, _⟩
      · have e := w.edge q hp c hc
        rw [if_neg (Nat.ne_of_lt e.2.1), if_neg (Nat.ne_of_gt e.1), if_neg (Nat.ne_of_lt e.2.1)]
        exact ⟨e.1, Nat.lt_succ_of_lt e.2.1, e.2.2.1, e.2.2.2⟩
      · rw [if_pos rfl, if_pos rfl]
        exact ⟨hp, Nat.lt_succ_self _, rfl, fun _ _ => by simp⟩
    · rw [if_neg hqp] at hc
      have e := w.edge q (childrenOf_lt hc) c hc
      rw [if_neg (Nat.ne_of_lt e.2.1), if_neg (Nat.ne_of_lt e.2.1)]
      refine ⟨e.1, Nat.lt_succ_of_lt e.2.1, e.2.2.1, fun hh hcc => ?_⟩
      by_cases hcp : c = p
      · rw [if_pos hcp] at hcc
        exact e.2.2.2 hh (hcp ▸ insAfter_eq_nil.1 hcc)
      · rw [if_neg hcp] at hcc
        exact e.2.2.2 hh hcc
  · intro q _
    rw [fs.children]
    by_cases hqp : q = p
    · rw [if_pos hqp]
      exact nodup_insAfter (w.nodup p hp)
        (fun h => Nat.lt_irrefl _ (w.edge p hp _ h).2.1)
    · rw [if_neg hqp]
      by_cases hq : q < s.frames.length
      · exact w.nodup q hq
      · rw [childrenOf_none (Nat.le_of_not_lt hq)]; exact List.nodup_nil
  · intro q _ hne
    rw [fs.children] at hne
    rw [fs.win]
    by_cases hqp : q = p
    · rw [if_pos hqp] at hne
      rw [if_neg (hqp ▸ Nat.ne_of_lt hp), hqp]
      exact w.noBoth p hp (fun h => hne (insAfter_eq_nil.2 h))
    · rw [if_neg hqp] at hne
      have hq : q < s.frames.length := by
        by_contra hge
        exact hne (childrenOf_none (Nat.le_of_not_lt hge))
      rw [if_neg (Nat.ne_of_lt hq)]
      exact w.noBoth q hq hne
  · intro q hq
    rw [fs.win]
    by_cases hqn : q = s.frames.length
    · rw [if_pos hqn, Option.all_some, hws, bufferOf_push, if_pos rfl]; rfl
    · rw [if_neg hqn]
      rw [fs.len] at hq
      have := w.winOk q (by omega)
      cases hx : winOf s.frames q with
      | none => rfl
      | some x =>
        rw [hx, Option.all_some] at this
        rw [Option.all_some]
        exact hbuf x this

/-- The nesting split keeps the state well-formed. -/
theorem NestSplit.wellFormedNest {s s' : Editor} {f x : Nat} {v : Bool} (w : WF s)
    (ns : NestSplit s s' f x v) (hf : f < s.frames.length)
    (hleaf : childrenOf s.frames f = []) (hw : winOf s.frames f = some x) : WF s' := by
  obtain ⟨b, win, hwin, hws⟩ := ns.windows
  have hxl : x < s.windows.length := (List.getElem?_eq_some.1 hwin).1
  have hbuf : ∀ y, (bufferOf s.windows y).isSome = true →
      (bufferOf s'.windows y).isSome = true := by
    intro y hy
    rw [hws, bufferOf_set_frame (by rw [List.getElem?_append_left hxl]; exact hwin),
      bufferOf_push]
    split
    · rfl
    · exact hy
  have hbn : (bufferOf s'.windows s.windows.length).isSome = true := by
    rw [hws, bufferOf_set_frame (by rw [List.getElem?_append_left hxl]; exact hwin),
      bufferOf_push, if_pos rfl]
    rfl
  refine ⟨?_, ?_, ?_, ?_, ?_, ?_⟩
  · rw [ns.top, ns.len]; exact Nat.lt_succ_of_lt (Nat.lt_succ_of_lt w.root)
  · rw [ns.top, ns.parent, if_neg (by have := w.root; omega)]; exact w.rootParent
  · intro q _ c hc
    rw [ns.children] at hc
    rw [ns.len, ns.parent, ns.children c, ns.win c]
    by_cases hqf : q = f
    · subst hqf
      rw [if_pos rfl] at hc
      have hc' : c = s.frames.length + 1 ∨ c = s.frames.length := by simpa using hc
      rw [if_pos (by omega), if_neg (by omega)]
      refine ⟨by omega, by omega, rfl, fun _ _ => ?_⟩
      split_ifs <;> first | omega | simp
    · rw [if_neg hqf] at hc
      have e := w.edge q (childrenOf_lt hc) c hc
      rw [if_neg (by omega)]
      refine ⟨e.1, by omega, e.2.2.1, fun hh hcc => ?_⟩
      by_cases hcf : c = f
      · rw [if_pos hcf] at hcc; cases hcc
      · rw [if_neg hcf] at hcc
        rw [if_neg hcf, if_neg (by omega), if_neg (by omega)]
        exact e.2.2.2 hh hcc
  · intro q _
    rw [ns.children]
    by_cases hqf : q = f
    · rw [if_pos hqf]; simp
    · rw [if_neg hqf]
      by_cases hq : q < s.frames.length
      · exact w.nodup q hq
      · rw [childrenOf_none (Nat.le_of_not_lt hq)]; exact List.nodup_nil
  · intro q _ hne
    rw [ns.children] at hne
    rw [ns.win]
    by_cases hqf : q = f
    · rw [if_pos hqf]
    · rw [if_neg hqf] at hne
      have hq : q < s.frames.length := by
        by_contra hge
        exact hne (childrenOf_none (Nat.le_of_not_lt hge))
      rw [if_neg hqf, if_neg (by omega), if_neg (by omega)]
      exact w.noBoth q hq hne
  · intro q hq
    rw [ns.win]
    have hold : ∀ a y, winOf s.frames a = some y → (bufferOf s'.windows y).isSome = true := by
      intro a y hy
      have := w.winOk a (winOf_lt hy)
      rw [hy, Option.all_some] at this
      exact hbuf y this
    by_cases hqf : q = f
    · rw [if_pos hqf]; rfl
    · rw [if_neg hqf]
      by_cases hqn : q = s.frames.length
      · rw [if_pos hqn, Option.all_some]; exact hbn
      · rw [if_neg hqn]
        by_cases hqm : q = s.frames.length + 1
        · rw [if_pos hqm, Option.all_some]; exact hold f x hw
        · rw [if_neg hqm]
          cases hy : winOf s.frames q with
          | none => rfl
          | some y => rw [Option.all_some]; exact hold q y hy

/-- A layout pass and a change of focus do not change what the flat split made. -/
theorem FlatSplit.keepFlat {s s3 s' : Editor} {f p : Nat} (fs : FlatSplit s s3 f p)
    (st : SameTree s3.frames s'.frames) (hw : s'.windows = s3.windows)
    (hr : s'.wins = s3.wins) (hi : s'.winIndex = s3.winIndex)
    (ht : s'.topFrame = s3.topFrame) : FlatSplit s s' f p :=
  ⟨by rw [st.len]; exact fs.len, fun a => by rw [st.childrenOf]; exact fs.children a,
    fun a => by rw [st.parentOf]; exact fs.parent a, fun a => by rw [st.winOf]; exact fs.win a,
    fun a => by rw [st.verticalOf]; exact fs.vertical a, by rw [hw]; exact fs.windows,
    by rw [hr]; exact fs.wins, by rw [hi]; exact fs.winIndex, by rw [ht]; exact fs.top⟩

/-- A layout pass and a change of focus do not change what the nesting split made. -/
theorem NestSplit.keepNest {s s3 s' : Editor} {f x : Nat} {v : Bool} (ns : NestSplit s s3 f x v)
    (st : SameTree s3.frames s'.frames) (hw : s'.windows = s3.windows)
    (hr : s'.wins = s3.wins) (hi : s'.winIndex = s3.winIndex)
    (ht : s'.topFrame = s3.topFrame) : NestSplit s s' f x v :=
  ⟨by rw [st.len]; exact ns.len, fun a => by rw [st.childrenOf]; exact ns.children a,
    fun a => by rw [st.parentOf]; exact ns.parent a, fun a => by rw [st.winOf]; exact ns.win a,
    fun a => by rw [st.verticalOf]; exact ns.vertical a, by rw [hw]; exact ns.windows,
    by rw [hr]; exact ns.wins, by rw [hi]; exact ns.winIndex, by rw [ht]; exact ns.top⟩

/-- The layout pass on a well-formed state, followed by a change of focus. -/
theorem equalWins_focus {s3 : Editor} (w3 : WF s3) (foc : Option Nat) :
    ∃ s', (equalWins s3).map (fun s4 => { s4 with focus := foc }) = some s' ∧
      SameTree s3.frames s'.frames ∧ s'.windows = s3.windows ∧ s'.wins = s3.wins ∧
      s'.winIndex = s3.winIndex ∧ s'.topFrame = s3.topFrame ∧ s'.width = s3.width ∧
      s'.height = s3.height ∧ s'.focus = foc ∧ WF s' := by
  obtain ⟨h', e, st⟩ := equalWins_spec w3.ranked w3.root
  refine ⟨{ s3 with frames := h', focus := foc }, by rw [e]; rfl, st, rfl, rfl, rfl, rfl, rfl,
    rfl, rfl, ?_⟩
  exact WFx.geo w3 st rfl (fun _ h => h)

/-- `split` of a leaf whose parent has the requested orientation. -/
theorem split_flat {s : Editor} {f x p : Nat} {v : Bool} (w : WF s)
    (hf : f < s.frames.length) (hleaf : childrenOf s.frames f = [])
    (hwin : winOf s.frames f = some x) (hpar : parentOf s.frames f = some p)
    (hp : p < s.frames.length) (hv : verticalOf s.frames p = v) :
    ∃ s', split s f v = some s' ∧ FlatSplit s s' f p ∧ WF s' ∧ s'.focus = some x := by
  obtain ⟨fr, hfr⟩ := getElem?_of_lt hf
  obtain ⟨pfr, hpfr⟩ := getElem?_of_lt hp
  obtain ⟨win, b, hw, hb⟩ := w.window hwin
  rw [childrenOf_eq hfr] at hleaf
  rw [winOf_eq hfr] at hwin
  rw [parentOf_eq hfr] at hpar
  rw [verticalOf_eq hpfr] at hv
  obtain ⟨s3, e3, fs⟩ := split_flat_run (v := v) hfr hleaf hwin hw hb hpar hpfr hv
  obtain ⟨s', e, st, h1, h2, h3, h4, _, _, h5, w'⟩ := equalWins_focus (fs.wellFormed w hp) (some x)
  exact ⟨s', e3.trans e, fs.keepFlat st h1 h2 h3 h4, w', h5⟩

/-- `split` of a leaf that has no parent, or whose parent has the other
orientation. -/
theorem split_nest {s : Editor} {f x : Nat} {v : Bool} (w : WF s)
    (hf : f < s.frames.length) (hleaf : childrenOf s.frames f = [])
    (hwin : winOf s.frames f = some x)
    (hpar : parentOf s.frames f = none ∨
      ∃ p, parentOf s.frames f = some p ∧ p < s.frames.length ∧ verticalOf s.frames p ≠ v) :
    ∃ s', split s f v = some s' ∧ NestSplit s s' f x v ∧ WF s' ∧ s'.focus = some x := by
  obtain ⟨fr, hfr⟩ := getElem?_of_lt hf
  obtain ⟨win, b, hw, hb⟩ := w.window hwin
  have hleaf' := hleaf
  have hwin' := hwin
  rw [childrenOf_eq hfr] at hleaf'
  rw [winOf_eq hfr] at hwin'
  have hpar' : fr.parent = none ∨
      ∃ p pfr, fr.parent = some p ∧ s.frames[p]? = some pfr ∧ pfr.vertical ≠ v := by
    rw [parentOf_eq hfr] at hpar
    rcases hpar with h | ⟨p, h, hp, hv⟩
    · exact Or.inl h
    · obtain ⟨pfr, hpfr⟩ := getElem?_of_lt hp
      rw [verticalOf_eq hpfr] at hv
      exact Or.inr ⟨p, pfr, h, hpfr, hv⟩
  obtain ⟨e3, ns⟩ := split_nest_run (v := v) hfr hleaf' hwin' hw hb hpar'
  obtain ⟨s', e, st, h1, h2, h3, h4, _, _, h5, w'⟩ :=
    equalWins_focus (ns.wellFormedNest w hf hleaf hwin) (some x)
  exact ⟨s', e3.trans e, ns.keepNest st h1 h2 h3 h4, w', h5⟩

/-! ## Frames in the tree -/

theorem Desc.last {h : Heap} {a b : Nat} (d : Desc h a b) :
    a = b ∨ ∃ q, Desc h a q ∧ b ∈ childrenOf h q := by
  induction d with
  | refl a => exact Or.inl rfl
  | @step a c b hc _ ih =>
    rcases ih with rfl | ⟨q, hq, hb⟩
    · exact Or.inr ⟨a, Desc.refl a, hc⟩
    · exact Or.inr ⟨q, Desc.step hc hq, hb⟩

theorem Desc.snoc {h : Heap} {a q b : Nat} (d : Desc h a q) (hb : b ∈ childrenOf h q) :
    Desc h a b := by
  induction d with
  | refl a => exact Desc.step hb (Desc.refl b)
  | step hc _ ih => exact Desc.step hc (ih hb)

theorem InTree.lt {s : Editor} {hole : Option Nat} (w : WFx s hole) {f : Nat}
    (ht : InTree s f) : f < s.frames.length :=
  (Desc.rank_le w.ranked ht w.root).2

/-- A frame of the tree that has a parent pointer is a child of that parent,
which is in the tree too. -/
theorem InTree.parent {s : Editor} {hole : Option Nat} (w : WFx s hole) {f p : Nat}
    (ht : InTree s f) (hpar : parentOf s.frames f = some p) :
    f ∈ childrenOf s.frames p ∧ p < s.frames.length ∧ InTree s p := by
  rcases Desc.last ht with h | ⟨q, hq, hf⟩
  · rw [← h, w.rootParent] at hpar; cases hpar
  · have e := w.edge q (childrenOf_lt hf) f hf
    rw [hpar] at e
    have : p = q := Option.some.inj e.2.2.1
    subst this
    exact ⟨hf, childrenOf_lt hf, hq⟩

/-- A frame of the tree without parent pointer is the root. -/
theorem InTree.root {s : Editor} {hole : Option Nat} (w : WFx s hole) {f : Nat}
    (ht : InTree s f) (hpar : parentOf s.frames f = none) : f = s.topFrame := by
  rcases Desc.last ht with h | ⟨q, _, hf⟩
  · exact h.symm
  · have e := w.edge q (childrenOf_lt hf) f hf
    rw [hpar] at e
    cases e.2.2.1

theorem twoPanes_wf : WF twoPanes :=
  ⟨by decide, by decide, by decide, by decide, by decide, by decide⟩

theorem twoPanes_inTree_one : InTree twoPanes 1 :=
  Desc.step (a := 0) (c := 1) (by decide) (Desc.refl 1)

theorem initEditor_wf (b : Nat) (w h : Int) : WF (initEditor b w h) := by
  have h0 : WF (initEditor 0 0 0) :=
    ⟨by decide, by decide, by decide, by decide, by decide, by decide⟩
  refine WFx.geo h0 (SameTree.refl _) rfl (fun x hx => ?_)
  cases x with
  | zero => rfl
  | succ n => exact hx

theorem mem_split_nodup {f : Nat} {cs : List Nat} (hf : f ∈ cs) (hnd : cs.Nodup) :
    ∃ pre post, cs = pre ++ f :: post ∧ f ∉ pre ∧ f ∉ post := by
  obtain ⟨pre, post, rfl⟩ := List.append_of_mem hf
  refine ⟨pre, post, rfl, ?_, ?_⟩
  · intro h
    have := List.nodup_append.1 hnd
    exact this.2.2 h (List.mem_cons_self _ _)
  · intro h
    have := (List.nodup_append.1 hnd).2.1
    exact (List.nodup_cons.1 this).1 h

/-! ## `close` -/

theorem closeLoop_not_mem (f : Nat) : ∀ (cs : List Nat) (idx : Nat) (acc : List Nat) (i : Nat),
    f ∉ cs → closeLoop f cs idx acc i = (acc ++ cs, i)
  | [], _, _, _, _ => by simp [closeLoop]
  | c :: cs, idx, acc, i, h => by
    have h' : f ≠ c ∧ f ∉ cs := by simpa using h
    rw [closeLoop, if_pos (fun e => h'.1 e.symm), closeLoop_not_mem f cs _ _ _ h'.2]
    simp

/-- The loop of `close` on children without repetition: `f` is dropped and
its index kept. -/
theorem closeLoop_append (f : Nat) : ∀ (pre post : List Nat) (idx : Nat) (acc : List Nat)
    (i : Nat), f ∉ pre → f ∉ post →
    closeLoop f (pre ++ f :: post) idx acc i = (acc ++ pre ++ post, idx + pre.length)
  | [], post, idx, acc, i, _, hpost => by
    show closeLoop f (f :: post) idx acc i = _
    rw [closeLoop, if_neg (by simp), closeLoop_not_mem f post _ _ _ hpost]
    simp
  | c :: pre, post, idx, acc, i, hpre, hpost => by
    have h' : f ≠ c ∧ f ∉ pre := by simpa using hpre
    show closeLoop f (c :: (pre ++ f :: post)) idx acc i = _
    rw [closeLoop, if_pos (fun e => h'.1 e.symm), closeLoop_append f pre post _ _ _ h'.2 hpost]
    simp only [List.append_assoc, List.singleton_append, List.length_cons, Prod.mk.injEq,
      true_and]
    omega

theorem filter_ne_append {f : Nat} {pre post : List Nat} (hpre : f ∉ pre) (hpost : f ∉ post) :
    (pre ++ f :: post).filter (fun c => c ≠ f) = pre ++ post := by
  have hid : ∀ l : List Nat, f ∉ l → l.filter (fun c => c ≠ f) = l := by
    intro l hl
    rw [List.filter_eq_self]
    intro a ha
    simp only [ne_eq, decide_not, Bool.not_eq_eq_eq_not, Bool.not_true, decide_eq_false_iff_not]
    exact fun e => hl (e ▸ ha)
  rw [List.filter_append, List.filter_cons, hid pre hpre, hid post hpost]
  simp

/-- Replacing the children of one frame changes nothing else. -/
theorem setChildren_facts {h : Heap} {p : Nat} {pfr : Frame} (hpfr : h[p]? = some pfr)
    (cs : List Nat) :
    (h.set p { pfr with children := cs }).length = h.length ∧
      (∀ a, childrenOf (h.set p { pfr with children := cs }) a =
        if a = p then cs else childrenOf h a) ∧
      (∀ a, parentOf (h.set p { pfr with children := cs }) a = parentOf h a) ∧
      (∀ a, winOf (h.set p { pfr with children := cs }) a = winOf h a) ∧
      (∀ a, verticalOf (h.set p { pfr with children := cs }) a = verticalOf h a) := by
  have hp : p < h.length := (List.getElem?_eq_some.1 hpfr).1
  refine ⟨List.length_set _ _ _, fun a => ?_, fun a => ?_, fun a => ?_, fun a => ?_⟩
  · rw [childrenOf_set]
    by_cases ha : a = p
    · rw [if_pos ⟨ha.symm, hp⟩, if_pos ha]
    · rw [if_neg (fun h => ha h.1.symm), if_neg ha]
  · rw [parentOf_set]
    by_cases ha : a = p
    · rw [if_pos ⟨ha.symm, hp⟩, ha, parentOf_eq hpfr]
    · rw [if_neg (fun h => ha h.1.symm)]
  · rw [winOf_set]
    by_cases ha : a = p
    · rw [if_pos ⟨ha.symm, hp⟩, ha, winOf_eq hpfr]
    · rw [if_neg (fun h => ha h.1.symm)]
  · rw [verticalOf_set]
    by_cases ha : a = p
    · rw [if_pos ⟨ha.symm, hp⟩, ha, verticalOf_eq hpfr]
    · rw [if_neg (fun h => ha h.1.symm)]

/-- Taking the child `f` out of its parent `p` keeps the state well-formed; when
`p` is left without children, `p` is the frame that may be an empty child. -/
theorem detach_wf {s s1 : Editor} {f p : Nat} {pre post : List Nat} (w : WFx s (some f))
    (hp : p < s.frames.length) (hcs : childrenOf s.frames p = pre ++ f :: post)
    (hpre : f ∉ pre) (hpost : f ∉ post) (hlen : s1.frames.length = s.frames.length)
    (hch : ∀ a, childrenOf s1.frames a = if a = p then pre ++ post else childrenOf s.frames a)
    (hpa : ∀ a, parentOf s1.frames a = parentOf s.frames a)
    (hwi : ∀ a, winOf s1.frames a = winOf s.frames a)
    (htop : s1.topFrame = s.topFrame) (hws : s1.windows = s.windows) :
    WFx s1 (if pre ++ post = [] then some p else none) := by
  have hfp : f ∈ childrenOf s.frames p := by rw [hcs]; simp
  have hsub : ∀ c, c ∈ pre ++ post → c ∈ childrenOf s.frames p ∧ c ≠ f := by
    intro c hc
    rw [hcs]
    rcases List.mem_append.1 hc with h | h
    · exact ⟨by simp [h], fun e => hpre (e ▸ h)⟩
    · exact ⟨by simp [h], fun e => hpost (e ▸ h)⟩
  -- `f` is a child of `p` only
  have honly : ∀ q c, c ∈ childrenOf s1.frames q → c ∈ childrenOf s.frames q ∧ c ≠ f := by
    intro q c hc
    rw [hch] at hc
    by_cases hq : q = p
    · rw [if_pos hq] at hc; rw [hq]; exact hsub c hc
    · rw [if_neg hq] at hc
      refine ⟨hc, fun e => hq ?_⟩
      have e1 := (w.edge q (childrenOf_lt hc) c hc).2.2.1
      have e2 := (w.edge p hp f hfp).2.2.1
      rw [e, e2] at e1
      exact (Option.some.inj e1).symm
  refine ⟨?_, ?_, ?_, ?_, ?_, ?_⟩
  · rw [htop, hlen]; exact w.root
  · rw [htop, hpa]; exact w.rootParent
  · intro q _ c hc
    obtain ⟨hc', hcf⟩ := honly q c hc
    have e := w.edge q (childrenOf_lt hc') c hc'
    rw [hlen, hpa, hwi]
    refine ⟨e.1, e.2.1, e.2.2.1, fun hh hcc => e.2.2.2 (fun h => hcf (Option.some.inj h)) ?_⟩
    rw [hch] at hcc
    by_cases hcp : c = p
    · rw [if_pos hcp] at hcc
      rw [if_pos hcc, hcp] at hh
      exact absurd rfl hh
    · rw [if_neg hcp] at hcc; exact hcc
  · intro q _
    rw [hch]
    by_cases hq : q = p
    · rw [if_pos hq]
      have := w.nodup p hp
      rw [hcs] at this
      exact this.sublist ((List.Sublist.refl pre).append (List.sublist_cons_self f post))
    · rw [if_neg hq]
      by_cases hql : q < s.frames.length
      · exact w.nodup q hql
      · rw [childrenOf_none (Nat.le_of_not_lt hql)]; exact List.nodup_nil
  · intro q _ hne
    rw [hwi]
    rw [hch] at hne
    by_cases hq : q = p
    · rw [hq]
      exact w.noBoth p hp (by rw [hcs]; simp)
    · rw [if_neg hq] at hne
      exact w.noBoth q (by
        by_contra hge
        exact hne (childrenOf_none (Nat.le_of_not_lt hge))) hne
  · intro q hq
    rw [hwi, hws]
    rw [hlen] at hq
    exact w.winOk q hq

theorem Desc.le {s : Editor} {hole : Option Nat} (w : WFx s hole) {a b : Nat}
    (d : Desc s.frames a b) (ha : a < s.frames.length) : a ≤ b := by
  have := Desc.rank_le w.ranked d ha
  omega

theorem Desc.mono {h1 h : Heap} (hsub : ∀ q c, c ∈ childrenOf h1 q → c ∈ childrenOf h q)
    {a b : Nat} (d : Desc h1 a b) : Desc h a b := by
  induction d with
  | refl a => exact Desc.refl a
  | step hc _ ih => exact Desc.step (hsub _ _ hc) ih

theorem Desc.of_leaf {h : Heap} {f a : Nat} (hl : childrenOf h f = []) (d : Desc h f a) :
    a = f := by
  cases d with
  | refl => rfl
  | step hc _ => rw [hl] at hc; cases hc

/-- A path that does not end below `f` survives taking `f` out. -/
theorem Desc.avoid {h h1 : Heap} {f : Nat}
    (hkeep : ∀ q c, c ∈ childrenOf h q → c ≠ f → c ∈ childrenOf h1 q) {a b : Nat}
    (d : Desc h a b) (hfb : ¬ Desc h f b) : Desc h1 a b := by
  induction d with
  | refl a => exact Desc.refl a
  | @step a c b hc hd ih =>
    have hcf : c ≠ f := fun e => hfb (e ▸ hd)
    exact Desc.step (hkeep a c hc hcf) (ih hfb)

theorem Collapsed.transport {h1 h h' : Heap} {p a t : Nat} (c : Collapsed h1 h' a t)
    (hord : ∀ q x, x ∈ childrenOf h1 q → q < x) (ha : a ≤ p)
    (hch : ∀ q, q ≠ p → childrenOf h1 q = childrenOf h q)
    (hpa : ∀ q, parentOf h1 q = parentOf h q) : Collapsed h h' a t := by
  induction c with
  | @stop a t hpar hmem hfil =>
    have hne : t ≠ p := by have := hord t a hmem; omega
    rw [hch t hne] at hmem hfil
    rw [hpa] at hpar
    exact Collapsed.stop hpar hmem hfil
  | @up a q t hpar hone hnil _ ih =>
    have hlt : q < a := hord q a (by rw [hone]; simp)
    rw [hch q (by omega)] at hone
    rw [hpa] at hpar
    exact Collapsed.up hpar hone hnil (ih (by omega))

theorem Collapsed.toSameTree {h h' k : Heap} {a t : Nat} (c : Collapsed h h' a t)
    (st : SameTree h' k) : Collapsed h k a t := by
  induction c with
  | stop hpar hmem hfil => exact Collapsed.stop hpar hmem (by rw [st.childrenOf]; exact hfil)
  | up hpar hone hnil _ ih =>
    exact Collapsed.up hpar hone (by rw [st.childrenOf]; exact hnil) ih

theorem CloseTree.withSameTree {h h' k : Heap} {f : Nat} {nf : Option Nat}
    (c : CloseTree h h' f nf) (st : SameTree h' k) : CloseTree h k f nf := by
  refine ⟨by rw [st.len]; exact c.len, fun a => by rw [st.parentOf]; exact c.parent a,
    fun a => by rw [st.winOf]; exact c.win a, fun a => by rw [st.verticalOf]; exact c.vertical a,
    fun a => by rw [st.childrenOf]; exact c.sub a,
    fun a ha => by rw [st.childrenOf]; exact c.frame a ha, fun hp => ?_, fun p hp => ?_,
    fun hl q x hx hn => c.kept hl q x hx (by rw [← st.childrenOf]; exact hn)⟩
  · exact ⟨fun a => by rw [st.childrenOf]; exact (c.rootCase hp).1 a, (c.rootCase hp).2⟩
  · obtain ⟨t, ht, hcond⟩ := c.chain p hp
    refine ⟨t, ht.toSameTree st, ?_⟩
    rw [st.childrenOf]
    exact hcond

/-- One level of `close`: the child `f` is taken out of its parent `p`; when
`p` keeps children, the candidate is picked among them, otherwise `close` goes on
with `p`. -/
theorem close_level {fuel : Nat} (IH : CloseSpec fuel) {s : Editor} {f p : Nat} {pfr : Frame}
    {pre post : List Nat} (w : WFx s (some f)) (ht : InTree s f)
    (hpar : parentOf s.frames f = some p) (hpfr : s.frames[p]? = some pfr)
    (hcs : pfr.children = pre ++ f :: post) (hpre : f ∉ pre) (hpost : f ∉ post)
    (hfuel : f < fuel + 1) :
    ∃ h2 nf,
      (if (pre ++ post).length = 0 then
          closeAux fuel
            { s with frames := s.frames.set p { pfr with children := pre ++ post } } p
        else ((pre ++ post)[if pre.length > 0 then pre.length - 1 else pre.length]?).map
          fun c =>
            (({ s with frames := s.frames.set p { pfr with children := pre ++ post } } : Editor),
              some c)) = some ({ s with frames := h2 }, nf) ∧
      CloseTree s.frames h2 f nf ∧ WF { s with frames := h2 } ∧
      (pre ++ post ≠ [] →
        nf = (pre ++ post)[if pre.length > 0 then pre.length - 1 else pre.length]? ∧
          childrenOf h2 p = pre ++ post) := by
  obtain ⟨hlen, hch, hpa, hwi, hve⟩ := setChildren_facts hpfr (pre ++ post)
  have hp : p < s.frames.length := (List.getElem?_eq_some.1 hpfr).1
  have hf : f < s.frames.length := InTree.lt w ht
  have hcs' : childrenOf s.frames p = pre ++ f :: post := by rw [childrenOf_eq hpfr, hcs]
  have hfp : f ∈ childrenOf s.frames p := by rw [hcs']; simp
  have hpf : p < f := (w.edge p hp f hfp).1
  have hanc : Desc s.frames p f ∧ p ≠ f := ⟨Desc.step hfp (Desc.refl f), Nat.ne_of_lt hpf⟩
  have w1 := @detach_wf s
    { s with frames := s.frames.set p { pfr with children := pre ++ post } } f p pre post
    w hp hcs' hpre hpost hlen hch hpa hwi rfl rfl
  have hsub1 : ∀ a, (childrenOf (s.frames.set p { pfr with children := pre ++ post }) a).Sublist
      (childrenOf s.frames a) := by
    intro a
    rw [hch]
    by_cases ha : a = p
    · rw [if_pos ha, ha, hcs']
      exact (List.Sublist.refl pre).append (List.sublist_cons_self f post)
    · rw [if_neg ha]
  have hkeep : ∀ q c, c ∈ childrenOf s.frames q → c ≠ f →
      c ∈ childrenOf (s.frames.set p { pfr with children := pre ++ post }) q := by
    intro q c hc hcf
    rw [hch]
    by_cases hq : q = p
    · rw [if_pos hq]
      rw [hq, hcs'] at hc
      have : c ∈ pre ∨ c = f ∨ c ∈ post := by simpa using hc
      rcases this with h | h | h
      · exact List.mem_append_left _ h
      · exact absurd h hcf
      · exact List.mem_append_right _ h
    · rw [if_neg hq]; exact hc
  by_cases hemp : pre ++ post = []
  · rw [if_pos (by rw [hemp]; rfl)]
    rw [if_pos hemp] at w1
    have ht1 : InTree { s with frames := s.frames.set p { pfr with children := pre ++ post } } p :=
      Desc.avoid (f := f) hkeep (InTree.parent w ht hpar).2.2
        (fun d => by have := Desc.le w d hf; omega)
    obtain ⟨h', nf, e, ct, w'⟩ := IH _ p (by omega) w1 ht1
      (by show childrenOf (s.frames.set p _) p = []; rw [hch, if_pos rfl]; exact hemp)
      (by show winOf (s.frames.set p _) p = none
          rw [hwi]; exact w.noBoth p hp (by rw [hcs']; simp))
    refine ⟨h', nf, e, ?_, w', fun h => absurd hemp h⟩
    have hone : childrenOf s.frames p = [f] := by
      have h1 : pre = [] := (List.append_eq_nil.1 hemp).1
      have h2 : post = [] := (List.append_eq_nil.1 hemp).2
      rw [hcs', h1, h2]; rfl
    have hp' : childrenOf h' p = [] := by
      have := ct.frame p (fun h => h.2 rfl)
      rw [this]
      show childrenOf (s.frames.set p _) p = []
      rw [hch, if_pos rfl]; exact hemp
    refine ⟨by rw [ct.len]; exact hlen, fun a => by rw [ct.parent]; exact hpa a,
      fun a => by rw [ct.win]; exact hwi a, fun a => by rw [ct.vertical]; exact hve a,
      fun a => (ct.sub a).trans (hsub1 a), fun a ha => ?_, fun h => ?_, fun q _ => ?_,
      fun hl q c hc hn a hd ha => ?_⟩
    · have hap : a ≠ p := fun e => ha (e ▸ hanc)
      rw [ct.frame a (fun hd => ha ?_)]
      · show childrenOf (s.frames.set p _) a = _
        rw [hch, if_neg hap]
      · have d : Desc s.frames a p := Desc.mono (fun q c hc => (hsub1 q).subset hc) hd.1
        refine ⟨d.snoc hfp, fun e => ?_⟩
        have hal : a < s.frames.length := by rw [e]; exact hf
        have := Desc.le w d hal
        omega
    · rw [hpar] at h; cases h
    · cases hg : parentOf s.frames p with
      | none =>
        obtain ⟨hsame, hnf⟩ := ct.rootCase (by
          show parentOf (s.frames.set p _) p = none
          rw [hpa]; exact hg)
        refine ⟨p, Collapsed.stop hpar hfp ?_, Or.inr ⟨hp', hg, hnf⟩⟩
        rw [hp', hone]; simp
      | some g =>
        obtain ⟨t, hcol, hcond⟩ := ct.chain g (by
          show parentOf (s.frames.set p _) p = some g
          rw [hpa]; exact hg)
        refine ⟨t, Collapsed.up hpar hone hp' (hcol.transport (p := p)
          (fun q x hx => (w1.edge q (childrenOf_lt hx) x hx).1) (le_refl _)
          (fun q hq => by rw [hch, if_neg hq]) hpa), ?_⟩
        rw [← hpa t]
        exact hcond
    · by_cases hcf : c = f
      · rw [hcf] at hd
        exact Desc.of_leaf hl hd
      · by_contra haf
        have d1 := Desc.avoid (f := f) hkeep hd (fun d => haf (Desc.of_leaf hl d))
        have hl1 : childrenOf (s.frames.set p { pfr with children := pre ++ post }) a = [] := by
          rw [hch]
          by_cases hap : a = p
          · rw [if_pos hap]; exact hemp
          · rw [if_neg hap]; exact ha
        have hap : a = p := ct.kept (by rw [hch, if_pos rfl]; exact hemp) q c
          (hkeep q c hc hcf) hn a d1 hl1
        rw [hap, hone] at ha
        cases ha
  · rw [if_neg (by
      intro h
      exact hemp (List.length_eq_zero.1 h))]
    rw [if_neg hemp] at w1
    have hidx : (if pre.length > 0 then pre.length - 1 else pre.length) < (pre ++ post).length := by
      have : 0 < (pre ++ post).length := List.length_pos.2 hemp
      rw [List.length_append] at this ⊢
      split <;> omega
    obtain ⟨c, hc⟩ : ∃ c,
        (pre ++ post)[if pre.length > 0 then pre.length - 1 else pre.length]? = some c :=
      ⟨_, List.getElem?_eq_getElem hidx⟩
    have hcm : c ∈ pre ++ post := List.getElem?_mem hc
    refine ⟨_, some c, by rw [hc]; rfl, ?_, w1, fun _ => ⟨hc.symm, by rw [hch, if_pos rfl]⟩⟩
    refine ⟨hlen, hpa, hwi, hve, hsub1, fun a ha => ?_, fun h => ?_, fun q _ => ?_,
      fun hl q x hx hn a hd _ => ?_⟩
    · rw [hch, if_neg (fun (e : a = p) => ha (e ▸ hanc))]
    · rw [hpar] at h; cases h
    · refine ⟨p, Collapsed.stop hpar hfp ?_, Or.inl ⟨?_, c, rfl, ?_⟩⟩
      · rw [hch, if_pos rfl, hcs', filter_ne_append hpre hpost]
      · rw [hch, if_pos rfl]; exact hemp
      · rw [hch, if_pos rfl]; exact hcm
    · by_cases hxf : x = f
      · rw [hxf] at hd
        exact Desc.of_leaf hl hd
      · exact absurd (hkeep q x hx hxf) hn

theorem CloseTree.ofRoot (h : Heap) {f : Nat} (hp : parentOf h f = none) :
    CloseTree h h f none :=
  ⟨rfl, fun _ => rfl, fun _ => rfl, fun _ => rfl, fun _ => List.Sublist.refl _, fun _ _ => rfl,
    fun _ => ⟨fun _ => rfl, rfl⟩, fun p h => (by rw [hp] at h; cases h),
    fun _ _ _ hc hn => absurd hc hn⟩

/-- The recursive call of `close` on a frame without window. -/
theorem closeAux_collapse : ∀ fuel : Nat, CloseSpec fuel
  | 0 => fun _ _ hf => absurd hf (Nat.not_lt_zero _)
  | fuel + 1 => by
    intro s f hfuel w ht hleaf hwin
    have hf : f < s.frames.length := InTree.lt w ht
    obtain ⟨fr, hfr⟩ := getElem?_of_lt hf
    have hh : hasChildren fr = false := by
      rw [hasChildren_eq_false, ← childrenOf_eq hfr]; exact hleaf
    unfold closeAux
    rw [hfr]
    simp only [hh, Bool.false_eq_true, if_false]
    cases hpar : fr.parent with
    | none =>
      have hpar' : parentOf s.frames f = none := by rw [parentOf_eq hfr]; exact hpar
      refine ⟨s.frames, none, rfl, CloseTree.ofRoot _ hpar', WFx.fill w (fun q hq hc => ?_)⟩
      have := (w.edge q hq f hc).2.2.1
      rw [hpar'] at this; cases this
    | some p =>
      have hpar' : parentOf s.frames f = some p := by rw [parentOf_eq hfr]; exact hpar
      obtain ⟨hmem, hp, _⟩ := InTree.parent w ht hpar'
      obtain ⟨pfr, hpfr⟩ := getElem?_of_lt hp
      obtain ⟨pre, post, hcs, hpre, hpost⟩ := mem_split_nodup hmem (w.nodup p hp)
      rw [childrenOf_eq hpfr] at hcs
      have hloop : closeLoop f pfr.children 0 [] 0 = (pre ++ post, pre.length) := by
        rw [hcs, closeLoop_append f pre post 0 [] 0 hpre hpost]
        simp
      obtain ⟨h2, nf, e, ct, w2, _⟩ :=
        close_level (closeAux_collapse fuel) w ht hpar' hpfr hcs hpre hpost hfuel
      obtain ⟨fr2, hfr2⟩ := getElem?_of_lt (show f < h2.length by rw [ct.len]; exact hf)
      have hw2 : fr2.win = none := by
        rw [← winOf_eq hfr2, ct.win]; exact hwin
      refine ⟨h2, nf, ?_, ct, w2⟩
      simp only [hpfr, Option.some_bind, hloop, e, hfr2, hw2]

theorem bufferOf_set_same {ws : List Window} {w : Nat} {win win' : Window}
    (hw : ws[w]? = some win) (hb : win'.buffer = win.buffer) (x : Nat) :
    bufferOf (ws.set w win') x = bufferOf ws x := by
  unfold bufferOf
  rw [List.getElem?_set]
  by_cases hwx : w = x
  · subst hwx
    rw [if_pos rfl, if_pos (List.getElem?_eq_some.1 hw).1, hw]
    show win'.buffer = win.buffer
    exact hb
  · rw [if_neg hwx]

/-- `close` of a leaf of the tree that holds a window and has a parent. -/
theorem close_spec {s : Editor} {f x p : Nat} (w : WF s) (ht : InTree s f)
    (hleaf : childrenOf s.frames f = []) (hwin : winOf s.frames f = some x)
    (hpar : parentOf s.frames f = some p) :
    ∃ s' nf pre post, close s f = some (s', nf) ∧
      childrenOf s.frames p = pre ++ f :: post ∧ f ∉ pre ∧ f ∉ post ∧
      CloseTree s.frames s'.frames f nf ∧ CloseEditor s s' x nf ∧ WF s' ∧
      (pre ++ post ≠ [] →
        nf = (pre ++ post)[if pre.length > 0 then pre.length - 1 else pre.length]? ∧
          childrenOf s'.frames p = pre ++ post) := by
  have hf : f < s.frames.length := InTree.lt w ht
  obtain ⟨fr, hfr⟩ := getElem?_of_lt hf
  have hh : hasChildren fr = false := by
    rw [hasChildren_eq_false, ← childrenOf_eq hfr]; exact hleaf
  have hpar' : fr.parent = some p := by rw [← parentOf_eq hfr]; exact hpar
  obtain ⟨hmem, hp, _⟩ := InTree.parent w ht hpar
  obtain ⟨pfr, hpfr⟩ := getElem?_of_lt hp
  obtain ⟨pre, post, hcs, hpre, hpost⟩ := mem_split_nodup hmem (w.nodup p hp)
  have hcs' := hcs
  rw [childrenOf_eq hpfr] at hcs'
  have hloop : closeLoop f pfr.children 0 [] 0 = (pre ++ post, pre.length) := by
    rw [hcs', closeLoop_append f pre post 0 [] 0 hpre hpost]
    simp
  obtain ⟨h2, nf, e, ct, w2, hnf⟩ :=
    close_level (closeAux_collapse s.frames.length) (WFx.weaken w _) ht hpar hpfr hcs' hpre
      hpost (Nat.lt_succ_of_lt hf)
  obtain ⟨fr2, hfr2⟩ := getElem?_of_lt (show f < h2.length by rw [ct.len]; exact hf)
  have hw2 : fr2.win = some x := by
    rw [← winOf_eq hfr2, ct.win]; exact hwin
  obtain ⟨win, _, hwx, _⟩ := w.window hwin
  -- the state handed to the layout pass
  have w2' : WF (closedState s h2 x win s.focus) :=
    WFx.geo w2 (SameTree.refl _) rfl (fun y hy => by
      show (bufferOf (s.windows.set x { win with hidden := true }) y).isSome = true
      rw [@bufferOf_set_same s.windows x win { win with hidden := true } hwx rfl]; exact hy)
  obtain ⟨h3, e3, st3⟩ := equalWins_spec w2'.ranked w2'.root
  simp only [closedState] at e3
  have w3 : WF (closedState s h3 x win s.focus) :=
    WFx.geo w2' st3 rfl (fun _ h => h)
  have ct3 : CloseTree s.frames h3 f nf := ct.withSameTree st3
  have hnf3 : pre ++ post ≠ [] →
      nf = (pre ++ post)[if pre.length > 0 then pre.length - 1 else pre.length]? ∧
        childrenOf h3 p = pre ++ post := by
    intro h
    refine ⟨(hnf h).1, ?_⟩
    rw [st3.childrenOf]; exact (hnf h).2
  cases hn : nf with
  | none =>
    refine ⟨closedState s h3 x win s.focus, none, pre, post, ?_, hcs, hpre,
      hpost, hn ▸ ct3, ⟨⟨win, hwx, rfl, rfl⟩, rfl, rfl, rfl, rfl, fun _ => rfl,
        fun h => absurd rfl h⟩, w3, hn ▸ hnf3⟩
    unfold close closeAux
    rw [hfr]
    simp only [hh, Bool.false_eq_true, if_false, hpar', hpfr, Option.some_bind, hloop, e, hfr2,
      hw2, hwx, hn]
    rw [e3]
    rfl
  | some c =>
    obtain ⟨t, _, hcond⟩ := ct3.chain p hpar
    have hc : c ∈ childrenOf h3 t := by
      rcases hcond with ⟨_, c', hc', hm⟩ | ⟨_, _, h⟩
      · rw [hn] at hc'
        rw [Option.some.inj hc']; exact hm
      · rw [hn] at h; cases h
    obtain ⟨y, hy⟩ := setFocus_spec w3 (childrenOf_lt hc) hc
    refine ⟨closedState s h3 x win (some y), some c, pre,
      post, ?_, hcs, hpre, hpost, hn ▸ ct3, ⟨⟨win, hwx, rfl, rfl⟩, rfl, rfl, rfl, rfl,
        (fun h => by cases h), fun _ => ⟨y, rfl⟩⟩, WFx.geo w3 (SameTree.refl _) rfl (fun _ h => h),
      hn ▸ hnf3⟩
    unfold close closeAux
    rw [hfr]
    simp only [hh, Bool.false_eq_true, if_false, hpar', hpfr, Option.some_bind, hloop, e, hfr2,
      hw2, hwx, hn]
    rw [e3]
    simp only [closedState] at hy
    simp only [Option.some_bind, hy, Option.map_some', closedState]

/-! ## `exchange` -/

theorem exchangeIndex_append (f : Nat) : ∀ (pre post : List Nat) (idx : Nat), f ∉ pre →
    exchangeIndex f (pre ++ f :: post) idx = idx + pre.length
  | [], post, idx, _ => by
    show exchangeIndex f (f :: post) idx = _
    rw [exchangeIndex, if_pos rfl]; rfl
  | c :: pre, post, idx, hpre => by
    have h' : f ≠ c ∧ f ∉ pre := by simpa using hpre
    show exchangeIndex f (c :: (pre ++ f :: post)) idx = _
    rw [exchangeIndex, if_neg (fun e => h'.1 e.symm), exchangeIndex_append f pre post _ h'.2]
    simp only [List.length_cons]
    omega

theorem set_append_here {α : Type} (l1 : List α) (a x : α) (l2 : List α) :
    (l1 ++ a :: l2).set l1.length x = l1 ++ x :: l2 := by
  induction l1 with
  | nil => rfl
  | cons y ys ih => simp [ih]

theorem set_append_next {α : Type} (l1 : List α) (a b x : α) (l2 : List α) :
    (l1 ++ a :: b :: l2).set (l1.length + 1) x = l1 ++ a :: x :: l2 := by
  induction l1 with
  | nil => rfl
  | cons y ys ih => simp [ih]

theorem getElem?_append_here {α : Type} (l1 : List α) (a : α) (l2 : List α) :
    (l1 ++ a :: l2)[l1.length]? = some a := by
  rw [List.getElem?_append_right (le_refl _)]
  simp

theorem getElem?_append_next {α : Type} (l1 : List α) (a b : α) (l2 : List α) :
    (l1 ++ a :: b :: l2)[l1.length + 1]? = some b := by
  rw [List.getElem?_append_right (Nat.le_succ _)]
  simp

/-- The swap of `exchange` is a transposition of two neighbours: `f` and the
sibling `nb` behind it, or before it when `f` is the last child. -/
theorem swap_form {f : Nat} {pre post : List Nat}
    (h2 : 2 ≤ (pre ++ f :: post).length) :
    ∃ l1 a b l2 nb, pre ++ f :: post = l1 ++ a :: b :: l2 ∧
      ((a = f ∧ nb = b ∧ pre = l1) ∨ (b = f ∧ nb = a ∧ l2 = [] ∧ pre = l1 ++ [a])) ∧
      (pre ++ f :: post)[if pre.length + 1 = (pre ++ f :: post).length then pre.length - 1
        else pre.length + 1]? = some nb ∧
      (((pre ++ f :: post).set pre.length nb).set
        (if pre.length + 1 = (pre ++ f :: post).length then pre.length - 1
          else pre.length + 1) f) = l1 ++ b :: a :: l2 ∧
      (l1 ++ b :: a :: l2)[pre.length]? = some nb := by
  cases post with
  | nil =>
    rcases List.eq_nil_or_concat pre with h | ⟨l1, a, h⟩
    · subst h; simp at h2
    · rw [List.concat_eq_append] at h
      subst h
      refine ⟨l1, a, f, [], a, by simp, Or.inr ⟨rfl, rfl, rfl, rfl⟩, ?_, ?_, ?_⟩
      · rw [if_pos (by simp)]
        simp only [List.length_append, List.length_singleton, Nat.add_sub_cancel,
          List.append_assoc, List.singleton_append]
        exact getElem?_append_here l1 a [f]
      · rw [if_pos (by simp)]
        simp only [List.length_append, List.length_singleton, Nat.add_sub_cancel,
          List.append_assoc, List.singleton_append]
        rw [set_append_next, set_append_here]
      · simp only [List.length_append, List.length_singleton]
        exact getElem?_append_next l1 f a []
  | cons b l2 =>
    refine ⟨pre, f, b, l2, b, rfl, Or.inl ⟨rfl, rfl, rfl⟩, ?_, ?_, ?_⟩
    · rw [if_neg (by simp)]
      exact getElem?_append_next pre f b l2
    · rw [if_neg (by simp)]
      rw [set_append_here, set_append_next]
    · exact getElem?_append_here pre b (f :: l2)

/-- Well-formedness does not depend on the order of the children. -/
theorem WFx.perm {s s1 : Editor} {hole : Option Nat} (w : WFx s hole)
    (hlen : s1.frames.length = s.frames.length)
    (hch : ∀ a, (childrenOf s1.frames a).Perm (childrenOf s.frames a))
    (hpa : ∀ a, parentOf s1.frames a = parentOf s.frames a)
    (hwi : ∀ a, winOf s1.frames a = winOf s.frames a)
    (htop : s1.topFrame = s.topFrame) (hws : s1.windows = s.windows) : WFx s1 hole := by
  have hnil : ∀ a, childrenOf s1.frames a = [] → childrenOf s.frames a = [] := by
    intro a h
    have := hch a
    rw [h] at this
    exact List.Perm.eq_nil this.symm
  refine ⟨?_, ?_, ?_, ?_, ?_, ?_⟩
  · rw [htop, hlen]; exact w.root
  · rw [htop, hpa]; exact w.rootParent
  · intro q hq c hc
    rw [hlen] at hq
    have e := w.edge q hq c ((hch q).mem_iff.1 hc)
    rw [hlen, hpa, hwi]
    exact ⟨e.1, e.2.1, e.2.2.1, fun hh hcc => e.2.2.2 hh (hnil c hcc)⟩
  · intro q hq
    rw [hlen] at hq
    exact (hch q).nodup_iff.2 (w.nodup q hq)
  · intro q hq hne
    rw [hlen] at hq
    rw [hwi]
    refine w.noBoth q hq (fun h => hne ?_)
    have := hch q
    rw [h] at this
    exact List.Perm.eq_nil this
  · intro q hq
    rw [hlen] at hq
    rw [hwi, hws]
    exact w.winOk q hq

/-- The swap step of `exchange` on a frame at a known place among at least two
children. -/
theorem exchangeSwap_spec {s : Editor} {f p : Nat} {pfr : Frame} {pre post : List Nat}
    (w : WF s) (hpfr : s.frames[p]? = some pfr) (hcs : pfr.children = pre ++ f :: post)
    (hpre : f ∉ pre) (h2 : 2 ≤ (pre ++ f :: post).length) :
    ∃ s' l1 a b l2 nb y, exchangeSwap s f p pfr = some s' ∧ Swapped s s' p l1 a b l2 ∧
      ((a = f ∧ nb = b ∧ pre = l1) ∨ (b = f ∧ nb = a ∧ l2 = [] ∧ pre = l1 ++ [a])) ∧
      (pre ++ f :: post)[if pre.length + 1 = (pre ++ f :: post).length then pre.length - 1
        else pre.length + 1]? = some nb ∧
      childrenOf s'.frames p = ((pre ++ f :: post).set pre.length nb).set
        (if pre.length + 1 = (pre ++ f :: post).length then pre.length - 1
          else pre.length + 1) f ∧
      (childrenOf s'.frames p)[pre.length]? = some nb ∧ WF s' ∧ s'.focus = some y ∧
      ∃ l, firstLeaf s'.frames nb = some l ∧ Desc s'.frames nb l ∧
        childrenOf s'.frames l = [] ∧ winOf s'.frames l = some y := by
  obtain ⟨l1, a, b, l2, nb, hform, hcase, hj, hset, hi⟩ := @swap_form f pre post h2
  obtain ⟨hlen, hch, hpa, hwi, hve⟩ := setChildren_facts hpfr (l1 ++ b :: a :: l2)
  have hp : p < s.frames.length := (List.getElem?_eq_some.1 hpfr).1
  have hcs' : childrenOf s.frames p = l1 ++ a :: b :: l2 := by
    rw [childrenOf_eq hpfr, hcs, hform]
  have w1 : WF { s with frames := s.frames.set p { pfr with children := l1 ++ b :: a :: l2 } } :=
    WFx.perm w hlen (fun c => by
      show (childrenOf (s.frames.set p _) c).Perm _
      rw [hch]
      by_cases hc : c = p
      · rw [if_pos hc, hc, hcs']
        exact List.Perm.append_left l1 (List.Perm.swap a b l2)
      · rw [if_neg hc]) hpa hwi rfl rfl
  obtain ⟨h3, e3, st3⟩ := equalWins_spec w1.ranked w1.root
  have w3 : WF { s with frames := h3 } := WFx.geo w1 st3 rfl (fun _ h => h)
  have hch3 : ∀ c, childrenOf h3 c = if c = p then l1 ++ b :: a :: l2 else childrenOf s.frames c :=
    fun c => by rw [st3.childrenOf]; exact hch c
  have hnb : nb ∈ childrenOf h3 p := by
    rw [hch3, if_pos rfl]; exact List.getElem?_mem hi
  obtain ⟨y, hy⟩ := setFocus_spec w3 (show p < h3.length by rw [st3.len, hlen]; exact hp) hnb
  obtain ⟨l, x, hl, hd, hleaf, hwl, hsx⟩ := setFocusAux_leaf _ _ _ _ hy
  have hyx : some y = some x := congrArg Editor.focus hsx
  rw [← Option.some.inj hyx] at hwl
  refine ⟨{ s with frames := h3, focus := some y }, l1, a, b, l2, nb, y, ?_, ?_, hcase, hj, ?_, ?_,
    WFx.geo w3 (SameTree.refl _) rfl (fun _ h => h), rfl, l, hl, hd, hleaf, hwl⟩
  · unfold exchangeSwap
    simp only [hcs, exchangeIndex_append f pre post 0 hpre, Nat.zero_add,
      getElem?_append_here, Option.some_bind, hj, hset, hi]
    rw [e3]
    exact hy
  · exact ⟨hcs', by rw [hch3, if_pos rfl], fun c hc => by rw [hch3, if_neg hc],
      by rw [st3.len]; exact hlen, fun c => by rw [st3.parentOf]; exact hpa c,
      fun c => by rw [st3.winOf]; exact hwi c, fun c => by rw [st3.verticalOf]; exact hve c,
      rfl, rfl, rfl, rfl, rfl, rfl⟩
  · show childrenOf h3 p = _
    rw [hch3, if_pos rfl, hset]
  · show (childrenOf h3 p)[pre.length]? = _
    rw [hch3, if_pos rfl]; exact hi

theorem exchangeAux_root {s : Editor} {f : Nat} (hf : f < s.frames.length)
    (hpar : parentOf s.frames f = none) (fuel : Nat) : exchangeAux (fuel + 1) s f = some s := by
  obtain ⟨fr, hfr⟩ := getElem?_of_lt hf
  rw [parentOf_eq hfr] at hpar
  unfold exchangeAux
  rw [hfr]
  simp only [hpar]

theorem exchangeAux_step {s : Editor} {f p : Nat} {pfr : Frame} (hf : f < s.frames.length)
    (hpar : parentOf s.frames f = some p) (hpfr : s.frames[p]? = some pfr) (fuel : Nat) :
    exchangeAux (fuel + 1) s f =
      if pfr.children.length = 1 then exchangeAux fuel s p else exchangeSwap s f p pfr := by
  obtain ⟨fr, hfr⟩ := getElem?_of_lt hf
  rw [parentOf_eq hfr] at hpar
  conv_lhs => unfold exchangeAux
  rw [hfr]
  simp only [hpar, hpfr, Option.some_bind]

/-- `exchange` returns on every frame of the tree, with the state unchanged or
with two neighbours swapped among the children of one proper ancestor. -/
theorem exchangeAux_spec : ∀ (fuel : Nat) (s : Editor) (f : Nat), f < fuel → WF s →
    InTree s f → ∃ s', exchangeAux fuel s f = some s' ∧ WF s' ∧
      (s' = s ∨ ∃ q l1 a b l2, Desc s.frames q f ∧ q ≠ f ∧ Swapped s s' q l1 a b l2)
  | 0, _, _, hf, _, _ => absurd hf (Nat.not_lt_zero _)
  | fuel + 1, s, f, hfuel, w, ht => by
    have hf : f < s.frames.length := InTree.lt w ht
    cases hpar : parentOf s.frames f with
    | none => exact ⟨s, exchangeAux_root hf hpar fuel, w, Or.inl rfl⟩
    | some p =>
      obtain ⟨hmem, hp, htp⟩ := InTree.parent w ht hpar
      obtain ⟨pfr, hpfr⟩ := getElem?_of_lt hp
      have hpf : p < f := (w.edge p hp f hmem).1
      have hanc : Desc s.frames p f := Desc.step hmem (Desc.refl f)
      rw [exchangeAux_step hf hpar hpfr]
      by_cases hone : pfr.children.length = 1
      · rw [if_pos hone]
        obtain ⟨s', e, w', hres⟩ := exchangeAux_spec fuel s p (by omega) w htp
        refine ⟨s', e, w', ?_⟩
        rcases hres with h | ⟨q, l1, a, b, l2, hd, _, hsw⟩
        · exact Or.inl h
        · refine Or.inr ⟨q, l1, a, b, l2, hd.snoc hmem, fun e => ?_, hsw⟩
          have hq : q < s.frames.length := by rw [e]; exact hf
          have := Desc.le w hd hq
          omega
      · rw [if_neg hone]
        obtain ⟨pre, post, hcs, hpre, _⟩ := mem_split_nodup hmem (w.nodup p hp)
        rw [childrenOf_eq hpfr] at hcs
        have h2 : 2 ≤ (pre ++ f :: post).length := by
          rw [hcs] at hone
          have : 1 ≤ (pre ++ f :: post).length := by
            rw [List.length_append, List.length_cons]; omega
          omega
        obtain ⟨s', l1, a, b, l2, _, _, e, hsw, _, _, _, _, w', _⟩ :=
          exchangeSwap_spec w hpfr hcs hpre h2
        exact ⟨s', e, w', Or.inr ⟨p, l1, a, b, l2, hanc, Nat.ne_of_lt hpf, hsw⟩⟩

/-- The result of `exchange` does not depend on the recursion budget, once
that is above the frame. -/
theorem exchangeAux_fuel {s : Editor} (w : WF s) : ∀ (n m f : Nat), f < n → f < m →
    InTree s f → exchangeAux n s f = exchangeAux m s f
  | 0, _, _, hn, _, _ => absurd hn (Nat.not_lt_zero _)
  | _ + 1, 0, _, _, hm, _ => absurd hm (Nat.not_lt_zero _)
  | n + 1, m + 1, f, hn, hm, ht => by
    have hf : f < s.frames.length := InTree.lt w ht
    cases hpar : parentOf s.frames f with
    | none => rw [exchangeAux_root hf hpar, exchangeAux_root hf hpar]
    | some p =>
      obtain ⟨hmem, hp, htp⟩ := InTree.parent w ht hpar
      obtain ⟨pfr, hpfr⟩ := getElem?_of_lt hp
      have hpf : p < f := (w.edge p hp f hmem).1
      rw [exchangeAux_step hf hpar hpfr, exchangeAux_step hf hpar hpfr,
        exchangeAux_fuel w n m p (by omega) (by omega) htp]

/-! ## Measures that do not depend on the order of the children -/

/-- A monadic fold with a commuting step does not depend on the order. -/
theorem foldlM_perm {α β : Type} (F : β → α → Option β)
    (hF : ∀ n x y, (F n x).bind (fun m => F m y) = (F n y).bind (fun m => F m x))
    {l1 l2 : List α} (hp : l1.Perm l2) : ∀ n, l1.foldlM F n = l2.foldlM F n := by
  induction hp with
  | nil => intro n; rfl
  | cons x _ ih =>
    intro n
    rw [List.foldlM_cons, List.foldlM_cons]
    congr 1
    funext m
    exact ih m
  | swap x y l =>
    intro n
    simp only [List.foldlM_cons]
    have := hF n y x
    calc (F n y >>= fun m => F m x >>= fun m' => List.foldlM F m' l)
        = ((F n y).bind (fun m => F m x)).bind (fun m' => List.foldlM F m' l) := by
          cases F n y <;> rfl
      _ = ((F n x).bind (fun m => F m y)).bind (fun m' => List.foldlM F m' l) := by rw [this]
      _ = (F n x >>= fun m => F m y >>= fun m' => List.foldlM F m' l) := by
          cases F n x <;> rfl
  | trans _ _ ih1 ih2 => intro n; rw [ih1, ih2]

/-- The step `n ↦ op n (G c)` commutes when `op` does. -/
theorem foldlM_perm_op {α β γ : Type} (G : α → Option γ) (op : β → γ → β)
    (hop : ∀ n x y, op (op n x) y = op (op n y) x) {l1 l2 : List α} (hp : l1.Perm l2)
    (n : β) :
    l1.foldlM (fun n c => (G c).bind fun v => some (op n v)) n =
      l2.foldlM (fun n c => (G c).bind fun v => some (op n v)) n := by
  refine foldlM_perm _ (fun n x y => ?_) hp n
  cases hx : G x <;> cases hy : G y <;> simp [hx, hy, hop]

theorem PermTree.frame {h k : Heap} (pt : PermTree h k) (a : Nat) :
    (h[a]? = none ∧ k[a]? = none) ∨
      ∃ fr fr', h[a]? = some fr ∧ k[a]? = some fr' ∧ fr'.children.Perm fr.children ∧
        fr'.vertical = fr.vertical ∧ hasChildren fr' = hasChildren fr := by
  cases hx : h[a]? with
  | none =>
    refine Or.inl ⟨rfl, ?_⟩
    rw [List.getElem?_eq_none_iff] at hx ⊢
    rw [pt.len]; exact hx
  | some fr =>
    obtain ⟨fr', hk⟩ := getElem?_of_lt (show a < k.length by
      rw [pt.len]; exact (List.getElem?_eq_some.1 hx).1)
    have hc := pt.children a
    have hv := pt.vertical a
    rw [childrenOf_eq hx, childrenOf_eq hk] at hc
    rw [verticalOf_eq hx, verticalOf_eq hk] at hv
    refine Or.inr ⟨fr, fr', rfl, hk, hc, hv, ?_⟩
    unfold hasChildren
    rw [hc.length_eq]

theorem countSplitsAux_perm {h k : Heap} (pt : PermTree h k) (v : Bool) :
    ∀ (fuel a : Nat), countSplitsAux fuel k a v = countSplitsAux fuel h a v
  | 0, _ => rfl
  | fuel + 1, a => by
    unfold countSplitsAux
    rcases pt.frame a with ⟨h1, h2⟩ | ⟨fr, fr', h1, h2, hc, hv, hh⟩
    · rw [h1, h2]
    · rw [h1, h2]
      simp only [hh, hv, countSplitsAux_perm pt v fuel]
      split
      · rfl
      · split
        · exact foldlM_perm_op (fun c => countSplitsAux fuel h c v) (fun n x => n + x)
            (fun n x y => by show n + x + y = n + y + x; omega) hc 0
        · exact foldlM_perm_op (fun c => countSplitsAux fuel h c v)
            (fun n x => if x > n then x else n)
            (fun n x y => by
              show (if y > (if x > n then x else n) then y else (if x > n then x else n)) =
                (if x > (if y > n then y else n) then x else (if y > n then y else n))
              split_ifs <;> omega) hc 0

theorem leavesAux_perm {h k : Heap} (pt : PermTree h k) :
    ∀ (fuel a : Nat), leavesAux fuel k a = leavesAux fuel h a
  | 0, _ => rfl
  | fuel + 1, a => by
    unfold leavesAux
    rcases pt.frame a with ⟨h1, h2⟩ | ⟨fr, fr', h1, h2, hc, _, hh⟩
    · rw [h1, h2]
    · rw [h1, h2]
      simp only [hh, leavesAux_perm pt fuel]
      split
      · rfl
      · exact foldlM_perm_op (fun c => leavesAux fuel h c) (fun n x => n + x)
          (fun n x y => by show n + x + y = n + y + x; omega) hc 0

theorem depthAux_perm {h k : Heap} (pt : PermTree h k) :
    ∀ (fuel a : Nat), depthAux fuel k a = depthAux fuel h a
  | 0, _ => rfl
  | fuel + 1, a => by
    unfold depthAux
    rcases pt.frame a with ⟨h1, h2⟩ | ⟨fr, fr', h1, h2, hc, _, hh⟩
    · rw [h1, h2]
    · rw [h1, h2]
      simp only [hh, depthAux_perm pt fuel]
      split
      · rfl
      · exact foldlM_perm_op (fun c => depthAux fuel h c) (fun n x => max n (x + 1))
          (fun n x y => by
            show max (max n (x + 1)) (y + 1) = max (max n (y + 1)) (x + 1)
            rw [max_assoc, max_assoc, max_comm (x + 1)]) hc 0

theorem leavesAux_total {h : Heap} {r : Nat → Nat} (hr : Ranked h r) :
    ∀ (fuel f : Nat), f < h.length → r f < fuel → ∃ n, leavesAux fuel h f = some n
  | 0, _, _, hf => absurd hf (Nat.not_lt_zero _)
  | fuel + 1, f, hlt, hf => by
    unfold leavesAux
    obtain ⟨fr, hfr⟩ := getElem?_of_lt hlt
    rw [hfr]
    cases hh : hasChildren fr with
    | false => exact ⟨1, by simp [hh]⟩
    | true =>
      simp only [hh, Bool.not_true, Bool.false_eq_true, if_false]
      obtain ⟨n, hn, _⟩ := foldlM_inv (fun _ : Nat => True)
        (fun (n : Nat) child => (leavesAux fuel h child).bind fun v => some (n + v))
        fr.children 0 trivial (fun b c hc _ => by
          have hcr := hr.child f hlt c (by rw [childrenOf_eq hfr]; exact hc)
          obtain ⟨m, hm⟩ := leavesAux_total hr fuel c hcr.1 (by omega)
          exact ⟨b + m, by simp [hm], trivial⟩)
      exact ⟨n, hn⟩

theorem depthAux_total {h : Heap} {r : Nat → Nat} (hr : Ranked h r) :
    ∀ (fuel f : Nat), f < h.length → r f < fuel → ∃ n, depthAux fuel h f = some n
  | 0, _, _, hf => absurd hf (Nat.not_lt_zero _)
  | fuel + 1, f, hlt, hf => by
    unfold depthAux
    obtain ⟨fr, hfr⟩ := getElem?_of_lt hlt
    rw [hfr]
    cases hh : hasChildren fr with
    | false => exact ⟨0, by simp [hh]⟩
    | true =>
      simp only [hh, Bool.not_true, Bool.false_eq_true, if_false]
      obtain ⟨n, hn, _⟩ := foldlM_inv (fun _ : Nat => True)
        (fun (n : Nat) child => (depthAux fuel h child).bind fun v => some (max n (v + 1)))
        fr.children 0 trivial (fun b c hc _ => by
          have hcr := hr.child f hlt c (by rw [childrenOf_eq hfr]; exact hc)
          obtain ⟨m, hm⟩ := depthAux_total hr fuel c hcr.1 (by omega)
          exact ⟨max b (m + 1), by simp [hm], trivial⟩)
      exact ⟨n, hn⟩

theorem PermTree.desc {h k : Heap} (pt : PermTree h k) {a b : Nat} (d : Desc h a b) :
    Desc k a b := by
  induction d with
  | refl a => exact Desc.refl a
  | step hc _ ih => exact Desc.step ((pt.children _).mem_iff.2 hc) ih

theorem PermTree.symm {h k : Heap} (pt : PermTree h k) : PermTree k h :=
  ⟨pt.len.symm, fun a => (pt.children a).symm, fun a => (pt.vertical a).symm⟩

theorem Swapped.permTree {s s' : Editor} {q : Nat} {l1 : List Nat} {a b : Nat} {l2 : List Nat}
    (sw : Swapped s s' q l1 a b l2) : PermTree s.frames s'.frames := by
  refine ⟨sw.len, fun c => ?_, sw.vertical⟩
  by_cases hc : c = q
  · rw [hc, sw.before, sw.after]
    exact List.Perm.append_left l1 (List.Perm.swap a b l2)
  · rw [sw.others c hc]

/-! ## `countSplits` of a node from `countSplits` of its children -/

theorem foldlM_congr {α β : Type} {g g' : β → α → Option β} :
    ∀ (cs : List α) (b : β), (∀ b, ∀ c ∈ cs, g b c = g' b c) →
      cs.foldlM g b = cs.foldlM g' b
  | [], _, _ => rfl
  | c :: cs, b, hg => by
    rw [List.foldlM_cons, List.foldlM_cons, hg b c (List.mem_cons_self _ _)]
    congr 1
    funext b'
    exact foldlM_congr cs b' (fun b c hc => hg b c (List.mem_cons_of_mem _ hc))

/-- The result of `countSplits` does not depend on the recursion budget, once
that is above the height of the frame. -/
theorem countSplitsAux_fuel {h : Heap} {r : Nat → Nat} (hr : Ranked h r) (v : Bool) :
    ∀ (n m f : Nat), f < h.length → r f < n → r f < m →
      countSplitsAux n h f v = countSplitsAux m h f v
  | 0, _, _, _, hn, _ => absurd hn (Nat.not_lt_zero _)
  | _ + 1, 0, _, _, _, hm => absurd hm (Nat.not_lt_zero _)
  | n + 1, m + 1, f, hf, hn, hm => by
    obtain ⟨fr, hfr⟩ := getElem?_of_lt hf
    have hch : ∀ c ∈ fr.children, countSplitsAux n h c v = countSplitsAux m h c v := by
      intro c hc
      have := hr.child f hf c (by rw [childrenOf_eq hfr]; exact hc)
      exact countSplitsAux_fuel hr v n m c this.1 (by omega) (by omega)
    unfold countSplitsAux
    rw [hfr]
    simp only
    split
    · rfl
    · split
      · exact foldlM_congr _ _ (fun b c hc => by rw [hch c hc])
      · exact foldlM_congr _ _ (fun b c hc => by rw [hch c hc])

/-- `countSplits` of a frame with children is the fold of `countSplits` of the
children: their sum along the orientation of the frame, their maximum across. -/
theorem countSplits_node {h : Heap} {r : Nat → Nat} (hr : Ranked h r) (v : Bool) {f : Nat}
    {fr : Frame} (hfr : h[f]? = some fr) (hh : hasChildren fr = true) :
    countSplits h f v =
      if fr.vertical == v then
        fr.children.foldlM
          (fun (n : Int) child => (countSplits h child v).bind fun w => some (n + w)) 0
      else
        fr.children.foldlM
          (fun (n : Int) child =>
            (countSplits h child v).bind fun w => some (if w > n then w else n)) 0 := by
  have hf : f < h.length := (List.getElem?_eq_some.1 hfr).1
  have hch : ∀ c ∈ fr.children, countSplitsAux h.length h c v = countSplits h c v := by
    intro c hc
    have := hr.child f hf c (by rw [childrenOf_eq hfr]; exact hc)
    have hb := hr.bound f hf
    exact countSplitsAux_fuel hr v _ _ c this.1 (by omega) (by omega)
  conv_lhs => unfold countSplits countSplitsAux
  rw [hfr]
  simp only [hh, Bool.not_true, Bool.false_eq_true, if_false]
  split
  · exact foldlM_congr _ _ (fun b c hc => by rw [hch c hc])
  · exact foldlM_congr _ _ (fun b c hc => by rw [hch c hc])

/-- A fold that adds up returns the start plus the sum. -/
theorem foldlM_sum {α : Type} (g : α → Option Int) (k : α → Int) :
    ∀ (cs : List α) (a : Int), (∀ c ∈ cs, g c = some (k c)) →
      cs.foldlM (fun (n : Int) c => (g c).bind fun w => some (n + w)) a =
        some (a + (cs.map k).sum)
  | [], a, _ => by simp
  | c :: cs, a, hg => by
    rw [List.foldlM_cons, hg c (List.mem_cons_self _ _)]
    simp only [Option.some_bind, Option.bind_eq_bind]
    rw [foldlM_sum g k cs _ (fun c hc => hg c (List.mem_cons_of_mem _ hc))]
    simp only [List.map_cons, List.sum_cons]
    congr 1
    omega

/-- A fold that keeps the maximum returns a bound of the start and of all
entries. -/
theorem foldlM_max {α : Type} (g : α → Option Int) (k : α → Int) :
    ∀ (cs : List α) (a : Int), (∀ c ∈ cs, g c = some (k c)) →
      ∃ m, cs.foldlM (fun (n : Int) c => (g c).bind fun w => some (if w > n then w else n)) a =
        some m ∧ a ≤ m ∧ ∀ c ∈ cs, k c ≤ m
  | [], a, _ => ⟨a, rfl, le_refl _, fun _ hc => by cases hc⟩
  | c :: cs, a, hg => by
    obtain ⟨m, hm, ha, hall⟩ := foldlM_max g k cs (if k c > a then k c else a)
      (fun c hc => hg c (List.mem_cons_of_mem _ hc))
    refine ⟨m, ?_, ?_, ?_⟩
    · rw [List.foldlM_cons, hg c (List.mem_cons_self _ _)]
      exact hm
    · split at ha <;> omega
    · intro d hd
      rcases List.mem_cons.1 hd with rfl | hd
      · split at ha <;> omega
      · exact hall d hd

theorem dimOf_eq {h : Heap} {a : Nat} {fr : Frame} (hf : h[a]? = some fr) (v : Bool) :
    dimOf h a v = fr.dim v := by
  unfold dimOf; rw [hf]

theorem dimOf_set (h : Heap) (a b : Nat) (fr : Frame) (v : Bool) :
    dimOf (h.set a fr) b v = if a = b ∧ a < h.length then fr.dim v else dimOf h b v := by
  unfold dimOf
  rw [getElem?_set_eq_ite]
  by_cases hc : a = b ∧ a < h.length
  · rw [if_pos hc, if_pos hc]
  · rw [if_neg hc, if_neg hc]

/-- A loop invariant that may speak of the entries already visited. -/
theorem foldlM_prefix {α β : Type} (Q : List α → β → Prop) (g : β → α → Option β)
    (all : List α)
    (hstep : ∀ pre c post b, pre ++ c :: post = all → Q pre b →
      ∃ b', g b c = some b' ∧ Q (pre ++ [c]) b') :
    ∀ (post pre : List α) (b : β), pre ++ post = all → Q pre b →
      ∃ b', post.foldlM g b = some b' ∧ Q all b'
  | [], pre, b, e, hb => ⟨b, rfl, by rw [List.append_nil] at e; exact e ▸ hb⟩
  | c :: post, pre, b, e, hb => by
    obtain ⟨b1, h1, hQ1⟩ := hstep pre c post b e hb
    obtain ⟨b2, h2, hQ2⟩ := foldlM_prefix Q g all hstep post (pre ++ [c]) b1
      (by rw [List.append_assoc]; exact e) hQ1
    exact ⟨b2, by rw [List.foldlM_cons, h1]; exact h2, hQ2⟩

/-- Across its orientation a frame counts at least as many splits as each of
its children. -/
theorem countSplits_child_le {h : Heap} {r : Nat → Nat} (hr : Ranked h r) (v : Bool) {f : Nat}
    {fr : Frame} (hfr : h[f]? = some fr) (hh : hasChildren fr = true)
    (hv : (fr.vertical == v) = false) {max : Int} (hmax : countSplits h f v = some max)
    {c : Nat} (hc : c ∈ fr.children) {n : Int} (hn : countSplits h c v = some n) : n ≤ max := by
  have hf : f < h.length := (List.getElem?_eq_some.1 hfr).1
  rw [countSplits_node hr v hfr hh, hv] at hmax
  simp only [Bool.false_eq_true, if_false] at hmax
  obtain ⟨m, hm, _, hall⟩ := foldlM_max (fun c => countSplits h c v)
    (fun c => (countSplits h c v).getD 0) fr.children 0 (fun c hc => by
      obtain ⟨n, hn, _⟩ := countSplits_pos hr v
        (hr.child f hf c (by rw [childrenOf_eq hfr]; exact hc)).1
      show countSplits h c v = some ((countSplits h c v).getD 0)
      rw [hn]; rfl)
  rw [hm] at hmax
  cases hmax
  have := hall c hc
  rw [hn] at this
  exact this

/-- Along its orientation a frame counts the sum of the counts of its children. -/
theorem countSplits_sum {h : Heap} {r : Nat → Nat} (hr : Ranked h r) (v : Bool) {f : Nat}
    {fr : Frame} (hfr : h[f]? = some fr) (hh : hasChildren fr = true)
    (hv : (fr.vertical == v) = true) :
    countSplits h f v = some ((fr.children.map fun c => (countSplits h c v).getD 0).sum) := by
  have hf : f < h.length := (List.getElem?_eq_some.1 hfr).1
  rw [countSplits_node hr v hfr hh, hv]
  simp only [if_true]
  rw [foldlM_sum (fun c => countSplits h c v)
    (fun c => (countSplits h c v).getD 0) fr.children 0 (fun c hc => by
      obtain ⟨n, hn, _⟩ := countSplits_pos hr v
        (hr.child f hf c (by rw [childrenOf_eq hfr]; exact hc)).1
      show countSplits h c v = some ((countSplits h c v).getD 0)
      rw [hn]; rfl), zero_add]

theorem tdiv_ge_unit {sv max n : Int} (hsv : 0 ≤ sv) (hn : 1 ≤ n) (hle : n ≤ max) :
    sv ≤ Int.tdiv (sv * max) n := by
  have h1 : 0 ≤ sv * max := Int.mul_nonneg hsv (by omega)
  rw [Int.tdiv_eq_ediv h1 (by omega)]
  exact Int.le_ediv_of_mul_le (by omega) (Int.mul_le_mul_of_nonneg_left hle hsv)

/-- Along its orientation a frame counts at least as many splits as each of its
children. -/
theorem countSplits_child_le_sum {h : Heap} {r : Nat → Nat} (hr : Ranked h r) (v : Bool)
    {f : Nat} {fr : Frame} (hfr : h[f]? = some fr) (hh : hasChildren fr = true)
    (hv : (fr.vertical == v) = true) {max : Int} (hmax : countSplits h f v = some max)
    {c : Nat} (hc : c ∈ fr.children) {n : Int} (hn : countSplits h c v = some n) : n ≤ max := by
  have hf : f < h.length := (List.getElem?_eq_some.1 hfr).1
  rw [countSplits_sum hr v hfr hh hv] at hmax
  cases hmax
  have hall : ∀ x ∈ (fr.children.map fun c => (countSplits h c v).getD 0), 0 ≤ x := by
    intro x hx
    obtain ⟨c', hc', rfl⟩ := List.mem_map.1 hx
    obtain ⟨n', hn', hp⟩ := countSplits_pos hr v
      (hr.child f hf c' (by rw [childrenOf_eq hfr]; exact hc')).1
    show 0 ≤ (countSplits h c' v).getD 0
    rw [hn']
    show 0 ≤ n'
    omega
  have := List.single_le_sum hall _ (List.mem_map.2 ⟨c, hc, rfl⟩)
  rw [hn] at this
  exact this

/-- While the product of count and unit stays in the range of `int`, the unit
handed down by `setSize` never decreases: every frame below `f` ends with at
least `u` along the axis, and a frame that had at least `u` keeps at least `u`. -/
theorem setSizeAux_ge {r : Nat → Nat} (v : Bool) (u : Int) (hu : 0 ≤ u) :
    ∀ (fuel : Nat) (h : Heap) (f : Nat) (sv : Int), Ranked h r → f < h.length → r f < fuel →
      u ≤ sv →
      (∀ max, countSplits h f v = some max → max * sv < 9223372036854775808) →
      ∃ h', setSizeAux fuel h f v sv = some h' ∧ SameTree h h' ∧
        ∀ a, (Desc h f a ∨ u ≤ dimOf h a v) → u ≤ dimOf h' a v
  | 0, _, _, _, _, _, hf, _, _ => absurd hf (Nat.not_lt_zero _)
  | fuel + 1, h, f, sv, hr, hlt, hf, hsv, hfit => by
    unfold setSizeAux
    obtain ⟨fr, hfr⟩ := getElem?_of_lt hlt
    rw [hfr]
    cases hh : hasChildren fr with
    | false =>
      simp only [hh, Bool.not_false, if_true]
      refine ⟨_, rfl, SameTree.set hfr (by cases v <;> rfl) (by cases v <;> rfl)
        (by cases v <;> rfl) (by cases v <;> rfl), fun a ha => ?_⟩
      rw [dimOf_set]
      by_cases hfa : f = a
      · rw [if_pos ⟨hfa, hlt⟩, Frame.dim_setDim]; exact hsv
      · rw [if_neg (fun hc => hfa hc.1)]
        rcases ha with d | ha
        · cases d with
          | refl => exact absurd rfl hfa
          | step hc _ =>
            rw [childrenOf_eq hfr, hasChildren_eq_false.1 hh] at hc
            cases hc
        · exact ha
    | true =>
      obtain ⟨max, hmax, hpos⟩ := countSplits_pos hr v hlt
      have hlim := hfit max hmax
      have hsv0 : 0 ≤ sv := le_trans hu hsv
      have hnn : 0 ≤ max * sv := Int.mul_nonneg (by omega) hsv0
      have hw : wrap (max * sv) = max * sv := wrap_of_inInt ⟨by omega, hlim⟩
      have hw' : wrap (sv * max) = sv * max := by rw [mul_comm sv max]; exact hw
      have hs1 : SameTree h (h.set f (fr.setDim v (max * sv))) :=
        SameTree.set hfr (by cases v <;> rfl) (by cases v <;> rfl)
          (by cases v <;> rfl) (by cases v <;> rfl)
      have hbig : u ≤ max * sv := by
        have : 0 ≤ (max - 1) * sv := Int.mul_nonneg (by omega) (by omega)
        have e : max * sv = (max - 1) * sv + sv := by ring
        omega
      have key : ∀ (g : Heap → Nat → Option Heap),
          (∀ hc c, c ∈ fr.children → SameTree h hc →
            ∃ sv', u ≤ sv' ∧
              (∀ m, countSplits h c v = some m → m * sv' < 9223372036854775808) ∧
              g hc c = setSizeAux fuel hc c v sv') →
          ∃ h', fr.children.foldlM g (h.set f (fr.setDim v (max * sv))) = some h' ∧
            (SameTree h h' ∧ ∀ a, (a = f ∨ u ≤ dimOf h a v ∨ ∃ c ∈ fr.children, Desc h c a) →
              u ≤ dimOf h' a v) := by
        intro g hg
        refine foldlM_prefix (fun pre (hc : Heap) => SameTree h hc ∧
          ∀ a, (a = f ∨ u ≤ dimOf h a v ∨ ∃ c ∈ pre, Desc h c a) → u ≤ dimOf hc a v)
          g fr.children ?_ fr.children [] _ rfl ⟨hs1, fun a ha => ?_⟩
        · intro pre c post hc e ⟨hst, hq⟩
          have hcm : c ∈ fr.children := by rw [← e]; simp
          have hcf : c ∈ childrenOf h f := by rw [childrenOf_eq hfr]; exact hcm
          have hcr := hr.child f hlt c hcf
          obtain ⟨sv', hsv', hfit', e1⟩ := hg hc c hcm hst
          obtain ⟨h2, e2, s2, q2⟩ := setSizeAux_ge v u hu fuel hc c sv' (hst.rankedOf hr)
            (by rw [hst.len]; exact hcr.1) (by omega) hsv'
            (fun m hm => hfit' m (by rw [← countSplits_sameTree hst]; exact hm))
          refine ⟨h2, e1.trans e2, hst.trans s2, fun a ha => ?_⟩
          rcases ha with ha | ha | ⟨c', hc', d⟩
          · exact q2 a (Or.inr (hq a (Or.inl ha)))
          · exact q2 a (Or.inr (hq a (Or.inr (Or.inl ha))))
          · rcases List.mem_append.1 hc' with hp | hp
            · exact q2 a (Or.inr (hq a (Or.inr (Or.inr ⟨c', hp, d⟩))))
            · rw [List.mem_singleton] at hp
              subst hp
              exact q2 a (Or.inl (d.of_sameTree hst))
        · rw [dimOf_set]
          by_cases hfa : f = a
          · rw [if_pos ⟨hfa, hlt⟩, Frame.dim_setDim]; exact hbig
          · rw [if_neg (fun hc => hfa hc.1)]
            rcases ha with ha | ha | ⟨c', hc', _⟩
            · exact absurd ha.symm hfa
            · exact ha
            · cases hc'
      have fin : ∀ h' : Heap, (SameTree h h' ∧
          ∀ a, (a = f ∨ u ≤ dimOf h a v ∨ ∃ c ∈ fr.children, Desc h c a) → u ≤ dimOf h' a v) →
          SameTree h h' ∧ ∀ a, (Desc h f a ∨ u ≤ dimOf h a v) → u ≤ dimOf h' a v := by
        intro h' ⟨st, q⟩
        refine ⟨st, fun a ha => ?_⟩
        rcases ha with d | ha
        · cases d with
          | refl => exact q _ (Or.inl rfl)
          | step hc d =>
            rw [childrenOf_eq hfr] at hc
            exact q a (Or.inr (Or.inr ⟨_, hc, d⟩))
        · exact q a (Or.inr (Or.inl ha))
      simp only [hh, hmax, Option.some_bind, Option.bind_eq_bind, Bool.not_true,
        Bool.false_eq_true, if_false, hw, hw']
      cases hv : fr.vertical == v with
      | true =>
        simp only [if_true]
        obtain ⟨h', e, q⟩ := key _ (fun hc c hcm _ => ⟨sv, hsv, fun m hm => by
          have hle := countSplits_child_le_sum hr v hfr hh hv hmax hcm hm
          have := Int.mul_le_mul_of_nonneg_right hle hsv0
          omega, rfl⟩)
        exact ⟨h', e, fin h' q⟩
      | false =>
        simp only [Bool.false_eq_true, if_false]
        obtain ⟨h', e, q⟩ := key
          (fun (hc : Heap) child =>
            (countSplits hc child v).bind fun n =>
              if n = 0 then none
              else setSizeAux fuel hc child v (Int.tdiv (sv * max) n))
          (fun hc c hcm hst => by
            have hcf : c ∈ childrenOf h f := by rw [childrenOf_eq hfr]; exact hcm
            obtain ⟨n, hn, hpos⟩ := countSplits_pos hr v (hr.child f hlt c hcf).1
            have hle := countSplits_child_le hr v hfr hh hv hmax hcm hn
            refine ⟨Int.tdiv (sv * max) n,
              le_trans hsv (tdiv_ge_unit hsv0 hpos hle), fun m hm => ?_, ?_⟩
            · rw [hn] at hm
              rw [← Option.some.inj hm]
              have := ((tdiv_sandwich (sv * max) n hpos).1 (by rw [mul_comm]; exact hnn)).2.2.2
              exact lt_of_le_of_lt this (by rw [mul_comm]; exact hlim)
            · show (countSplits hc c v).bind _ = _
              rw [countSplits_sameTree hst, hn, Option.some_bind, if_neg (by omega)])
        exact ⟨h', e, fin h' q⟩

/-! ## Frame trees: the subtrees of two siblings are disjoint -/

theorem WFx.toTreeHeap {s : Editor} {hole : Option Nat} (w : WFx s hole) :
    TreeHeap s.frames (fun a => s.frames.length - a) :=
  ⟨w.ranked, w.nodup, fun p hp c hc => (w.edge p hp c hc).2.2.1⟩

theorem SameTree.treeHeapOf {h k : Heap} {r : Nat → Nat} (st : SameTree h k)
    (t : TreeHeap h r) : TreeHeap k r :=
  ⟨st.rankedOf t.ranked, fun p hp => by rw [st.childrenOf]; exact t.nodup p (st.len ▸ hp),
    fun p hp c hc => by
      rw [st.parentOf]
      exact t.back p (st.len ▸ hp) c (by rw [← st.childrenOf]; exact hc)⟩

theorem TreeHeap.sibling_not_desc {h : Heap} {r : Nat → Nat} (t : TreeHeap h r) {p c c' : Nat}
    (hc : c ∈ childrenOf h p) (hc' : c' ∈ childrenOf h p) (hne : c ≠ c') : ¬ Desc h c c' := by
  intro d
  rcases Desc.last d with e | ⟨q, hq, hcq⟩
  · exact hne e
  · have e1 := t.back q (childrenOf_lt hcq) c' hcq
    rw [t.back p (childrenOf_lt hc') c' hc'] at e1
    have hqp : p = q := Option.some.inj e1
    subst hqp
    have hr := t.ranked.child p (childrenOf_lt hc) c hc
    have := Desc.rank_le t.ranked hq hr.1
    omega

theorem TreeHeap.not_desc_parent {h : Heap} {r : Nat → Nat} (t : TreeHeap h r) {p c : Nat}
    (hc : c ∈ childrenOf h p) : ¬ Desc h c p := by
  intro d
  have hr := t.ranked.child p (childrenOf_lt hc) c hc
  have := Desc.rank_le t.ranked d hr.1
  omega

theorem TreeHeap.comparable {h : Heap} {r : Nat → Nat} (t : TreeHeap h r) {a b l : Nat}
    (da : Desc h a l) (db : Desc h b l) : Desc h a b ∨ Desc h b a := by
  induction db with
  | refl b => exact Or.inl da
  | @step b c l hc _ ih =>
    rcases ih da with h1 | h1
    · rcases Desc.last h1 with e | ⟨q, hq, hcq⟩
      · exact Or.inr (Desc.step hc (by rw [e]; exact Desc.refl c))
      · have e1 := t.back q (childrenOf_lt hcq) c hcq
        rw [t.back b (childrenOf_lt hc) c hc] at e1
        have hqb : b = q := Option.some.inj e1
        exact Or.inl (hqb ▸ hq)
    · exact Or.inr (Desc.step hc h1)

theorem TreeHeap.disjoint {h : Heap} {r : Nat → Nat} (t : TreeHeap h r) {p c c' l : Nat}
    (hc : c ∈ childrenOf h p) (hc' : c' ∈ childrenOf h p) (hne : c ≠ c') (d : Desc h c l) :
    ¬ Desc h c' l := by
  intro d'
  rcases t.comparable d d' with h1 | h1
  · exact t.sibling_not_desc hc hc' hne h1
  · exact t.sibling_not_desc hc' hc (Ne.symm hne) h1

/-! ## The sizes of the children after `setSize` -/

theorem dimOf_congr {h k : Heap} {a : Nat} (e : k[a]? = h[a]?) (v : Bool) :
    dimOf k a v = dimOf h a v := by
  unfold dimOf; rw [e]

theorem posOf_congr {h k : Heap} {a : Nat} (e : k[a]? = h[a]?) (v : Bool) :
    posOf k a v = posOf h a v := by
  unfold posOf; rw [e]

/-- On a frame tree, `setSize` on a frame with children leaves it with
`max * singleValue` and every child `c` with `countSplits(c) * unit`, both in
`int` arithmetic, the unit being the one of the frame along its orientation and
`singleValue * max / countSplits(c)`, truncated, across. -/
theorem setSizeAux_children {r : Nat → Nat} (v : Bool) {h : Heap} (t : TreeHeap h r) {f : Nat}
    {fr : Frame} (hfr : h[f]? = some fr) (hh : hasChildren fr = true) (sv : Int)
    (hsv : InInt sv) :
    ∀ (fuel : Nat), r f < fuel →
      ∃ h' max, setSizeAux fuel h f v sv = some h' ∧ SameTree h h' ∧
        countSplits h f v = some max ∧ dimOf h' f v = wrap (max * sv) ∧
        ∀ c ∈ fr.children, ∃ n, countSplits h c v = some n ∧ 1 ≤ n ∧
          dimOf h' c v =
            wrap (n * (if fr.vertical == v then sv else Int.tdiv (wrap (sv * max)) n))
  | 0, hf => absurd hf (Nat.not_lt_zero _)
  | fuel + 1, hf => by
    have hr := t.ranked
    have hlt : f < h.length := (List.getElem?_eq_some.1 hfr).1
    obtain ⟨max, hmax, _⟩ := countSplits_pos hr v hlt
    have hs1 : SameTree h (h.set f (fr.setDim v (wrap (max * sv)))) :=
      SameTree.set hfr (by cases v <;> rfl) (by cases v <;> rfl)
        (by cases v <;> rfl) (by cases v <;> rfl)
    have hnd : fr.children.Nodup := by
      have := t.nodup f hlt
      rw [childrenOf_eq hfr] at this
      exact this
    have key : ∀ (unit : Int → Int) (g : Heap → Nat → Option Heap),
        (∀ hc c, c ∈ fr.children → SameTree h hc → ∀ n, countSplits h c v = some n → 1 ≤ n →
          InInt (unit n) ∧ g hc c = setSizeAux fuel hc c v (unit n)) →
        ∃ h', fr.children.foldlM g (h.set f (fr.setDim v (wrap (max * sv)))) = some h' ∧
          (SameTree h h' ∧ h'[f]? = some (fr.setDim v (wrap (max * sv))) ∧
            ∀ c ∈ fr.children, ∃ n, countSplits h c v = some n ∧ 1 ≤ n ∧
              dimOf h' c v = wrap (n * unit n)) := by
      intro unit g hg
      refine foldlM_prefix (fun pre (hc : Heap) => SameTree h hc ∧
        hc[f]? = some (fr.setDim v (wrap (max * sv))) ∧
        ∀ c ∈ pre, ∃ n, countSplits h c v = some n ∧ 1 ≤ n ∧ dimOf hc c v = wrap (n * unit n))
        g fr.children ?_ fr.children [] _ rfl
        ⟨hs1, List.getElem?_set_self hlt, fun c hc => by cases hc⟩
      intro pre c post hc e ⟨hst, hff, hq⟩
      have hcm : c ∈ fr.children := by rw [← e]; simp
      have hcf : c ∈ childrenOf h f := by rw [childrenOf_eq hfr]; exact hcm
      have hcr := hr.child f hlt c hcf
      obtain ⟨n, hn, hpos⟩ := countSplits_pos hr v hcr.1
      obtain ⟨hin, hgc⟩ := hg hc c hcm hst n hn hpos
      obtain ⟨h2, e2, s2, f2, n', fr', hn', hfr', hd'⟩ := setSizeAux_spec v fuel hc c (unit n)
        (hst.rankedOf hr) (by rw [hst.len]; exact hcr.1) (by omega)
      rw [countSplits_sameTree hst, hn] at hn'
      cases hn'
      refine ⟨h2, hgc.trans e2, hst.trans s2, ?_, fun c' hc' => ?_⟩
      · rw [f2 f (fun d => t.not_desc_parent hcf (d.fromSameTree hst))]
        exact hff
      · rcases List.mem_append.1 hc' with hp | hp
        · obtain ⟨m, hm, hm1, hdm⟩ := hq c' hp
          refine ⟨m, hm, hm1, ?_⟩
          have hne : c ≠ c' := by
            intro hcc
            rw [← e] at hnd
            exact (List.nodup_append.1 hnd).2.2 (hcc ▸ hp) (List.mem_cons_self _ _)
          have hc'f : c' ∈ childrenOf h f := by
            rw [childrenOf_eq hfr, ← e]; exact List.mem_append_left _ hp
          rw [dimOf_congr (f2 c' (fun d => t.sibling_not_desc hcf hc'f hne (d.fromSameTree hst)))]
          exact hdm
        · rw [List.mem_singleton] at hp
          subst hp
          exact ⟨n, hn, hpos, by rw [dimOf_eq hfr']; exact hd' hin⟩
    unfold setSizeAux
    rw [hfr]
    simp only [hh, hmax, Option.some_bind, Option.bind_eq_bind, Bool.not_true,
      Bool.false_eq_true, if_false]
    cases hv : fr.vertical == v with
    | true =>
      simp only [if_true]
      obtain ⟨h', e, st, hf', q⟩ := key (fun _ => sv) _ (fun hc c _ _ _ _ _ => ⟨hsv, rfl⟩)
      exact ⟨h', max, e, st, rfl, by rw [dimOf_eq hf', Frame.dim_setDim], q⟩
    | false =>
      simp only [Bool.false_eq_true, if_false]
      obtain ⟨h', e, st, hf', q⟩ := key (fun n => Int.tdiv (wrap (sv * max)) n)
        (fun (hc : Heap) child =>
          (countSplits hc child v).bind fun n =>
            if n = 0 then none
            else setSizeAux fuel hc child v (Int.tdiv (wrap (sv * max)) n))
        (fun hc c hcm hst n hn hpos => ⟨(inInt_tdiv (inInt_wrap _) hpos).1, by
          show (countSplits hc c v).bind _ = _
          rw [countSplits_sameTree hst, hn, Option.some_bind, if_neg (by omega)]⟩)
      exact ⟨h', max, e, st, rfl, by rw [dimOf_eq hf', Frame.dim_setDim], q⟩

/-! ## `setPos`: where the frames are put -/

theorem posOf_eq {h : Heap} {a : Nat} {fr : Frame} (hf : h[a]? = some fr) (v : Bool) :
    posOf h a v = if v then fr.x else fr.y := by
  unfold posOf; rw [hf]

theorem spanOf_nil (h : Heap) (vertical A : Bool) : spanOf h vertical [] A = 0 := by
  unfold spanOf; split <;> rfl

theorem spanOf_append (h : Heap) (vertical : Bool) (l1 l2 : List Nat) (A : Bool) :
    spanOf h vertical (l1 ++ l2) A = spanOf h vertical l1 A + spanOf h vertical l2 A := by
  unfold spanOf
  split
  · rw [List.map_append, List.sum_append]
  · rfl

theorem spanOf_cons (h : Heap) (vertical : Bool) (c : Nat) (l : List Nat) (A : Bool) :
    spanOf h vertical (c :: l) A =
      (if vertical = A then dimOf h c A else 0) + spanOf h vertical l A := by
  unfold spanOf
  split
  · rw [List.map_cons, List.sum_cons]
  · rfl

theorem spanOf_congr {h k : Heap} (e : ∀ a v, dimOf k a v = dimOf h a v) (vertical : Bool)
    (cs : List Nat) (A : Bool) : spanOf k vertical cs A = spanOf h vertical cs A := by
  unfold spanOf
  simp only [e]

/-- On a ranked heap `setPos` returns, keeps the tree and every size, writes only
into `f` and its descendants, and puts `f` at `(x, y)`. -/
theorem setPosAux_frame {r : Nat → Nat} :
    ∀ (fuel : Nat) (h : Heap) (f : Nat) (x y : Int), Ranked h r → f < h.length → r f < fuel →
      ∃ h', setPosAux fuel h f x y = some h' ∧ SameTree h h' ∧
        (∀ a v, dimOf h' a v = dimOf h a v) ∧ (∀ a, ¬ Desc h f a → h'[a]? = h[a]?) ∧
        posOf h' f true = x ∧ posOf h' f false = y
  | 0, _, _, _, _, _, _, hf => absurd hf (Nat.not_lt_zero _)
  | fuel + 1, h, f, x, y, hr, hlt, hf => by
    unfold setPosAux
    obtain ⟨fr, hfr⟩ := getElem?_of_lt hlt
    rw [hfr]
    have hs1 : SameTree h (h.set f { fr with x := x, y := y }) :=
      SameTree.set hfr rfl rfl rfl rfl
    have hne : ∀ a, ¬ Desc h f a → f ≠ a := fun a hd e => hd (e ▸ Desc.refl f)
    have hd1 : ∀ a v, dimOf (h.set f { fr with x := x, y := y }) a v = dimOf h a v := by
      intro a v
      rw [dimOf_set]
      by_cases hfa : f = a
      · rw [if_pos ⟨hfa, hlt⟩, ← hfa, dimOf_eq hfr]
        cases v <;> rfl
      · rw [if_neg (fun hc => hfa hc.1)]
    have hf1 : (h.set f { fr with x := x, y := y })[f]? = some { fr with x := x, y := y } :=
      List.getElem?_set_self hlt
    cases hh : hasChildren fr with
    | false =>
      simp only [hh, Bool.not_false, if_true]
      exact ⟨_, rfl, hs1, hd1, fun a hd => List.getElem?_set_ne (hne a hd),
        by rw [posOf_eq hf1]; rfl, by rw [posOf_eq hf1]; rfl⟩
    | true =>
      simp only [hh, Bool.not_true, Bool.false_eq_true, if_false]
      obtain ⟨st, hst, hP, hD, hF, hS⟩ := foldlM_inv
        (fun st : Heap × Int × Int => SameTree h st.1 ∧ (∀ a v, dimOf st.1 a v = dimOf h a v) ∧
          (∀ a, ¬ Desc h f a → st.1[a]? = h[a]?) ∧
          st.1[f]? = some { fr with x := x, y := y })
        (fun (st : Heap × Int × Int) child =>
            (setPosAux fuel st.1 child st.2.1 st.2.2).bind fun h2 =>
              (h2[child]?).bind fun c =>
                (h2[f]?).bind fun pf =>
                  if pf.vertical then some (h2, wrap (st.2.1 + c.width), st.2.2)
                  else some (h2, st.2.1, wrap (st.2.2 + c.height)))
        fr.children (h.set f { fr with x := x, y := y }, x, y)
        ⟨hs1, hd1, fun a hd => List.getElem?_set_ne (hne a hd), hf1⟩
        (fun st c hcm ⟨hst, hD, hF, hS⟩ => by
          have hcf : c ∈ childrenOf h f := by rw [childrenOf_eq hfr]; exact hcm
          have hcr := hr.child f hlt c hcf
          obtain ⟨h2, e2, s2, d2, f2, _, _⟩ := setPosAux_frame fuel st.1 c st.2.1 st.2.2
            (hst.rankedOf hr) (by rw [hst.len]; exact hcr.1) (by omega)
          have s3 := hst.trans s2
          obtain ⟨cf, hcf2⟩ := getElem?_of_lt (show c < h2.length by rw [s3.len]; exact hcr.1)
          have hpf : h2[f]? = some { fr with x := x, y := y } := by
            rw [f2 f (fun d => ?_)]
            · exact hS
            · have := (d.fromSameTree hst).rank_le hr hcr.1
              omega
          have hrest : SameTree h h2 ∧ (∀ a v, dimOf h2 a v = dimOf h a v) ∧
              (∀ a, ¬ Desc h f a → h2[a]? = h[a]?) ∧
              h2[f]? = some { fr with x := x, y := y } :=
            ⟨s3, fun a v => by rw [d2, hD], fun a hd => by
              rw [f2 a (fun d => hd (Desc.step hcf (d.fromSameTree hst)))]
              exact hF a hd, hpf⟩
          by_cases hv : fr.vertical = true
          · exact ⟨(h2, wrap (st.2.1 + cf.width), st.2.2), by simp [e2, hcf2, hpf, hv], hrest⟩
          · exact ⟨(h2, st.2.1, wrap (st.2.2 + cf.height)), by simp [e2, hcf2, hpf, hv], hrest⟩)
      exact ⟨st.1, by rw [hst]; rfl, hP, hD, hF, by rw [posOf_eq hS]; rfl,
        by rw [posOf_eq hS]; rfl⟩

/-- On a frame tree, `setPos` on a frame with children puts every child at the
corner of the frame, moved along the orientation of the frame by the sizes of
the children before it, in `int` arithmetic. -/
theorem setPosAux_children {r : Nat → Nat} {h : Heap} (t : TreeHeap h r) {f : Nat}
    {fr : Frame} (hfr : h[f]? = some fr) (hh : hasChildren fr = true) (x y : Int)
    (hx : InInt x) (hy : InInt y) :
    ∀ (fuel : Nat), r f < fuel →
      ∃ h', setPosAux fuel h f x y = some h' ∧
        ∀ pre c post, fr.children = pre ++ c :: post → ∀ A,
          posOf h' c A = wrap ((if A then x else y) + spanOf h fr.vertical pre A)
  | 0, hf => absurd hf (Nat.not_lt_zero _)
  | fuel + 1, hf => by
    have hr := t.ranked
    have hlt : f < h.length := (List.getElem?_eq_some.1 hfr).1
    have hnd : fr.children.Nodup := by
      have := t.nodup f hlt
      rw [childrenOf_eq hfr] at this
      exact this
    have hs1 : SameTree h (h.set f { fr with x := x, y := y }) :=
      SameTree.set hfr rfl rfl rfl rfl
    have hd1 : ∀ a v, dimOf (h.set f { fr with x := x, y := y }) a v = dimOf h a v := by
      intro a v
      rw [dimOf_set]
      by_cases hfa : f = a
      · rw [if_pos ⟨hfa, hlt⟩, ← hfa, dimOf_eq hfr]
        cases v <;> rfl
      · rw [if_neg (fun hc => hfa hc.1)]
    have hf1 : (h.set f { fr with x := x, y := y })[f]? = some { fr with x := x, y := y } :=
      List.getElem?_set_self hlt
    unfold setPosAux
    rw [hfr]
    simp only [hh, Bool.not_true, Bool.false_eq_true, if_false]
    obtain ⟨st, hst, _, _, _, _, hQ⟩ := foldlM_prefix
      (fun pre (st : Heap × Int × Int) => SameTree h st.1 ∧
        (∀ a v, dimOf st.1 a v = dimOf h a v) ∧
        st.1[f]? = some { fr with x := x, y := y } ∧
        (∀ A : Bool, (if A then st.2.1 else st.2.2) =
          wrap ((if A then x else y) + spanOf h fr.vertical pre A)) ∧
        ∀ p1 c p2, pre = p1 ++ c :: p2 → ∀ A : Bool,
          posOf st.1 c A = wrap ((if A then x else y) + spanOf h fr.vertical p1 A))
      (fun (st : Heap × Int × Int) child =>
          (setPosAux fuel st.1 child st.2.1 st.2.2).bind fun h2 =>
            (h2[child]?).bind fun c =>
              (h2[f]?).bind fun pf =>
                if pf.vertical then some (h2, wrap (st.2.1 + c.width), st.2.2)
                else some (h2, st.2.1, wrap (st.2.2 + c.height)))
      fr.children
      (fun pre c post st e ⟨hst, hD, hS, hxy, hq⟩ => by
        have hcm : c ∈ fr.children := by rw [← e]; simp
        have hcf : c ∈ childrenOf h f := by rw [childrenOf_eq hfr]; exact hcm
        have hcr := hr.child f hlt c hcf
        obtain ⟨h2, e2, s2, d2, f2, px, py⟩ := setPosAux_frame fuel st.1 c st.2.1 st.2.2
          (hst.rankedOf hr) (by rw [hst.len]; exact hcr.1) (by omega)
        have s3 := hst.trans s2
        obtain ⟨cf, hcf2⟩ := getElem?_of_lt (show c < h2.length by rw [s3.len]; exact hcr.1)
        have hpf : h2[f]? = some { fr with x := x, y := y } := by
          rw [f2 f (fun d => t.not_desc_parent hcf (d.fromSameTree hst))]
          exact hS
        have hD2 : ∀ a v, dimOf h2 a v = dimOf h a v := fun a v => by rw [d2, hD]
        have hw : cf.width = dimOf h c true := by rw [← hD2, dimOf_eq hcf2]; rfl
        have hhe : cf.height = dimOf h c false := by rw [← hD2, dimOf_eq hcf2]; rfl
        have hpos : ∀ A : Bool, posOf h2 c A = if A then st.2.1 else st.2.2 := by
          intro A; cases A
          · exact py
          · exact px
        have hkids : ∀ p1 d p2, pre ++ [c] = p1 ++ d :: p2 → ∀ A : Bool,
            posOf h2 d A = wrap ((if A then x else y) + spanOf h fr.vertical p1 A) := by
          intro p1 d p2 hsplit A
          rcases List.eq_nil_or_concat p2 with h0 | ⟨p2', e', h0⟩
          · subst h0
            obtain ⟨h1, h3⟩ := List.append_inj' hsplit rfl
            cases h3
            rw [hpos, hxy, h1]
          · rw [List.concat_eq_append] at h0
            subst h0
            have hsplit' : pre ++ [c] = (p1 ++ d :: p2') ++ [e'] := by
              rw [hsplit]; simp
            obtain ⟨h1, h3⟩ := List.append_inj' hsplit' rfl
            have hdp : d ∈ pre := by rw [h1]; simp
            have hne : c ≠ d := by
              intro hcd
              rw [← e] at hnd
              exact (List.nodup_append.1 hnd).2.2 (hcd ▸ hdp) (List.mem_cons_self _ _)
            have hdf : d ∈ childrenOf h f := by
              rw [childrenOf_eq hfr, ← e]; exact List.mem_append_left _ hdp
            rw [posOf_congr (f2 d (fun dd => t.sibling_not_desc hcf hdf hne
              (dd.fromSameTree hst)))]
            exact hq p1 d p2' h1 A
        by_cases hv : fr.vertical = true
        · refine ⟨(h2, wrap (st.2.1 + cf.width), st.2.2), by simp [e2, hcf2, hpf, hv],
            s3, hD2, hpf, fun A => ?_, hkids⟩
          rw [spanOf_append, spanOf_cons, spanOf_nil, hv]
          have := hxy A
          rw [hv] at this
          cases A
          · simpa using this
          · simp only [if_true] at this ⊢
            rw [this, hw, wrap_add_wrap]
            congr 1
            ring
        · refine ⟨(h2, st.2.1, wrap (st.2.2 + cf.height)), by simp [e2, hcf2, hpf, hv],
            s3, hD2, hpf, fun A => ?_, hkids⟩
          have hv' : fr.vertical = false := by simpa using hv
          rw [spanOf_append, spanOf_cons, spanOf_nil, hv']
          have := hxy A
          rw [hv'] at this
          cases A
          · simp only [Bool.false_eq_true, if_false, if_true] at this ⊢
            rw [this, hhe, wrap_add_wrap]
            congr 1
            ring
          · simpa using this)
      fr.children [] (h.set f { fr with x := x, y := y }, x, y) rfl
      ⟨hs1, hd1, hf1, fun A => by
          rw [spanOf_nil, add_zero]
          cases A
          · exact (wrap_of_inInt hy).symm
          · exact (wrap_of_inInt hx).symm,
        fun p1 c p2 e => by simp at e⟩
    exact ⟨st.1, by rw [hst]; rfl, hQ⟩

/-! ## Window ids -/

theorem IdGrow.ofSame {s s' : Editor} (hi : idsOf s' = idsOf s) (hx : s'.winIndex = s.winIndex)
    (hk : ∀ e ∈ s'.wins, e ∈ s.wins) : IdGrow s s' :=
  ⟨⟨[], by rw [hi, List.append_nil], List.Pairwise.nil, fun _ h => by cases h⟩,
    by rw [hx], fun e he => Or.inl (hk e he)⟩

theorem IdGrow.idle (s : Editor) : IdGrow s s :=
  IdGrow.ofSame rfl rfl (fun _ h => h)

theorem IdGrow.andThen {s s1 s2 : Editor} (a : IdGrow s s1) (b : IdGrow s1 s2) : IdGrow s s2 := by
  obtain ⟨n1, e1, p1, b1⟩ := a.ids
  obtain ⟨n2, e2, p2, b2⟩ := b.ids
  have hi := a.index
  have hj := b.index
  refine ⟨⟨n1 ++ n2, by rw [e2, e1, List.append_assoc], ?_, fun i hi' => ?_⟩, by omega,
    fun e he => ?_⟩
  · rw [List.pairwise_append]
    refine ⟨p1, p2, fun x hx y hy => ?_⟩
    have := b1 x hx
    have := b2 y hy
    omega
  · rcases List.mem_append.1 hi' with h | h
    · have := b1 i h
      omega
    · have := b2 i h
      omega
  · rcases b.keys e he with h | h
    · rcases a.keys e h with h' | h'
      · exact Or.inl h'
      · exact Or.inr (by omega)
    · exact Or.inr (by omega)

theorem IdInv.grow {s s' : Editor} (a : IdInv s) (g : IdGrow s s') : IdInv s' := by
  obtain ⟨n, e, p, b⟩ := g.ids
  have hi := g.index
  refine ⟨?_, fun i hi' => ?_, fun e he => ?_⟩
  · rw [e, List.pairwise_append]
    refine ⟨a.increasing, p, fun x hx y hy => ?_⟩
    have := a.below x hx
    have := b y hy
    omega
  · rw [e] at hi'
    rcases List.mem_append.1 hi' with h | h
    · have := a.below i h
      omega
    · exact (b i h).2
  · rcases g.keys e he with h | h
    · have := a.keys e h
      omega
    · exact h.2

theorem map_id_set {ws : List Window} {w : Nat} {win win' : Window} (hw : ws[w]? = some win)
    (hid : win'.id = win.id) :
    (ws.set w win').map (fun x => x.id) = ws.map (fun x => x.id) := by
  apply List.ext_getElem?
  intro n
  rw [List.getElem?_map, List.getElem?_map, List.getElem?_set]
  by_cases hwn : w = n
  · subst hwn
    rw [if_pos rfl, if_pos (List.getElem?_eq_some.1 hw).1, hw]
    exact congrArg some hid
  · rw [if_neg hwn]

/-- The layout pass changes the frames only. -/
theorem equalWins_frames {s s' : Editor} (e : equalWins s = some s') :
    ∃ h', s' = { s with frames := h' } := by
  unfold equalWins at e
  obtain ⟨nw, _, e⟩ := Option.bind_eq_some.1 e
  split at e
  · cases e
  · obtain ⟨h1, _, e⟩ := Option.bind_eq_some.1 e
    obtain ⟨nh, _, e⟩ := Option.bind_eq_some.1 e
    split at e
    · cases e
    · obtain ⟨h2, _, e⟩ := Option.bind_eq_some.1 e
      obtain ⟨h3, _, e⟩ := Option.map_eq_some'.1 e
      exact ⟨h3, e.symm⟩

/-- `setFocus` changes the focus only. -/
theorem setFocus_only {s s' : Editor} {c : Nat} (e : setFocus s c = some s') :
    ∃ x, s' = { s with focus := some x } := by
  obtain ⟨_, x, _, _, _, _, hs⟩ := setFocusAux_leaf _ _ _ _ e
  exact ⟨x, hs⟩

/-- `NewWindow` gives the new window the value of the id counter and moves the
counter on by one. -/
theorem NewWindow_ids {s s' : Editor} {frame w : Nat} (e : NewWindow s frame = some (s', w)) :
    idsOf s' = idsOf s ++ [s.winIndex] ∧ s'.winIndex = s.winIndex + 1 ∧
      s'.wins = regInsert s.wins s.winIndex w ∧
      (s'.windows[w]?).map (fun x => x.id) = some s.winIndex := by
  unfold NewWindow at e
  obtain ⟨fr, _, e⟩ := Option.map_eq_some'.1 e
  cases e
  refine ⟨by simp [idsOf], rfl, rfl, by simp⟩

theorem NewWindow_grow {s s' : Editor} {frame w : Nat} (e : NewWindow s frame = some (s', w)) :
    IdGrow s s' := by
  obtain ⟨hi, hx, hk, _⟩ := NewWindow_ids e
  refine ⟨⟨[s.winIndex], hi, List.pairwise_singleton _ _, fun i h => ?_⟩, by omega,
    fun e he => ?_⟩
  · rw [List.mem_singleton] at h
    omega
  · rw [hk] at he
    unfold regInsert at he
    rcases List.mem_cons.1 he with h | h
    · exact Or.inr (by rw [h]; exact ⟨le_refl _, by omega⟩)
    · exact Or.inl (List.mem_filter.1 h).1

theorem loadBuffer_grow {s s' : Editor} {w : Nat} {b : Option Nat}
    (e : loadBuffer s w b = some s') : IdGrow s s' := by
  unfold loadBuffer at e
  obtain ⟨win, hw, e⟩ := Option.bind_eq_some.1 e
  obtain ⟨_, _, e⟩ := Option.map_eq_some'.1 e
  subst e
  exact IdGrow.ofSame (map_id_set hw rfl) rfl (fun _ h => h)

theorem splitFlat_grow {s s' : Editor} {f p n : Nat} (e : splitFlat s f p n = some s') :
    IdGrow s s' := by
  unfold splitFlat at e
  obtain ⟨nf, _, e⟩ := Option.bind_eq_some.1 e
  obtain ⟨_, _, e⟩ := Option.map_eq_some'.1 e
  subst e
  exact IdGrow.ofSame rfl rfl (fun _ h => h)

theorem splitNest_grow {s s' : Editor} {f win n : Nat} {v : Bool}
    (e : splitNest s f win n v = some s') : IdGrow s s' := by
  unfold splitNest at e
  obtain ⟨nf, _, e⟩ := Option.bind_eq_some.1 e
  obtain ⟨w, hw, e⟩ := Option.bind_eq_some.1 e
  obtain ⟨_, _, e⟩ := Option.map_eq_some'.1 e
  subst e
  exact IdGrow.ofSame (map_id_set hw rfl) rfl (fun _ h => h)

/-- Whenever `split` returns, window ids have only grown. -/
theorem split_grow {s s' : Editor} {f : Nat} {v : Bool} (e : split s f v = some s') :
    IdGrow s s' := by
  unfold split at e
  obtain ⟨fr, _, e⟩ := Option.bind_eq_some.1 e
  split at e
  · cases e; exact IdGrow.idle s
  · split at e
    · cases e; exact IdGrow.idle s
    · obtain ⟨w, _, e⟩ := Option.bind_eq_some.1 e
      obtain ⟨nw, hnw, e⟩ := Option.bind_eq_some.1 e
      obtain ⟨s2, hs2, e⟩ := Option.bind_eq_some.1 e
      obtain ⟨s3, hs3, e⟩ := Option.bind_eq_some.1 e
      obtain ⟨s4, hs4, e⟩ := Option.map_eq_some'.1 e
      obtain ⟨h', rfl⟩ := equalWins_frames hs4
      subst e
      have g0 : IdGrow s { s with frames := s.frames ++ [Frame.zero] } :=
        IdGrow.ofSame rfl rfl (fun _ h => h)
      have g1 : IdGrow { s with frames := s.frames ++ [Frame.zero] } nw.1 :=
        NewWindow_grow (w := nw.2) hnw
      have g2 := loadBuffer_grow hs2
      have g3 : IdGrow s2 s3 := by
        split at hs3
        · exact splitNest_grow hs3
        · obtain ⟨pfr, _, hs3⟩ := Option.bind_eq_some.1 hs3
          split at hs3
          · exact splitFlat_grow hs3
          · exact splitNest_grow hs3
      exact ((g0.andThen g1).andThen g2).andThen (g3.andThen (IdGrow.ofSame rfl rfl (fun _ h => h)))

/-- Whenever `exchange` returns, windows, registry and id counter are as before. -/
theorem exchangeAux_grow : ∀ (fuel : Nat) (s : Editor) (f : Nat) (s' : Editor),
    exchangeAux fuel s f = some s' → IdGrow s s'
  | 0, _, _, _, e => by cases e
  | fuel + 1, s, f, s', e => by
    unfold exchangeAux at e
    split at e
    · cases e
    · split at e
      · cases e; exact IdGrow.idle s
      · obtain ⟨pfr, _, e⟩ := Option.bind_eq_some.1 e
        split at e
        · exact exchangeAux_grow fuel s _ s' e
        · unfold exchangeSwap at e
          obtain ⟨ci, _, e⟩ := Option.bind_eq_some.1 e
          obtain ⟨cj, _, e⟩ := Option.bind_eq_some.1 e
          obtain ⟨s1, hs1, e⟩ := Option.bind_eq_some.1 e
          obtain ⟨c, _, e⟩ := Option.bind_eq_some.1 e
          obtain ⟨h', rfl⟩ := equalWins_frames hs1
          obtain ⟨x, rfl⟩ := setFocus_only e
          exact IdGrow.ofSame rfl rfl (fun _ h => h)

/-- Whenever `close` returns, the ids and the id counter are as before and the
registry has lost entries at most. -/
theorem closeAux_grow : ∀ (fuel : Nat) (s : Editor) (f : Nat) (r : Editor × Option Nat),
    closeAux fuel s f = some r →
      idsOf r.1 = idsOf s ∧ r.1.winIndex = s.winIndex ∧ ∀ e ∈ r.1.wins, e ∈ s.wins
  | 0, _, _, _, e => by cases e
  | fuel + 1, s, f, r, e => by
    unfold closeAux at e
    split at e
    · cases e
    · split at e
      · cases e; exact ⟨rfl, rfl, fun _ h => h⟩
      · split at e
        · cases e; exact ⟨rfl, rfl, fun _ h => h⟩
        · obtain ⟨pfr, _, e⟩ := Option.bind_eq_some.1 e
          obtain ⟨res, hres, e⟩ := Option.bind_eq_some.1 e
          have h1 : idsOf res.1 = idsOf s ∧ res.1.winIndex = s.winIndex ∧
              ∀ e ∈ res.1.wins, e ∈ s.wins := by
            split at hres
            · have hrec := closeAux_grow fuel _ _ res hres
              exact hrec
            · obtain ⟨c, _, hc⟩ := Option.map_eq_some'.1 hres
              rw [← hc]
              exact ⟨rfl, rfl, fun _ h => h⟩
          obtain ⟨fr2, _, e⟩ := Option.bind_eq_some.1 e
          split at e
          · cases e; exact h1
          · obtain ⟨w, hw, e⟩ := Option.bind_eq_some.1 e
            obtain ⟨s3, hs3, e⟩ := Option.bind_eq_some.1 e
            obtain ⟨h', rfl⟩ := equalWins_frames hs3
            have h3 : ∀ e ∈ regDelete res.1.wins w.id, e ∈ s.wins :=
              fun e he => h1.2.2 e (List.mem_filter.1 he).1
            split at e
            · cases e
              refine ⟨?_, h1.2.1, h3⟩
              rw [← h1.1]
              exact map_id_set hw rfl
            · obtain ⟨s4, hs4, e⟩ := Option.map_eq_some'.1 e
              obtain ⟨x, rfl⟩ := setFocus_only hs4
              rw [← e]
              refine ⟨?_, h1.2.1, h3⟩
              rw [← h1.1]
              exact map_id_set hw rfl

/-! ## Claim C1: size conservation -/

theorem sampleHeap_ranked : Ranked sampleHeap (fun a => 6 - a) :=
  ⟨by decide, by decide⟩

/-- C1, as the claim states it, fails: Go `int` has 64 bits.  On the root of
`unevenHeap`, which counts 3 splits on the stacked axis, `setSize` with the unit
2^62, a value of `int`, leaves the height -4611686018427387904, which is not the
product 3 * 2^62 = 13835058055282163712. -/
theorem setSize_size_counterexample :
    InInt 4611686018427387904 ∧ countSplits unevenHeap 0 false = some 3 ∧
      (setSize unevenHeap 0 false 4611686018427387904).map (fun h' => dimOf h' 0 false) =
        some (-4611686018427387904) ∧
      (3 : Int) * 4611686018427387904 = 13835058055282163712 ∧
      (-4611686018427387904 : Int) ≠ 3 * 4611686018427387904 :=
  ⟨⟨by decide, by decide⟩, rfl, rfl, rfl, by decide⟩

/-- C1, amended: on every frame tree, for every frame `f`, axis `A` and unit `u`
of type `int`, `setSize(f, A, u)` returns and leaves `f` with the size along `A`
(width on the side-by-side axis, height on the other) that Go computes for
`countSplits(f, A) * u`: the product reduced to the 64-bit range of `int`, which
is the product itself whenever the product is in that range; the count is the
same before and after the pass. -/
theorem setSize_size_eq_countSplits (h : Heap) (r : Nat → Nat) (f : Nat) (A : Bool) (u : Int)
    (hr : Ranked h r) (hf : f < h.length) (hu : InInt u) :
    ∃ (n : Int) (h' : Heap) (fr' : Frame), countSplits h f A = some n ∧
      setSize h f A u = some h' ∧ countSplits h' f A = some n ∧
      h'[f]? = some fr' ∧ fr'.dim A = wrap (n * u) ∧
      (InInt (n * u) → fr'.dim A = n * u) := by
  obtain ⟨h', e, st, _, n, fr', hn, hfr', hd⟩ :=
    setSizeAux_spec A (h.length + 1) h f u hr hf (Nat.lt_succ_of_le (hr.bound f hf))
  exact ⟨n, h', fr', hn, e, by rw [countSplits_sameTree st]; exact hn, hfr', hd hu,
    fun hfit => by rw [hd hu, wrap_of_inInt hfit]⟩

theorem setSize_size_eq_countSplits_witness :
    ∃ (n : Int) (h' : Heap) (fr' : Frame), countSplits sampleHeap 0 false = some n ∧
      setSize sampleHeap 0 false 100 = some h' ∧ countSplits h' 0 false = some n ∧
      h'[0]? = some fr' ∧ fr'.dim false = wrap (n * 100) ∧
      (InInt (n * 100) → fr'.dim false = n * 100) :=
  setSize_size_eq_countSplits sampleHeap (fun a => 6 - a) 0 false 100 sampleHeap_ranked
    (by decide) ⟨by decide, by decide⟩

/-! ## Claims C2 to C4: `split` -/

/-- C2: splitting a leaf `f` of the tree that holds a window, with the
orientation its parent `p` already has, returns; `f` stays a leaf and a child of
`p`, and the children of `p` become the old sequence with exactly one new leaf,
the newly allocated frame, put right behind `f`: one entry more, all others in
their order.  The new leaf has parent `p`, no children and its own new window. -/
theorem split_same_orientation_inserts_sibling (s : Editor) (f x p : Nat) (v : Bool)
    (w : WF s) (ht : InTree s f) (hleaf : childrenOf s.frames f = [])
    (hwin : winOf s.frames f = some x) (hpar : parentOf s.frames f = some p)
    (hv : verticalOf s.frames p = v) :
    ∃ s' pre post, split s f v = some s' ∧
      childrenOf s.frames p = pre ++ f :: post ∧ f ∉ pre ∧ f ∉ post ∧
      s.frames.length ∉ childrenOf s.frames p ∧
      childrenOf s'.frames p = pre ++ f :: s.frames.length :: post ∧
      (childrenOf s'.frames p).length = (childrenOf s.frames p).length + 1 ∧
      childrenOf s'.frames f = [] ∧ parentOf s'.frames f = some p ∧
      childrenOf s'.frames s.frames.length = [] ∧
      parentOf s'.frames s.frames.length = some p ∧
      winOf s'.frames s.frames.length = some s.windows.length := by
  obtain ⟨hmem, hp, _⟩ := InTree.parent w ht hpar
  have hf := InTree.lt w ht
  obtain ⟨s', e, fs, _, _⟩ := split_flat w hf hleaf hwin hpar hp hv
  obtain ⟨pre, post, hcs, hpre, hpost⟩ := mem_split_nodup hmem (w.nodup p hp)
  have hfp : f ≠ p := Nat.ne_of_gt (w.edge p hp f hmem).1
  have hnew : childrenOf s'.frames p = pre ++ f :: s.frames.length :: post := by
    rw [fs.children, if_pos rfl, hcs, insAfter_append post hpre hpost]
  refine ⟨s', pre, post, e, hcs, hpre, hpost,
    fun h => Nat.lt_irrefl _ (w.edge p hp _ h).2.1, hnew, ?_, ?_, ?_, ?_, ?_, ?_⟩
  · rw [hnew, hcs]; simp only [List.length_append, List.length_cons]; omega
  · rw [fs.children, if_neg hfp]; exact hleaf
  · rw [fs.parent, if_neg (Nat.ne_of_lt hf)]; exact hpar
  · rw [fs.children, if_neg (Nat.ne_of_gt hp)]; exact childrenOf_none (le_refl _)
  · rw [fs.parent, if_pos rfl]
  · rw [fs.win, if_pos rfl]

theorem split_same_orientation_inserts_sibling_witness :
    ∃ s' pre post, split twoPanes 1 true = some s' ∧
      childrenOf twoPanes.frames 0 = pre ++ 1 :: post ∧ 1 ∉ pre ∧ 1 ∉ post ∧
      twoPanes.frames.length ∉ childrenOf twoPanes.frames 0 ∧
      childrenOf s'.frames 0 = pre ++ 1 :: twoPanes.frames.length :: post ∧
      (childrenOf s'.frames 0).length = (childrenOf twoPanes.frames 0).length + 1 ∧
      childrenOf s'.frames 1 = [] ∧ parentOf s'.frames 1 = some 0 ∧
      childrenOf s'.frames twoPanes.frames.length = [] ∧
      parentOf s'.frames twoPanes.frames.length = some 0 ∧
      winOf s'.frames twoPanes.frames.length = some twoPanes.windows.length :=
  split_same_orientation_inserts_sibling twoPanes 1 1 0 true twoPanes_wf twoPanes_inTree_one
    (by decide) (by decide) (by decide) (by decide)

theorem frameOf_set_self {ws : List Window} {x : Nat} (win : Window) (hx : x < ws.length) :
    frameOf (ws.set x win) x = some win.frame := by
  unfold frameOf
  rw [List.getElem?_set_self hx]; rfl

/-- C3: splitting a leaf `f` of the tree that holds the window `x` and has no
parent, or a parent of the other orientation, returns and turns `f` itself into
an internal node in its slot: `f` keeps its parent and its place among the
parent's children, has no window any more, has the requested orientation, and
its children are exactly `[c, n]`, two newly allocated leaves with parent `f`: `c`
holds `x`, whose frame pointer now is `c`, and `n` is the new leaf with the new
window. -/
theorem split_other_orientation_nests (s : Editor) (f x : Nat) (v : Bool)
    (w : WF s) (ht : InTree s f) (hleaf : childrenOf s.frames f = [])
    (hwin : winOf s.frames f = some x)
    (hpar : parentOf s.frames f = none ∨
      ∃ p, parentOf s.frames f = some p ∧ verticalOf s.frames p ≠ v) :
    ∃ s', split s f v = some s' ∧
      winOf s'.frames f = none ∧ verticalOf s'.frames f = v ∧
      childrenOf s'.frames f = [s.frames.length + 1, s.frames.length] ∧
      parentOf s'.frames f = parentOf s.frames f ∧
      (∀ a, a ≠ f → childrenOf s'.frames a = childrenOf s.frames a) ∧
      childrenOf s'.frames (s.frames.length + 1) = [] ∧
      winOf s'.frames (s.frames.length + 1) = some x ∧
      frameOf s'.windows x = some (s.frames.length + 1) ∧
      parentOf s'.frames (s.frames.length + 1) = some f ∧
      childrenOf s'.frames s.frames.length = [] ∧
      winOf s'.frames s.frames.length = some s.windows.length ∧
      parentOf s'.frames s.frames.length = some f := by
  have hf := InTree.lt w ht
  have hpar' : parentOf s.frames f = none ∨
      ∃ p, parentOf s.frames f = some p ∧ p < s.frames.length ∧ verticalOf s.frames p ≠ v := by
    rcases hpar with h | ⟨p, h, hv⟩
    · exact Or.inl h
    · exact Or.inr ⟨p, h, (InTree.parent w ht h).2.1, hv⟩
  obtain ⟨s', e, ns, _, _⟩ := split_nest w hf hleaf hwin hpar'
  obtain ⟨b, win, hwx, hws⟩ := ns.windows
  have hxl : x < s.windows.length := (List.getElem?_eq_some.1 hwx).1
  refine ⟨s', e, ?_, ?_, ?_, ?_, ?_, ?_, ?_, ?_, ?_, ?_, ?_, ?_⟩
  · rw [ns.win, if_pos rfl]
  · rw [ns.vertical, if_pos rfl]
  · rw [ns.children, if_pos rfl]
  · rw [ns.parent, if_neg (by omega)]
  · intro a ha
    rw [ns.children, if_neg ha]
  · rw [ns.children, if_neg (by omega)]; exact childrenOf_none (Nat.le_succ _)
  · rw [ns.win, if_neg (by omega), if_neg (by omega), if_pos rfl]
  · rw [hws, frameOf_set_self _ (by rw [List.length_append]; omega)]
  · rw [ns.parent, if_pos (Or.inr rfl)]
  · rw [ns.children, if_neg (by omega)]; exact childrenOf_none (le_refl _)
  · rw [ns.win, if_neg (by omega), if_pos rfl]
  · rw [ns.parent, if_pos (Or.inl rfl)]

theorem split_other_orientation_nests_witness :
    ∃ s', split twoPanes 1 false = some s' ∧
      winOf s'.frames 1 = none ∧ verticalOf s'.frames 1 = false ∧
      childrenOf s'.frames 1 = [twoPanes.frames.length + 1, twoPanes.frames.length] ∧
      parentOf s'.frames 1 = parentOf twoPanes.frames 1 ∧
      (∀ a, a ≠ 1 → childrenOf s'.frames a = childrenOf twoPanes.frames a) ∧
      childrenOf s'.frames (twoPanes.frames.length + 1) = [] ∧
      winOf s'.frames (twoPanes.frames.length + 1) = some 1 ∧
      frameOf s'.windows 1 = some (twoPanes.frames.length + 1) ∧
      parentOf s'.frames (twoPanes.frames.length + 1) = some 1 ∧
      childrenOf s'.frames twoPanes.frames.length = [] ∧
      winOf s'.frames twoPanes.frames.length = some twoPanes.windows.length ∧
      parentOf s'.frames twoPanes.frames.length = some 1 :=
  split_other_orientation_nests twoPanes 1 1 false twoPanes_wf twoPanes_inTree_one
    (by decide) (by decide) (Or.inr ⟨0, by decide, by decide⟩)

/-- C4, as the claim states it, fails: splitting the root leaf of the start-up
state makes the new leaf `1` with the new window `1`, and the focus is on
window `0`, the window the split leaf had. -/
theorem split_focus_counterexample :
    (split (initEditor 7 800 600) 0 true).map
        (fun s' => (winOf s'.frames 1, childrenOf s'.frames 1, s'.windows.length, s'.focus)) =
      some (some 1, [], 2, some 0) := by
  decide

/-- C4, amended: after `split` of a leaf of the tree that holds the window `x`,
the focus is on `x`, the window the split leaf had; `x` is not the window of the
new leaf, and it is still the window of a leaf (of `f`, or of the leaf that took
it over). -/
theorem split_focus_on_original (s : Editor) (f x : Nat) (v : Bool)
    (w : WF s) (ht : InTree s f) (hleaf : childrenOf s.frames f = [])
    (hwin : winOf s.frames f = some x) :
    ∃ s', split s f v = some s' ∧ s'.focus = some x ∧
      winOf s'.frames s.frames.length = some s.windows.length ∧ x ≠ s.windows.length ∧
      (winOf s'.frames f = some x ∨ winOf s'.frames (s.frames.length + 1) = some x) := by
  have hf := InTree.lt w ht
  obtain ⟨win, _, hwx, _⟩ := w.window hwin
  have hxl : x < s.windows.length := (List.getElem?_eq_some.1 hwx).1
  by_cases hflat : ∃ p, parentOf s.frames f = some p ∧ verticalOf s.frames p = v
  · obtain ⟨p, hpar, hv⟩ := hflat
    obtain ⟨s', e, fs, _, hfoc⟩ := split_flat w hf hleaf hwin hpar (InTree.parent w ht hpar).2.1 hv
    refine ⟨s', e, hfoc, by rw [fs.win, if_pos rfl], Nat.ne_of_lt hxl, Or.inl ?_⟩
    rw [fs.win, if_neg (Nat.ne_of_lt hf)]; exact hwin
  · have hpar' : parentOf s.frames f = none ∨
        ∃ p, parentOf s.frames f = some p ∧ p < s.frames.length ∧ verticalOf s.frames p ≠ v := by
      cases hp : parentOf s.frames f with
      | none => exact Or.inl rfl
      | some p =>
        exact Or.inr ⟨p, rfl, (InTree.parent w ht hp).2.1, fun hv => hflat ⟨p, hp, hv⟩⟩
    obtain ⟨s', e, ns, _, hfoc⟩ := split_nest w hf hleaf hwin hpar'
    refine ⟨s', e, hfoc, by rw [ns.win, if_neg (by omega), if_pos rfl], Nat.ne_of_lt hxl,
      Or.inr ?_⟩
    rw [ns.win, if_neg (by omega), if_neg (by omega), if_pos rfl]

theorem split_focus_on_original_witness :
    ∃ s', split twoPanes 1 false = some s' ∧ s'.focus = some 1 ∧
      winOf s'.frames twoPanes.frames.length = some twoPanes.windows.length ∧
      1 ≠ twoPanes.windows.length ∧
      (winOf s'.frames 1 = some 1 ∨ winOf s'.frames (twoPanes.frames.length + 1) = some 1) :=
  split_focus_on_original twoPanes 1 1 false twoPanes_wf twoPanes_inTree_one
    (by decide) (by decide)

/-! ## Claims C5 and C7: `close` -/

theorem threePanes_wf : WF threePanes :=
  ⟨by decide, by decide, by decide, by decide, by decide, by decide⟩

theorem threePanes_inTree_one : InTree threePanes 1 :=
  Desc.step (a := 0) (c := 1) (by decide) (Desc.refl 1)

theorem nestedPanes_wf : WF nestedPanes :=
  ⟨by decide, by decide, by decide, by decide, by decide, by decide⟩

theorem nestedPanes_inTree_four : InTree nestedPanes 4 :=
  Desc.step (a := 0) (c := 1) (by decide) (Desc.step (a := 1) (c := 4) (by decide) (Desc.refl 4))

/-- The index of an entry of a list without repetition. -/
theorem index_of_split {f i : Nat} {pre post : List Nat} (hpre : f ∉ pre)
    (hpost : f ∉ post) (hi : (pre ++ f :: post)[i]? = some f) : i = pre.length := by
  rcases Nat.lt_trichotomy i pre.length with h | h | h
  · rw [List.getElem?_append_left h] at hi
    exact absurd (List.getElem?_mem hi) hpre
  · exact h
  · rw [List.getElem?_append_right (by omega)] at hi
    have : i - pre.length = (i - pre.length - 1) + 1 := by omega
    rw [this, List.getElem?_cons_succ] at hi
    exact absurd (List.getElem?_mem hi) hpost

/-- A leaf of the tree that is not the root holds a window. -/
theorem leaf_window {s : Editor} (w : WF s) {f p : Nat}
    (hmem : f ∈ childrenOf s.frames p) (hleaf : childrenOf s.frames f = []) :
    ∃ x, winOf s.frames f = some x :=
  Option.ne_none_iff_exists'.1
    ((w.edge p (childrenOf_lt hmem) f hmem).2.2.2 (by simp) hleaf)

/-- C5, as the claim states it, fails: closing the middle one of the three
siblings `[2, 1, 3]` returns the first, `2`, not the last, `3`, which is the
sibling at the index of the closed leaf after the removal. -/
theorem close_focus_counterexample :
    childrenOf threePanes.frames 0 = [2, 1, 3] ∧
      (close threePanes 1).map (fun r => (r.2, childrenOf r.1.frames 0)) =
        some (some 2, [2, 3]) := by
  decide

/-- C5, amended: closing a leaf `f` of the tree at index `i` of a parent with at
least two children returns, takes `f` out of the children of the parent, and the
focus candidate is the sibling at index `i - 1`, the one before `f`, when
`i > 0`, and the sibling after `f`, now at index 0, when `i = 0`. -/
theorem close_focus_candidate (s : Editor) (f p i : Nat) (w : WF s) (ht : InTree s f)
    (hleaf : childrenOf s.frames f = []) (hi : (childrenOf s.frames p)[i]? = some f)
    (h2 : 2 ≤ (childrenOf s.frames p).length) :
    ∃ s' c, close s f = some (s', some c) ∧
      childrenOf s'.frames p = (childrenOf s.frames p).eraseIdx i ∧
      (childrenOf s.frames p)[if i > 0 then i - 1 else 1]? = some c ∧
      (childrenOf s'.frames p)[if i > 0 then i - 1 else 0]? = some c := by
  have hmem : f ∈ childrenOf s.frames p := List.getElem?_mem hi
  have hpar : parentOf s.frames f = some p := (w.edge p (childrenOf_lt hmem) f hmem).2.2.1
  obtain ⟨x, hwin⟩ := leaf_window w hmem hleaf
  obtain ⟨s', nf, pre, post, e, hcs, hpre, hpost, _, _, _, hnf⟩ :=
    close_spec w ht hleaf hwin hpar
  rw [hcs] at hi h2
  have hip := index_of_split hpre hpost hi
  subst hip
  have hne : pre ++ post ≠ [] := by
    intro h
    rw [List.length_append, List.length_cons] at h2
    have := congrArg List.length h
    rw [List.length_append, List.length_nil] at this
    omega
  obtain ⟨hnf1, hch⟩ := hnf hne
  have hlen : (if pre.length > 0 then pre.length - 1 else pre.length) < (pre ++ post).length := by
    have : 0 < (pre ++ post).length := List.length_pos.2 hne
    rw [List.length_append] at this ⊢
    split <;> omega
  obtain ⟨c, hc⟩ : ∃ c,
      (pre ++ post)[if pre.length > 0 then pre.length - 1 else pre.length]? = some c :=
    ⟨_, List.getElem?_eq_getElem hlen⟩
  rw [hc] at hnf1
  subst hnf1
  have herase : (pre ++ f :: post).eraseIdx pre.length = pre ++ post := by
    rw [List.eraseIdx_append_of_length_le (le_refl _)]
    simp
  refine ⟨s', c, e, by rw [hch, hcs, herase], ?_, ?_⟩
  · rw [hcs]
    by_cases hp : pre.length > 0
    · rw [if_pos hp] at hc ⊢
      rw [List.getElem?_append_left (by omega)] at hc ⊢
      exact hc
    · rw [if_neg hp] at hc ⊢
      have hz : pre = [] := List.length_eq_zero.1 (by omega)
      subst hz
      simpa using hc
  · rw [hch]
    by_cases hp : pre.length > 0
    · rw [if_pos hp] at hc ⊢; exact hc
    · rw [if_neg hp] at hc ⊢
      have hz : pre.length = 0 := by omega
      rw [hz] at hc; exact hc

theorem close_focus_candidate_witness :
    ∃ s' c, close threePanes 1 = some (s', some c) ∧
      childrenOf s'.frames 0 = (childrenOf threePanes.frames 0).eraseIdx 1 ∧
      (childrenOf threePanes.frames 0)[if 1 > 0 then 1 - 1 else 1]? = some c ∧
      (childrenOf s'.frames 0)[if 1 > 0 then 1 - 1 else 0]? = some c :=
  close_focus_candidate threePanes 1 0 1 threePanes_wf threePanes_inTree_one (by decide)
    (by decide) (by decide)

/-- A frame taken out by `close` is no child of its parent any more. -/
theorem Collapsed.removed {h h' : Heap} {a t : Nat} (c : Collapsed h h' a t) {g : Nat}
    (hg : parentOf h a = some g) : a ∉ childrenOf h' g := by
  cases c with
  | stop hpar _ hfil =>
    rw [hpar] at hg
    rw [← Option.some.inj hg, hfil]
    simp
  | up hpar _ hnil _ =>
    rw [hpar] at hg
    rw [← Option.some.inj hg, hnil]
    simp

theorem Collapsed.inTree {s : Editor} {hole : Option Nat} (w : WFx s hole) {h' : Heap}
    {a t : Nat} (c : Collapsed s.frames h' a t) (ht : InTree s a) : InTree s t := by
  induction c with
  | stop hpar _ _ => exact (InTree.parent w ht hpar).2.2
  | up hpar _ _ _ ih => exact ih (InTree.parent w ht hpar).2.2

/-- In a well-formed state every frame of the tree but the root has children
or a window. -/
theorem WFx.no_empty_node {s : Editor} (w : WFx s none) {a : Nat} (ht : InTree s a)
    (hr : a ≠ s.topFrame) : childrenOf s.frames a ≠ [] ∨ winOf s.frames a ≠ none := by
  rcases Desc.last ht with h | ⟨q, _, hq⟩
  · exact absurd h.symm hr
  · by_cases hc : childrenOf s.frames a = []
    · exact Or.inr ((w.edge q (childrenOf_lt hq) a hq).2.2.2 (by simp) hc)
    · exact Or.inl hc

/-- C7: closing a leaf `f` of the tree that is the only child of its parent
`p` returns and takes out the whole chain of emptied ancestors: `p` has no
children afterwards and is no child of its own parent, and so on upward
(`Collapsed`) up to a frame `t` that either keeps children, one of which is the
focus candidate, or is the root, left without children, and then there is no
candidate.  Afterwards no frame of the tree but the root is without children and
without window. -/
theorem close_removes_empty_ancestors (s : Editor) (f p : Nat) (w : WF s) (ht : InTree s f)
    (hleaf : childrenOf s.frames f = []) (hone : childrenOf s.frames p = [f]) :
    ∃ s' nf t, close s f = some (s', nf) ∧
      Collapsed s.frames s'.frames f t ∧ childrenOf s'.frames p = [] ∧
      (∀ g, parentOf s.frames p = some g → p ∉ childrenOf s'.frames g) ∧
      ((childrenOf s'.frames t ≠ [] ∧ ∃ c, nf = some c ∧ c ∈ childrenOf s'.frames t) ∨
        (childrenOf s'.frames t = [] ∧ t = s.topFrame ∧ nf = none)) ∧
      (∀ a, InTree s' a → a ≠ s'.topFrame →
        childrenOf s'.frames a ≠ [] ∨ winOf s'.frames a ≠ none) := by
  have hmem : f ∈ childrenOf s.frames p := by rw [hone]; simp
  have hpar : parentOf s.frames f = some p := (w.edge p (childrenOf_lt hmem) f hmem).2.2.1
  obtain ⟨x, hwin⟩ := leaf_window w hmem hleaf
  obtain ⟨s', nf, pre, post, e, _, _, _, ct, _, w', _⟩ := close_spec w ht hleaf hwin hpar
  obtain ⟨t, hcol, hcond⟩ := ct.chain p hpar
  have htt : InTree s t := hcol.inTree w ht
  have hp' : childrenOf s'.frames p = [] := by
    have := ct.sub p
    rw [hone] at this
    rcases List.sublist_cons_iff.1 this with h | ⟨r, hr, _⟩
    · exact List.sublist_nil.1 h
    · exact absurd (hr ▸ List.mem_cons_self f r) (hcol.removed hpar)
  have hup : ∀ g, parentOf s.frames p = some g → p ∉ childrenOf s'.frames g := by
    intro g hg
    cases hcol with
    | stop hpar' _ _ =>
      rw [hpar] at hpar'
      have htp : p = t := Option.some.inj hpar'
      subst htp
      rcases hcond with ⟨hne, _⟩ | ⟨_, hroot, _⟩
      · exact absurd hp' hne
      · rw [hroot] at hg; cases hg
    | up hpar' _ _ hrest =>
      rw [hpar] at hpar'
      have htp := Option.some.inj hpar'
      subst htp
      exact hrest.removed hg
  refine ⟨s', nf, t, e, hcol, hp', hup, ?_, fun a ha hr => w'.no_empty_node ha hr⟩
  rcases hcond with h | ⟨h1, h2, h3⟩
  · exact Or.inl h
  · exact Or.inr ⟨h1, InTree.root w htt h2, h3⟩

theorem close_removes_empty_ancestors_witness :
    ∃ s' nf t, close nestedPanes 4 = some (s', nf) ∧
      Collapsed nestedPanes.frames s'.frames 4 t ∧ childrenOf s'.frames 1 = [] ∧
      (∀ g, parentOf nestedPanes.frames 1 = some g → 1 ∉ childrenOf s'.frames g) ∧
      ((childrenOf s'.frames t ≠ [] ∧ ∃ c, nf = some c ∧ c ∈ childrenOf s'.frames t) ∨
        (childrenOf s'.frames t = [] ∧ t = nestedPanes.topFrame ∧ nf = none)) ∧
      (∀ a, InTree s' a → a ≠ s'.topFrame →
        childrenOf s'.frames a ≠ [] ∨ winOf s'.frames a ≠ none) :=
  close_removes_empty_ancestors nestedPanes 4 1 nestedPanes_wf nestedPanes_inTree_four
    (by decide) (by decide)

/-! ## Claim C8: rejected operations -/

/-- `split` returns at once on a frame that has children or no window. -/
theorem split_rejected {s : Editor} {f : Nat} (v : Bool) (hf : f < s.frames.length)
    (h : childrenOf s.frames f ≠ [] ∨ winOf s.frames f = none) : split s f v = some s := by
  obtain ⟨fr, hfr⟩ := getElem?_of_lt hf
  rw [childrenOf_eq hfr, winOf_eq hfr] at h
  unfold split
  rw [hfr, Option.some_bind]
  by_cases hc : hasChildren fr = true
  · rw [if_pos hc]
  · rw [if_neg hc]
    rcases h with h | h
    · exact absurd (hasChildren_eq_true.2 h) hc
    · rw [h]

/-- `close` returns at once on a frame that has children or no parent. -/
theorem close_rejected {s : Editor} {f : Nat} (hf : f < s.frames.length)
    (h : childrenOf s.frames f ≠ [] ∨ parentOf s.frames f = none) :
    close s f = some (s, none) := by
  obtain ⟨fr, hfr⟩ := getElem?_of_lt hf
  rw [childrenOf_eq hfr, parentOf_eq hfr] at h
  unfold close closeAux
  rw [hfr]
  by_cases hc : hasChildren fr = true
  · simp only [hc, if_true]
  · rcases h with h | h
    · exact absurd (hasChildren_eq_true.2 h) hc
    · simp only [hc, if_false, h, ite_self]

/-- C8: `split` on an allocated frame that has children or has no window, and
`close` on one that has children or has no parent, return without any change:
the whole editor state, with every frame and its geometry, the windows, the
registry, the id counter and the focus, is the state before the call, and `close`
returns no focus candidate. -/
theorem rejected_ops_change_nothing (s : Editor) (f : Nat) (v : Bool)
    (hf : f < s.frames.length) :
    ((childrenOf s.frames f ≠ [] ∨ winOf s.frames f = none) → split s f v = some s) ∧
      ((childrenOf s.frames f ≠ [] ∨ parentOf s.frames f = none) →
        close s f = some (s, none)) :=
  ⟨split_rejected v hf, close_rejected hf⟩

theorem rejected_ops_change_nothing_witness :
    split twoPanes 0 true = some twoPanes ∧ close twoPanes 0 = some (twoPanes, none) :=
  ⟨(rejected_ops_change_nothing twoPanes 0 true (by decide)).1 (Or.inl (by decide)),
    (rejected_ops_change_nothing twoPanes 0 true (by decide)).2 (Or.inl (by decide))⟩

/-! ## Claims C9 and C10: `exchange` -/

theorem threePanes_inTree_three : InTree threePanes 3 :=
  Desc.step (a := 0) (c := 3) (by decide) (Desc.refl 3)

/-- C9: on a frame `f` of the tree, `exchange` leaves the whole state as it is
when `f` has no parent; is `exchange` of the parent when the parent has exactly
one child; and, when `f` is at index `i` of a parent `p` with at least two
children, returns with the entry at `i` and the entry at `j` exchanged, `j`
being `i - 1` when `i` is the last index and `i + 1` otherwise: the neighbour is
at `i`, `f` is at `j`, every other entry of the children of `p` is in place and
the children of every other frame are the same. -/
theorem exchange_swaps_with_neighbour (s : Editor) (f : Nat) (w : WF s) (ht : InTree s f) :
    (parentOf s.frames f = none → exchange s f = some s) ∧
    (∀ p, parentOf s.frames f = some p → (childrenOf s.frames p).length = 1 →
      exchange s f = exchange s p) ∧
    (∀ p i, (childrenOf s.frames p)[i]? = some f → 2 ≤ (childrenOf s.frames p).length →
      ∃ s' nb, exchange s f = some s' ∧
        (childrenOf s.frames p)[if i + 1 = (childrenOf s.frames p).length then i - 1
          else i + 1]? = some nb ∧
        (childrenOf s'.frames p)[i]? = some nb ∧
        (childrenOf s'.frames p)[if i + 1 = (childrenOf s.frames p).length then i - 1
          else i + 1]? = some f ∧
        (∀ k, k ≠ i →
          k ≠ (if i + 1 = (childrenOf s.frames p).length then i - 1 else i + 1) →
          (childrenOf s'.frames p)[k]? = (childrenOf s.frames p)[k]?) ∧
        (childrenOf s'.frames p).length = (childrenOf s.frames p).length ∧
        (∀ c, c ≠ p → childrenOf s'.frames c = childrenOf s.frames c)) := by
  have hf : f < s.frames.length := InTree.lt w ht
  refine ⟨fun hpar => exchangeAux_root hf hpar _, fun p hpar hone => ?_, fun p i hi h2 => ?_⟩
  · obtain ⟨hmem, hp, htp⟩ := InTree.parent w ht hpar
    obtain ⟨pfr, hpfr⟩ := getElem?_of_lt hp
    have hpf : p < f := (w.edge p hp f hmem).1
    rw [childrenOf_eq hpfr] at hone
    unfold exchange
    rw [exchangeAux_step hf hpar hpfr, if_pos hone]
    exact exchangeAux_fuel w _ _ p hp (Nat.lt_succ_of_lt hp) htp
  · have hmem : f ∈ childrenOf s.frames p := List.getElem?_mem hi
    have hp : p < s.frames.length := childrenOf_lt hmem
    have hpar : parentOf s.frames f = some p := (w.edge p hp f hmem).2.2.1
    obtain ⟨pfr, hpfr⟩ := getElem?_of_lt hp
    obtain ⟨pre, post, hcs, hpre, hpost⟩ := mem_split_nodup hmem (w.nodup p hp)
    rw [hcs] at hi h2 ⊢
    have hip := index_of_split hpre hpost hi
    subst hip
    rw [childrenOf_eq hpfr] at hcs
    obtain ⟨s', l1, a, b, l2, nb, _, e, hsw, _, hj, hnew, hi', _, _⟩ :=
      exchangeSwap_spec w hpfr hcs hpre h2
    have hne : ¬ pfr.children.length = 1 := by rw [hcs]; omega
    have hjl := (List.getElem?_eq_some.1 hj).1
    have hil := (List.getElem?_eq_some.1 hi).1
    have hij : pre.length ≠ (if pre.length + 1 = (pre ++ f :: post).length then pre.length - 1
        else pre.length + 1) := by
      split <;> omega
    refine ⟨s', nb, ?_, hj, hi', ?_, fun k hki hkj => ?_, ?_, hsw.others⟩
    · unfold exchange
      rw [exchangeAux_step hf hpar hpfr, if_neg hne]
      exact e
    · rw [hnew, List.getElem?_set_self (by rw [List.length_set]; exact hjl)]
    · rw [hnew, List.getElem?_set_ne (fun h => hkj h.symm),
        List.getElem?_set_ne (fun h => hki h.symm)]
    · rw [hnew, List.length_set, List.length_set]

theorem exchange_swaps_with_neighbour_witness :
    ∃ s' nb, exchange threePanes 3 = some s' ∧
      (childrenOf threePanes.frames 0)[if 2 + 1 = (childrenOf threePanes.frames 0).length
        then 2 - 1 else 2 + 1]? = some nb ∧
      (childrenOf s'.frames 0)[2]? = some nb ∧
      (childrenOf s'.frames 0)[if 2 + 1 = (childrenOf threePanes.frames 0).length then 2 - 1
        else 2 + 1]? = some 3 ∧
      (∀ k, k ≠ 2 →
        k ≠ (if 2 + 1 = (childrenOf threePanes.frames 0).length then 2 - 1 else 2 + 1) →
        (childrenOf s'.frames 0)[k]? = (childrenOf threePanes.frames 0)[k]?) ∧
      (childrenOf s'.frames 0).length = (childrenOf threePanes.frames 0).length ∧
      (∀ c, c ≠ 0 → childrenOf s'.frames c = childrenOf threePanes.frames c) :=
  (exchange_swaps_with_neighbour threePanes 3 threePanes_wf threePanes_inTree_three).2.2 0 2
    (by decide) (by decide)

theorem PermTree.same (h : Heap) : PermTree h h :=
  ⟨rfl, fun _ => List.Perm.refl _, fun _ => rfl⟩

/-- C10: on a frame `f` of a well-formed tree `exchange` returns, and either
leaves every children sequence as it is or exchanges two neighbours `a`, `b` in
the children of exactly one frame `q`, a proper ancestor of `f`.  In both cases
the root is the same, every children sequence has the same frames (so the frames
of the tree are the same), and the number of leaves, the depth of the tree and
`countSplits` of the root on both axes are what they were. -/
theorem exchange_is_adjacent_transposition (s : Editor) (f : Nat) (w : WF s)
    (ht : InTree s f) :
    ∃ s', exchange s f = some s' ∧
      ((∀ c, childrenOf s'.frames c = childrenOf s.frames c) ∨
        ∃ q l1 a b l2, Desc s.frames q f ∧ q ≠ f ∧
          childrenOf s.frames q = l1 ++ a :: b :: l2 ∧
          childrenOf s'.frames q = l1 ++ b :: a :: l2 ∧
          ∀ c, c ≠ q → childrenOf s'.frames c = childrenOf s.frames c) ∧
      s'.topFrame = s.topFrame ∧
      (∀ c, (childrenOf s'.frames c).Perm (childrenOf s.frames c)) ∧
      (∀ a, InTree s' a ↔ InTree s a) ∧
      (∃ n, leaves s.frames s.topFrame = some n ∧ leaves s'.frames s'.topFrame = some n) ∧
      (∃ d, depth s.frames s.topFrame = some d ∧ depth s'.frames s'.topFrame = some d) ∧
      ∀ A, ∃ n, countSplits s.frames s.topFrame A = some n ∧
        countSplits s'.frames s'.topFrame A = some n := by
  have hf : f < s.frames.length := InTree.lt w ht
  obtain ⟨s', e, _, hres⟩ := exchangeAux_spec (s.frames.length + 1) s f (Nat.lt_succ_of_lt hf) w ht
  have key : PermTree s.frames s'.frames ∧ s'.topFrame = s.topFrame := by
    rcases hres with h | ⟨q, l1, a, b, l2, _, _, hsw⟩
    · rw [h]; exact ⟨PermTree.same _, rfl⟩
    · exact ⟨hsw.permTree, hsw.top⟩
  obtain ⟨pt, htop⟩ := key
  have hbound := Nat.lt_succ_of_le (w.ranked.bound _ w.root)
  obtain ⟨n, hn⟩ := leavesAux_total w.ranked (s.frames.length + 1) s.topFrame w.root hbound
  obtain ⟨d, hd⟩ := depthAux_total w.ranked (s.frames.length + 1) s.topFrame w.root hbound
  refine ⟨s', e, ?_, htop, pt.children, fun a => ?_, ⟨n, hn, ?_⟩, ⟨d, hd, ?_⟩, fun A => ?_⟩
  · rcases hres with h | ⟨q, l1, a, b, l2, hd, hq, hsw⟩
    · rw [h]; exact Or.inl (fun _ => rfl)
    · exact Or.inr ⟨q, l1, a, b, l2, hd, hq, hsw.before, hsw.after, hsw.others⟩
  · unfold InTree
    rw [htop]
    exact ⟨fun h => pt.symm.desc h, fun h => pt.desc h⟩
  · unfold leaves
    rw [htop, pt.len, leavesAux_perm pt]; exact hn
  · unfold depth
    rw [htop, pt.len, depthAux_perm pt]; exact hd
  · obtain ⟨m, hm, _⟩ := countSplits_pos w.ranked A w.root
    refine ⟨m, hm, ?_⟩
    unfold countSplits at hm ⊢
    rw [htop, pt.len, countSplitsAux_perm pt]; exact hm

theorem exchange_is_adjacent_transposition_witness :
    ∃ s', exchange threePanes 1 = some s' ∧
      ((∀ c, childrenOf s'.frames c = childrenOf threePanes.frames c) ∨
        ∃ q l1 a b l2, Desc threePanes.frames q 1 ∧ q ≠ 1 ∧
          childrenOf threePanes.frames q = l1 ++ a :: b :: l2 ∧
          childrenOf s'.frames q = l1 ++ b :: a :: l2 ∧
          ∀ c, c ≠ q → childrenOf s'.frames c = childrenOf threePanes.frames c) ∧
      s'.topFrame = threePanes.topFrame ∧
      (∀ c, (childrenOf s'.frames c).Perm (childrenOf threePanes.frames c)) ∧
      (∀ a, InTree s' a ↔ InTree threePanes a) ∧
      (∃ n, leaves threePanes.frames threePanes.topFrame = some n ∧
        leaves s'.frames s'.topFrame = some n) ∧
      (∃ d, depth threePanes.frames threePanes.topFrame = some d ∧
        depth s'.frames s'.topFrame = some d) ∧
      ∀ A, ∃ n, countSplits threePanes.frames threePanes.topFrame A = some n ∧
        countSplits s'.frames s'.topFrame A = some n :=
  exchange_is_adjacent_transposition threePanes 1 threePanes_wf threePanes_inTree_one

/-! ## Claim C6: the shape of the tree -/

/-- Every operation on a frame of the tree of a well-formed state returns a
well-formed state. -/
theorem step_total {s : Editor} (w : WF s) (op : Op) (ht : InTree s op.target) :
    ∃ s', step s op = some s' ∧ WF s' := by
  cases op with
  | split f v =>
    have ht' : InTree s f := ht
    have hf : f < s.frames.length := InTree.lt w ht'
    show ∃ s', split s f v = some s' ∧ WF s'
    by_cases hleaf : childrenOf s.frames f = []
    · cases hwin : winOf s.frames f with
      | none =>
        exact ⟨s, split_rejected v hf (Or.inr hwin), w⟩
      | some x =>
        by_cases hflat : ∃ p, parentOf s.frames f = some p ∧ verticalOf s.frames p = v
        · obtain ⟨p, hpar, hv⟩ := hflat
          obtain ⟨s', e, _, w', _⟩ :=
            split_flat w hf hleaf hwin hpar (InTree.parent w ht' hpar).2.1 hv
          exact ⟨s', e, w'⟩
        · have hpar' : parentOf s.frames f = none ∨
              ∃ p, parentOf s.frames f = some p ∧ p < s.frames.length ∧
                verticalOf s.frames p ≠ v := by
            cases hp : parentOf s.frames f with
            | none => exact Or.inl rfl
            | some p =>
              exact Or.inr ⟨p, rfl, (InTree.parent w ht' hp).2.1,
                fun hv => hflat ⟨p, hp, hv⟩⟩
          obtain ⟨s', e, _, w', _⟩ := split_nest w hf hleaf hwin hpar'
          exact ⟨s', e, w'⟩
    · exact ⟨s, split_rejected v hf (Or.inl hleaf), w⟩
  | close f =>
    have ht' : InTree s f := ht
    have hf : f < s.frames.length := InTree.lt w ht'
    show ∃ s', (close s f).map (fun r => r.1) = some s' ∧ WF s'
    by_cases hleaf : childrenOf s.frames f = []
    · cases hpar : parentOf s.frames f with
      | none =>
        rw [close_rejected hf (Or.inr hpar)]
        exact ⟨s, rfl, w⟩
      | some p =>
        obtain ⟨x, hwin⟩ := leaf_window w (InTree.parent w ht' hpar).1 hleaf
        obtain ⟨s', nf, _, _, e, _, _, _, _, _, w', _⟩ := close_spec w ht' hleaf hwin hpar
        rw [e]
        exact ⟨s', rfl, w'⟩
    · rw [close_rejected hf (Or.inl hleaf)]
      exact ⟨s, rfl, w⟩
  | exchange f =>
    have ht' : InTree s f := ht
    have hf : f < s.frames.length := InTree.lt w ht'
    obtain ⟨s', e, w', _⟩ :=
      exchangeAux_spec (s.frames.length + 1) s f (Nat.lt_succ_of_lt hf) w ht'
    exact ⟨s', e, w'⟩

/-- Every reachable state is well-formed. -/
theorem Reachable.wellFormedState {b : Nat} {w h : Int} {s : Editor}
    (r : Reachable b w h s) : WF s := by
  induction r with
  | init => exact initEditor_wf b w h
  | step op _ ht e ih =>
    obtain ⟨s', e', w'⟩ := step_total ih op ht
    rw [e] at e'
    exact Option.some.inj e' ▸ w'

/-- The state `noPane` is reached by a split of the root leaf and the close of
both leaves, each a leaf of the tree it is closed in. -/
theorem noPane_reachable : Reachable 7 800 600 noPane := by
  have r1 : Reachable 7 800 600 twoPanes :=
    Reachable.step (.split 0 true) Reachable.init (Desc.refl 0) (by decide)
  have r2 : Reachable 7 800 600 onePane :=
    Reachable.step (.close 1) r1 twoPanes_inTree_one (by decide)
  exact Reachable.step (.close 2) r2 (Desc.step (a := 0) (c := 2) (by decide) (Desc.refl 2))
    (by decide)

/-- The state `nestedPanes` is reached by a side-by-side split of the root leaf,
a stacked split of the right leaf and the close of the lower right leaf. -/
theorem nestedPanes_reachable : Reachable 7 800 600 nestedPanes := by
  have r1 : Reachable 7 800 600 twoPanes :=
    Reachable.step (.split 0 true) Reachable.init (Desc.refl 0) (by decide)
  have r2 : Reachable 7 800 600 stackedPanes :=
    Reachable.step (.split 1 false) r1 twoPanes_inTree_one (by decide)
  exact Reachable.step (.close 3) r2
    (Desc.step (a := 0) (c := 1) (by decide)
      (Desc.step (a := 1) (c := 3) (by decide) (Desc.refl 3)))
    (by decide)

/-- C6, as the claim states it, fails: after a split of the root leaf and the
close of both leaves, each operation applied to a leaf of the tree, the root has
neither children nor a window. -/
theorem tree_shape_counterexample :
    Reachable 7 800 600 noPane ∧ InTree noPane noPane.topFrame ∧
      childrenOf noPane.frames noPane.topFrame = [] ∧
      winOf noPane.frames noPane.topFrame = none :=
  ⟨noPane_reachable, Desc.refl 0, by decide, by decide⟩

/-- C6, amended: in every state reached from a single root leaf with a window
by operations on frames of the current tree, every frame of the tree but the
root has either children or a window, never both and never neither; the root
never has both; every frame of the tree but the root occurs exactly once in the
children of exactly one frame, which is in the tree and is its parent; and every
further operation on a frame of the tree returns. -/
theorem tree_shape_invariant (b : Nat) (w h : Int) (s : Editor) (r : Reachable b w h s) :
    (∀ a, InTree s a → a ≠ s.topFrame →
      (childrenOf s.frames a ≠ [] ∨ winOf s.frames a ≠ none) ∧
        ¬ (childrenOf s.frames a ≠ [] ∧ winOf s.frames a ≠ none)) ∧
    ¬ (childrenOf s.frames s.topFrame ≠ [] ∧ winOf s.frames s.topFrame ≠ none) ∧
    (∀ a, InTree s a → a ≠ s.topFrame →
      ∃ p, InTree s p ∧ parentOf s.frames a = some p ∧ (childrenOf s.frames p).count a = 1 ∧
        ∀ q, a ∈ childrenOf s.frames q → q = p) ∧
    (∀ op : Op, InTree s op.target → ∃ s', step s op = some s') := by
  have wf := r.wellFormedState
  refine ⟨fun a ha hr => ⟨wf.no_empty_node ha hr, fun hb =>
      hb.2 (wf.noBoth a (InTree.lt wf ha) hb.1)⟩,
    fun hb => hb.2 (wf.noBoth _ wf.root hb.1), fun a ha hr => ?_,
    fun op ht => (step_total wf op ht).imp fun _ h => h.1⟩
  rcases Desc.last ha with h | ⟨p, hp, hmem⟩
  · exact absurd h.symm hr
  · have hpl := childrenOf_lt hmem
    refine ⟨p, hp, (wf.edge p hpl a hmem).2.2.1,
      List.count_eq_one_of_mem (wf.nodup p hpl) hmem, fun q hq => ?_⟩
    have e1 := (wf.edge q (childrenOf_lt hq) a hq).2.2.1
    rw [(wf.edge p hpl a hmem).2.2.1] at e1
    exact (Option.some.inj e1).symm

theorem tree_shape_invariant_witness :
    (∀ a, InTree nestedPanes a → a ≠ nestedPanes.topFrame →
      (childrenOf nestedPanes.frames a ≠ [] ∨ winOf nestedPanes.frames a ≠ none) ∧
        ¬ (childrenOf nestedPanes.frames a ≠ [] ∧ winOf nestedPanes.frames a ≠ none)) ∧
    ¬ (childrenOf nestedPanes.frames nestedPanes.topFrame ≠ [] ∧
      winOf nestedPanes.frames nestedPanes.topFrame ≠ none) ∧
    (∀ a, InTree nestedPanes a → a ≠ nestedPanes.topFrame →
      ∃ p, InTree nestedPanes p ∧ parentOf nestedPanes.frames a = some p ∧
        (childrenOf nestedPanes.frames p).count a = 1 ∧
        ∀ q, a ∈ childrenOf nestedPanes.frames q → q = p) ∧
    (∀ op : Op, InTree nestedPanes op.target → ∃ s', step nestedPanes op = some s') :=
  tree_shape_invariant 7 800 600 nestedPanes nestedPanes_reachable

/-! ## Claims C17 and C20: `countSplits` is positive, `setSize` is total and
never hands down less than its unit -/

/-- C17: on every frame tree, for every frame `f` and axis `A`, `countSplits(f, A)`
returns a number that is at least 1, and exactly 1 for a frame with an empty
children list; so the divisor `countSplits(child, A)` of the cross-axis step of
`setSize` is never zero for a child of `f`, and `setSize(f, A, u)` returns for
every unit `u`. -/
theorem countSplits_ge_one_setSize_total (h : Heap) (r : Nat → Nat) (f : Nat) (A : Bool)
    (u : Int) (hr : Ranked h r) (hf : f < h.length) :
    (∃ n, countSplits h f A = some n ∧ 1 ≤ n) ∧
      (childrenOf h f = [] → countSplits h f A = some 1) ∧
      (∀ c ∈ childrenOf h f, ∃ n, countSplits h c A = some n ∧ n ≠ 0) ∧
      ∃ h', setSize h f A u = some h' := by
  refine ⟨countSplits_pos hr A hf, fun hc => ?_, fun c hc => ?_, ?_⟩
  · obtain ⟨fr, hfr⟩ := getElem?_of_lt hf
    rw [childrenOf_eq hfr] at hc
    exact countSplits_leaf hfr (hasChildren_eq_false.2 hc) A
  · obtain ⟨n, hn, hpos⟩ := countSplits_pos hr A (hr.child f hf c hc).1
    exact ⟨n, hn, by omega⟩
  · obtain ⟨h', e, _⟩ :=
      setSizeAux_spec A (h.length + 1) h f u hr hf (Nat.lt_succ_of_le (hr.bound f hf))
    exact ⟨h', e⟩

theorem countSplits_ge_one_setSize_total_witness :
    (∃ n, countSplits sampleHeap 0 false = some n ∧ 1 ≤ n) ∧
      (childrenOf sampleHeap 0 = [] → countSplits sampleHeap 0 false = some 1) ∧
      (∀ c ∈ childrenOf sampleHeap 0, ∃ n, countSplits sampleHeap c false = some n ∧ n ≠ 0) ∧
      ∃ h', setSize sampleHeap 0 false 7 = some h' :=
  countSplits_ge_one_setSize_total sampleHeap (fun a => 6 - a) 0 false 7 sampleHeap_ranked
    (by decide)

/-- C20, as the claim states it, fails: Go `int` has 64 bits.  On the root of
`unevenHeap`, `setSize` on the stacked axis with the unit 2^62, which is not
negative, leaves the root with the height -4611686018427387904 and the leaf `3`
with the height -2305843009213693952, both below the unit. -/
theorem setSize_unit_counterexample :
    (0 : Int) ≤ 4611686018427387904 ∧ InInt 4611686018427387904 ∧
      Desc unevenHeap 0 3 ∧ childrenOf unevenHeap 3 = [] ∧
      (setSize unevenHeap 0 false 4611686018427387904).map
          (fun h' => (dimOf h' 0 false, dimOf h' 3 false)) =
        some (-4611686018427387904, -2305843009213693952) :=
  ⟨by decide, ⟨by decide, by decide⟩,
    Desc.step (a := 0) (c := 1) (by decide) (Desc.step (a := 1) (c := 3) (by decide) (Desc.refl 3)),
    rfl, rfl⟩

/-- C20, amended: on every frame tree, for every frame `f`, axis `A` and unit
`u ≥ 0` for which `u * countSplits(f, A)` is in the range of `int` (below 2^63),
`setSize(f, A, u)` returns and every frame in the subtree of `f` (`f`, its
descendants, every leaf among them) ends with a size along `A` of at least `u`;
with `u > 0` no frame of the subtree ends with a zero or negative size. -/
theorem setSize_subtree_at_least_unit (h : Heap) (r : Nat → Nat) (f : Nat) (A : Bool) (u : Int)
    (hr : Ranked h r) (hf : f < h.length) (hu : 0 ≤ u)
    (hfit : ∀ n, countSplits h f A = some n → u * n < 9223372036854775808) :
    ∃ h', setSize h f A u = some h' ∧
      ∀ a, Desc h f a → u ≤ dimOf h' a A ∧ (0 < u → 0 < dimOf h' a A) := by
  obtain ⟨h', e, _, q⟩ := setSizeAux_ge A u hu (h.length + 1) h f u hr hf
    (Nat.lt_succ_of_le (hr.bound f hf)) (le_refl u)
    (fun n hn => by rw [mul_comm]; exact hfit n hn)
  refine ⟨h', e, fun a d => ⟨q a (Or.inl d), fun hpos => ?_⟩⟩
  have := q a (Or.inl d)
  omega

theorem setSize_subtree_at_least_unit_witness :
    ∃ h', setSize unevenHeap 0 false 101 = some h' ∧
      ∀ a, Desc unevenHeap 0 a →
        101 ≤ dimOf h' a false ∧ ((0 : Int) < 101 → 0 < dimOf h' a false) :=
  setSize_subtree_at_least_unit unevenHeap (fun a => 8 - a) 0 false 101
    ⟨by decide, by decide⟩ (by decide) (by decide)
    (fun n hn => by
      have h3 : countSplits unevenHeap 0 false = some 3 := rfl
      rw [h3] at hn
      rw [← Option.some.inj hn]
      decide)

/-! ## Claim C14: the 800 by 600 scenario -/

/-- C14: in an editor of 800 by 600 pixels, from a single root leaf: the
side-by-side split `split(true)` of the root leaf gives the two leaves `2` (left)
and `1` (right), each 400 wide and 600 high; the stacked split `split(false)` of
the right leaf `1` gives under `1` the two leaves `4` (upper) and `3` (lower),
each 400 by 300, with the left leaf still 400 by 600; the close of the lower
right leaf `3` leaves the right leaf `4` with 400 by 600 and returns `4` as the
focus candidate. -/
theorem scenario_800_by_600 :
    (split (initEditor 7 800 600) 0 true).map
        (fun s => (childrenOf s.frames 0, childrenOf s.frames 2, childrenOf s.frames 1,
          boxOf s.frames 2, boxOf s.frames 1)) =
      some ([2, 1], [], [], (0, 0, 400, 600), (400, 0, 400, 600)) ∧
    ((split (initEditor 7 800 600) 0 true).bind fun s => split s 1 false).map
        (fun s => (childrenOf s.frames 0, childrenOf s.frames 1, childrenOf s.frames 4,
          childrenOf s.frames 3, boxOf s.frames 2, boxOf s.frames 4, boxOf s.frames 3)) =
      some ([2, 1], [4, 3], [], [], (0, 0, 400, 600), (400, 0, 400, 300),
        (400, 300, 400, 300)) ∧
    (((split (initEditor 7 800 600) 0 true).bind fun s => split s 1 false).bind
        fun s => close s 3).map
        (fun r => (r.2, childrenOf r.1.frames 0, childrenOf r.1.frames 1,
          childrenOf r.1.frames 4, boxOf r.1.frames 2, boxOf r.1.frames 4)) =
      some (some 4, [2, 1], [4], [], (0, 0, 400, 600), (400, 0, 400, 600)) :=
  ⟨rfl, rfl, rfl⟩

/-! ## Claim C11: the focus after `exchange` -/

/-- A forwarded `exchange` is the `exchange` of the frame it is forwarded to. -/
theorem exchange_forward {s : Editor} (w : WF s) {f m : Nat} (fw : Forwards s f m) :
    InTree s f → exchange s f = exchange s m ∧ InTree s m := by
  induction fw with
  | here f => exact fun ht => ⟨rfl, ht⟩
  | @up f p m hpar hone _ ih =>
    intro ht
    have hf : f < s.frames.length := InTree.lt w ht
    obtain ⟨hmem, hp, htp⟩ := InTree.parent w ht hpar
    obtain ⟨pfr, hpfr⟩ := getElem?_of_lt hp
    rw [childrenOf_eq hpfr] at hone
    obtain ⟨e, hm⟩ := ih htp
    refine ⟨?_, hm⟩
    rw [← e]
    unfold exchange
    rw [exchangeAux_step hf hpar hpfr, if_pos hone]
    exact exchangeAux_fuel w _ _ p hp (Nat.lt_succ_of_lt hp) htp

/-- C11, as the claim states it, fails: `exchange` on the last of the three
siblings `[2, 1, 3]` moves the leaf `3`, which holds window 2, before its
neighbour `1`, and the focus is then on window 1, the window of the neighbour
`1`, not on window 2. -/
theorem exchange_focus_counterexample :
    childrenOf threePanes.frames 0 = [2, 1, 3] ∧
      (exchange threePanes 3).map
          (fun s' => (childrenOf s'.frames 0, winOf s'.frames 3, winOf s'.frames 1, s'.focus)) =
        some ([2, 3, 1], some 2, some 1, some 1) :=
  ⟨rfl, rfl⟩

/-- C11, amended: when `exchange` on a frame `f` of the tree swaps the frame `m`
(`f`, or the ancestor the request is forwarded to) at index `i` of its parent
with its neighbour `nb`, the focus afterwards is on the window of the frame now
at index `i`, which is the neighbour `nb` and not `m`: on the window of `nb`
when `nb` is a leaf, on the window of the leaf that the first-child descent from
`nb` ends at otherwise; that leaf is not in the subtree of `m`. -/
theorem exchange_focus_on_neighbour (s : Editor) (f m p i : Nat) (w : WF s) (ht : InTree s f)
    (hfw : Forwards s f m) (hi : (childrenOf s.frames p)[i]? = some m)
    (h2 : 2 ≤ (childrenOf s.frames p).length) :
    ∃ s' nb l x, exchange s f = some s' ∧
      (childrenOf s.frames p)[if i + 1 = (childrenOf s.frames p).length then i - 1
        else i + 1]? = some nb ∧
      nb ≠ m ∧ (childrenOf s'.frames p)[i]? = some nb ∧
      firstLeaf s'.frames nb = some l ∧ (childrenOf s'.frames nb = [] → l = nb) ∧
      childrenOf s'.frames l = [] ∧ ¬ Desc s'.frames m l ∧
      winOf s'.frames l = some x ∧ s'.focus = some x := by
  obtain ⟨efw, htm⟩ := exchange_forward w hfw ht
  have hm : m < s.frames.length := InTree.lt w htm
  have hmem : m ∈ childrenOf s.frames p := List.getElem?_mem hi
  have hp : p < s.frames.length := childrenOf_lt hmem
  have hpar : parentOf s.frames m = some p := (w.edge p hp m hmem).2.2.1
  obtain ⟨pfr, hpfr⟩ := getElem?_of_lt hp
  obtain ⟨pre, post, hcs, hpre, hpost⟩ := mem_split_nodup hmem (w.nodup p hp)
  have hnd := w.nodup p hp
  rw [hcs] at hi h2 hnd ⊢
  have hip := index_of_split hpre hpost hi
  subst hip
  rw [childrenOf_eq hpfr] at hcs
  obtain ⟨s', l1, a, b, l2, nb, y, e, hsw, hcase, hj, _, hi', w', hfoc, l, hl, hd, hleaf, hwl⟩ :=
    exchangeSwap_spec w hpfr hcs hpre h2
  have hne : ¬ pfr.children.length = 1 := by rw [hcs]; omega
  have hbef := hsw.before
  rw [childrenOf_eq hpfr, hcs] at hbef
  rw [hbef] at hnd
  have hab : a ≠ b := by
    intro hab
    have h3 := (List.nodup_append.1 hnd).2.1
    rw [hab] at h3
    exact (List.nodup_cons.1 h3).1 (List.mem_cons_self _ _)
  have hnbm : nb ≠ m := by
    rcases hcase with ⟨h1, h3, _⟩ | ⟨h1, h3, _⟩
    · rw [h3, ← h1]; exact Ne.symm hab
    · rw [h3, ← h1]; exact hab
  have hnb' : nb ∈ childrenOf s'.frames p := List.getElem?_mem hi'
  have hm' : m ∈ childrenOf s'.frames p := by
    rw [hsw.after]
    rcases hcase with ⟨h1, _⟩ | ⟨h1, _⟩
    · rw [← h1]; simp
    · rw [← h1]; simp
  refine ⟨s', nb, l, y, ?_, hj, hnbm, hi', hl, fun hnl => ?_, hleaf,
    w'.toTreeHeap.disjoint hnb' hm' hnbm hd, hwl, hfoc⟩
  · rw [efw]
    unfold exchange
    rw [exchangeAux_step hm hpar hpfr, if_neg hne]
    exact e
  · cases hd with
    | refl => rfl
    | step hc _ => rw [hnl] at hc; cases hc

theorem exchange_focus_on_neighbour_witness :
    ∃ s' nb l x, exchange nestedPanes 4 = some s' ∧
      (childrenOf nestedPanes.frames 0)[if 1 + 1 = (childrenOf nestedPanes.frames 0).length
        then 1 - 1 else 1 + 1]? = some nb ∧
      nb ≠ 1 ∧ (childrenOf s'.frames 0)[1]? = some nb ∧
      firstLeaf s'.frames nb = some l ∧ (childrenOf s'.frames nb = [] → l = nb) ∧
      childrenOf s'.frames l = [] ∧ ¬ Desc s'.frames 1 l ∧
      winOf s'.frames l = some x ∧ s'.focus = some x :=
  exchange_focus_on_neighbour nestedPanes 4 1 0 1 nestedPanes_wf nestedPanes_inTree_four
    (Forwards.up (p := 1) (by decide) (by decide) (Forwards.here 1)) (by decide) (by decide)

/-! ## Claims C13 and C19: the size of a child across the orientation -/

theorem unevenHeap_tree : TreeHeap unevenHeap (fun a => 8 - a) :=
  ⟨⟨by decide, by decide⟩, by decide, by decide⟩

/-- The pixels that the truncated division drops. -/
theorem trunc_loss (a n : Int) (ha : 0 ≤ a) (hn : 1 ≤ n) :
    0 ≤ a - n * Int.tdiv a n ∧ a - n * Int.tdiv a n < n ∧
      (a - n * Int.tdiv a n = 0 ↔ n ∣ a) := by
  rw [Int.tdiv_eq_ediv ha (by omega), ← Int.emod_def]
  exact ⟨Int.emod_nonneg a (by omega), Int.emod_lt_of_pos a (by omega),
    Int.dvd_of_emod_eq_zero, Int.emod_eq_zero_of_dvd⟩

/-- The sizes of a frame and of one of its children after `setSize` across the
orientation of the frame: the frame has `u * max` in `int` arithmetic, the child
its count times the truncated quotient of the size of the frame by its count. -/
theorem setSize_cross_child {h : Heap} {r : Nat → Nat} {f c : Nat} {A : Bool} {u : Int}
    (hu : InInt u) (t : TreeHeap h r) (hv : verticalOf h f ≠ A) (hc : c ∈ childrenOf h f) :
    ∃ h' max n, setSize h f A u = some h' ∧ countSplits h f A = some max ∧
      countSplits h c A = some n ∧ 1 ≤ n ∧ 1 ≤ max ∧ (childrenOf h c = [] → n = 1) ∧
      dimOf h' f A = wrap (u * max) ∧ dimOf h' c A = n * Int.tdiv (dimOf h' f A) n := by
  have hf : f < h.length := childrenOf_lt hc
  obtain ⟨fr, hfr⟩ := getElem?_of_lt hf
  have hh : hasChildren fr = true := by
    rw [hasChildren_eq_true]
    intro e
    rw [childrenOf_eq hfr, e] at hc
    cases hc
  rw [verticalOf_eq hfr] at hv
  have hv' : (fr.vertical == A) = false := by
    cases h1 : fr.vertical <;> cases h2 : A <;> simp_all
  obtain ⟨h', max, e, _, hmax, hdf, hch⟩ := setSizeAux_children A t hfr hh u hu (h.length + 1)
    (Nat.lt_succ_of_le (t.ranked.bound f hf))
  obtain ⟨n, hn, hpos, hd⟩ := hch c (by rw [childrenOf_eq hfr] at hc; exact hc)
  rw [hv'] at hd
  simp only [Bool.false_eq_true, if_false] at hd
  obtain ⟨m, hm, hmpos⟩ := countSplits_pos t.ranked A hf
  rw [hmax] at hm
  cases hm
  rw [mul_comm max u] at hdf
  rw [← hdf, wrap_of_inInt (inInt_tdiv (hdf ▸ inInt_wrap _) hpos).2] at hd
  refine ⟨h', max, n, e, hmax, hn, hpos, hmpos, fun hleaf => ?_, hdf, hd⟩
  obtain ⟨cfr, hcfr⟩ := getElem?_of_lt (t.ranked.child f hf c hc).1
  rw [childrenOf_eq hcfr] at hleaf
  rw [countSplits_leaf hcfr (hasChildren_eq_false.2 hleaf) A] at hn
  exact (Option.some.inj hn).symm

/-- C13, as the claim states it, fails: across the orientation of the root `0`,
whose columns count 2 and 3 splits, `setSize` with unit 101 gives the root the
size 303, the column `1` the size 302 and the column `2` the size 303. -/
theorem setSize_cross_counterexample :
    verticalOf unevenHeap 0 = true ∧ childrenOf unevenHeap 0 = [1, 2] ∧
      (setSize unevenHeap 0 false 101).map
          (fun h' => (dimOf h' 0 false, dimOf h' 1 false, dimOf h' 2 false)) =
        some (303, 302, 303) :=
  ⟨rfl, rfl, rfl⟩

/-- C13, amended: on a frame tree, for a frame `f` with children whose
orientation differs from the axis `A` and every unit `u` of type `int`,
`setSize(f, A, u)` returns and leaves `f` with the size `S` that Go computes for
`u * countSplits(f, A)` (the product reduced to the 64-bit range of `int`) and
every child `c` of `f` with the size `countSplits(c, A) * (S / countSplits(c, A))`
along `A`, the division truncated; this is `S`, the size of `f`, when
`countSplits(c, A)` divides `S`, as it does for every leaf child. -/
theorem setSize_cross_child_size (h : Heap) (r : Nat → Nat) (f c : Nat) (A : Bool) (u : Int)
    (t : TreeHeap h r) (hv : verticalOf h f ≠ A) (hc : c ∈ childrenOf h f) (hu : InInt u) :
    ∃ h' max n, setSize h f A u = some h' ∧ countSplits h f A = some max ∧
      countSplits h c A = some n ∧ dimOf h' f A = wrap (u * max) ∧
      dimOf h' c A = n * Int.tdiv (dimOf h' f A) n ∧
      (n ∣ dimOf h' f A → dimOf h' c A = dimOf h' f A) ∧
      (childrenOf h c = [] → dimOf h' c A = dimOf h' f A) := by
  obtain ⟨h', max, n, e, hmax, hn, _, _, hleaf, hdf, hdc⟩ := setSize_cross_child hu t hv hc
  refine ⟨h', max, n, e, hmax, hn, hdf, hdc, fun hdvd => ?_, fun hl => ?_⟩
  · rw [hdc, Int.mul_tdiv_cancel' hdvd]
  · rw [hdc, hleaf hl, Int.mul_tdiv_cancel' (one_dvd _)]

theorem setSize_cross_child_size_witness :
    ∃ h' max n, setSize unevenHeap 0 false 101 = some h' ∧
      countSplits unevenHeap 0 false = some max ∧
      countSplits unevenHeap 1 false = some n ∧ dimOf h' 0 false = wrap (101 * max) ∧
      dimOf h' 1 false = n * Int.tdiv (dimOf h' 0 false) n ∧
      (n ∣ dimOf h' 0 false → dimOf h' 1 false = dimOf h' 0 false) ∧
      (childrenOf unevenHeap 1 = [] → dimOf h' 1 false = dimOf h' 0 false) :=
  setSize_cross_child_size unevenHeap (fun a => 8 - a) 0 1 false 101 unevenHeap_tree
    (by decide) (by decide) ⟨by decide, by decide⟩

/-- C19, as the claim states it, fails: Go `int` has 64 bits.  Across the
orientation of the root `0` of `unevenHeap`, `setSize` with the unit 2^62, which
is not negative, leaves the root with -4611686018427387904 and its child `2`
with -4611686018427387903: the size of the root minus the size of the child is
-1, below 0. -/
theorem setSize_truncation_counterexample :
    (0 : Int) ≤ 4611686018427387904 ∧ InInt 4611686018427387904 ∧
      verticalOf unevenHeap 0 = true ∧ 2 ∈ childrenOf unevenHeap 0 ∧
      (setSize unevenHeap 0 false 4611686018427387904).map
          (fun h' => (dimOf h' 0 false, dimOf h' 2 false,
            dimOf h' 0 false - dimOf h' 2 false)) =
        some (-4611686018427387904, -4611686018427387903, -1) :=
  ⟨by decide, ⟨by decide, by decide⟩, rfl, by decide, rfl⟩

/-- C19, amended: on a frame tree, for a frame `f` with children whose
orientation differs from the axis `A`, every unit `u ≥ 0` for which
`u * countSplits(f, A)` is in the range of `int` (below 2^63) and every child `c`
of `f`, `setSize(f, A, u)` returns and the size of `c` along `A` falls short of
the size of `f` along `A` by less than `countSplits(c, A)` and by no less than 0;
the two sizes are equal exactly when `countSplits(c, A)` divides
`u * countSplits(f, A)`, and always when `c` is a leaf. -/
theorem setSize_truncation_bounded (h : Heap) (r : Nat → Nat) (f c : Nat) (A : Bool) (u : Int)
    (t : TreeHeap h r) (hv : verticalOf h f ≠ A) (hc : c ∈ childrenOf h f) (hu : 0 ≤ u)
    (hfit : ∀ max, countSplits h f A = some max → u * max < 9223372036854775808) :
    ∃ h' max n, setSize h f A u = some h' ∧ countSplits h f A = some max ∧
      countSplits h c A = some n ∧
      0 ≤ dimOf h' f A - dimOf h' c A ∧ dimOf h' f A - dimOf h' c A < n ∧
      (dimOf h' f A - dimOf h' c A = 0 ↔ n ∣ u * max) ∧
      (childrenOf h c = [] → dimOf h' f A - dimOf h' c A = 0) := by
  obtain ⟨m, hm, hmpos⟩ := countSplits_pos t.ranked A (childrenOf_lt hc)
  have hlim := hfit m hm
  have hnn : 0 ≤ u * m := Int.mul_nonneg hu (by omega)
  have hum : u ≤ u * m := by
    have : 0 ≤ u * (m - 1) := Int.mul_nonneg hu (by omega)
    have e : u * m = u * (m - 1) + u := by ring
    omega
  have huin : InInt u := ⟨by omega, by omega⟩
  obtain ⟨h', max, n, e, hmax, hn, hpos, _, hleaf, hdf, hdc⟩ :=
    setSize_cross_child huin t hv hc
  rw [hm] at hmax
  cases hmax
  rw [wrap_of_inInt ⟨by omega, hlim⟩] at hdf
  have hloss := trunc_loss (u * m) n hnn hpos
  rw [← hdf, ← hdc] at hloss
  refine ⟨h', m, n, e, hm, hn, hloss.1, hloss.2.1, ?_, fun hl => ?_⟩
  · rw [hloss.2.2, hdf]
  · rw [hloss.2.2, hleaf hl]
    exact one_dvd _

theorem setSize_truncation_bounded_witness :
    ∃ h' max n, setSize unevenHeap 0 false 101 = some h' ∧
      countSplits unevenHeap 0 false = some max ∧
      countSplits unevenHeap 1 false = some n ∧
      0 ≤ dimOf h' 0 false - dimOf h' 1 false ∧ dimOf h' 0 false - dimOf h' 1 false < n ∧
      (dimOf h' 0 false - dimOf h' 1 false = 0 ↔ n ∣ 101 * max) ∧
      (childrenOf unevenHeap 1 = [] → dimOf h' 0 false - dimOf h' 1 false = 0) :=
  setSize_truncation_bounded unevenHeap (fun a => 8 - a) 0 1 false 101 unevenHeap_tree
    (by decide) (by decide) (by decide)
    (fun max hmax => by
      have h3 : countSplits unevenHeap 0 false = some 3 := rfl
      rw [h3] at hmax
      rw [← Option.some.inj hmax]
      decide)

/-! ## Claims C12 and C18: the children of a frame are laid out edge to edge -/

theorem spanOf_nonneg {h : Heap} {vertical A : Bool} {cs : List Nat}
    (hnn : ∀ c ∈ cs, 0 ≤ dimOf h c A) : 0 ≤ spanOf h vertical cs A := by
  unfold spanOf
  split
  · apply List.sum_nonneg
    intro z hz
    obtain ⟨c, hc, rfl⟩ := List.mem_map.1 hz
    exact hnn c hc
  · exact le_refl 0

theorem inInt_between {a b z : Int} (ha : InInt a) (hb : InInt b)
    (h : (a ≤ z ∧ z ≤ b) ∨ (b ≤ z ∧ z ≤ a)) : InInt z := by
  unfold InInt at *
  omega

theorem mul_between {k m u : Int} (h0 : 0 ≤ k) (hk : k ≤ m) :
    (0 ≤ k * u ∧ k * u ≤ m * u) ∨ (m * u ≤ k * u ∧ k * u ≤ 0) := by
  by_cases hu : 0 ≤ u
  · exact Or.inl ⟨Int.mul_nonneg h0 hu, Int.mul_le_mul_of_nonneg_right hk hu⟩
  · refine Or.inr ⟨?_, ?_⟩
    · nlinarith
    · nlinarith

/-- What `setPos` does on a frame with children of a frame tree: every child is
put at the place of the frame moved by the sizes of the children before it, the
sum taken in `int` arithmetic. -/
theorem setPos_layout {h : Heap} {r : Nat → Nat} {f : Nat} (x y : Int) (hx : InInt x)
    (hy : InInt y) (t : TreeHeap h r) (hint : childrenOf h f ≠ []) :
    ∃ h', setPos h f x y = some h' ∧ SameTree h h' ∧ (∀ a v, dimOf h' a v = dimOf h a v) ∧
      (∀ A : Bool, posOf h' f A = if A then x else y) ∧
      ∀ pre c post, childrenOf h f = pre ++ c :: post → ∀ A,
        posOf h' c A = wrap (posOf h' f A + spanOf h' (verticalOf h f) pre A) := by
  have hf : f < h.length := by
    by_contra hge
    exact hint (childrenOf_none (Nat.le_of_not_lt hge))
  obtain ⟨fr, hfr⟩ := getElem?_of_lt hf
  rw [childrenOf_eq hfr] at hint
  have hfuel := Nat.lt_succ_of_le (t.ranked.bound f hf)
  obtain ⟨h', e, st, hD, _, px, py⟩ := setPosAux_frame (h.length + 1) h f x y t.ranked hf hfuel
  obtain ⟨h'', e', hk⟩ := setPosAux_children t hfr (hasChildren_eq_true.2 hint) x y hx hy
    (h.length + 1) hfuel
  rw [e] at e'
  cases e'
  have hpf : ∀ A : Bool, posOf h' f A = if A then x else y := by
    intro A; cases A
    · exact py
    · exact px
  refine ⟨h', e, st, hD, hpf, fun pre c post hsplit A => ?_⟩
  rw [childrenOf_eq hfr] at hsplit
  rw [hk pre c post hsplit A, hpf, spanOf_congr hD, verticalOf_eq hfr]

/-- C12, as the claim states it, fails: Go `int` has 64 bits.  On the root of
`threePanes`, whose frames all have non-negative width and height, `setPos` with
`x` the largest `int` puts the first child `2`, 266 wide, at that `x` and the
next child `1` at -9223372036854775543, which is not the coordinate of `2` plus
its width, and is before `2`. -/
theorem setPos_contiguous_counterexample :
    childrenOf threePanes.frames 0 = [2, 1, 3] ∧ verticalOf threePanes.frames 0 = true ∧
      (∀ a < 4, 0 ≤ dimOf threePanes.frames a true ∧ 0 ≤ dimOf threePanes.frames a false) ∧
      InInt 9223372036854775807 ∧
      (setPos threePanes.frames 0 9223372036854775807 0).map
          (fun h' => (posOf h' 2 true, dimOf h' 2 true, posOf h' 1 true)) =
        some (9223372036854775807, 266, -9223372036854775543) ∧
      (-9223372036854775543 : Int) ≠ 9223372036854775807 + 266 ∧
      (-9223372036854775543 : Int) < 9223372036854775807 :=
  ⟨rfl, rfl, by decide, ⟨by decide, by decide⟩, rfl, by decide, by decide⟩

/-- C12, amended: on a frame tree, for a frame `f` with children whose sizes
along the orientation of `f` are not negative, and `x`, `y` of type `int` such
that the coordinate of `f` along its orientation plus the sum of these sizes is
in the range of `int` (below 2^63), `setPos(f, x, y)` returns and puts `f` at
`(x, y)` and the first child at `(x, y)`; every child has the coordinate of `f`
across the orientation of `f`; along the orientation (`x` and width when
`f.vertical`, `y` and height otherwise) every child but the first starts where
the child before it ends, and a child ends no later than every later child
starts; `setPos` changes no width, height, orientation or children sequence. -/
theorem setPos_children_contiguous (h : Heap) (r : Nat → Nat) (f : Nat) (x y : Int)
    (t : TreeHeap h r) (hint : childrenOf h f ≠ [])
    (hnn : ∀ c ∈ childrenOf h f, 0 ≤ dimOf h c (verticalOf h f))
    (hx : InInt x) (hy : InInt y)
    (hfit : (if verticalOf h f then x else y) +
      spanOf h (verticalOf h f) (childrenOf h f) (verticalOf h f) < 9223372036854775808) :
    ∃ h', setPos h f x y = some h' ∧ posOf h' f true = x ∧ posOf h' f false = y ∧
      (∀ c0 rest, childrenOf h f = c0 :: rest → posOf h' c0 true = x ∧ posOf h' c0 false = y) ∧
      (∀ c ∈ childrenOf h f, posOf h' c (!verticalOf h f) = posOf h' f (!verticalOf h f)) ∧
      (∀ pre c d post, childrenOf h f = pre ++ c :: d :: post →
        posOf h' d (verticalOf h f) =
          posOf h' c (verticalOf h f) + dimOf h' c (verticalOf h f)) ∧
      (∀ pre c mid d post, childrenOf h f = pre ++ c :: (mid ++ d :: post) →
        posOf h' c (verticalOf h f) + dimOf h' c (verticalOf h f) ≤
          posOf h' d (verticalOf h f)) ∧
      (∀ a A, dimOf h' a A = dimOf h a A) ∧ (∀ a, verticalOf h' a = verticalOf h a) ∧
      (∀ a, childrenOf h' a = childrenOf h a) := by
  obtain ⟨h', e, st, hD, hpf, hk⟩ := setPos_layout x y hx hy t hint
  have hbase : ∀ A : Bool, InInt (posOf h' f A) := by
    intro A
    rw [hpf]
    cases A
    · exact hy
    · exact hx
  have hexact : ∀ pre c post, childrenOf h f = pre ++ c :: post →
      posOf h' c (verticalOf h f) =
        posOf h' f (verticalOf h f) + spanOf h' (verticalOf h f) pre (verticalOf h f) := by
    intro pre c post hc
    rw [hk pre c post hc]
    apply wrap_of_inInt
    have h0 : 0 ≤ spanOf h' (verticalOf h f) pre (verticalOf h f) :=
      spanOf_nonneg (fun m hm => by
        rw [hD]
        exact hnn m (by rw [hc]; simp [hm]))
    have h1 : 0 ≤ spanOf h' (verticalOf h f) (c :: post) (verticalOf h f) :=
      spanOf_nonneg (fun m hm => by
        rw [hD]
        exact hnn m (by rw [hc]; exact List.mem_append_right _ hm))
    have hall : spanOf h (verticalOf h f) (childrenOf h f) (verticalOf h f) =
        spanOf h' (verticalOf h f) pre (verticalOf h f) +
          spanOf h' (verticalOf h f) (c :: post) (verticalOf h f) := by
      rw [spanOf_congr hD, spanOf_congr hD, hc, spanOf_append]
    have hb := hbase (verticalOf h f)
    rw [hall, ← hpf (verticalOf h f)] at hfit
    unfold InInt at hb ⊢
    omega
  refine ⟨h', e, hpf true, hpf false, fun c0 rest hc => ?_, fun c hc => ?_,
    fun pre c d post hc => ?_, fun pre c mid d post hc => ?_, hD, st.verticalOf, st.childrenOf⟩
  · have := hk [] c0 rest hc
    exact ⟨by rw [this true, spanOf_nil, add_zero, wrap_of_inInt (hbase true)]; exact hpf true,
      by rw [this false, spanOf_nil, add_zero, wrap_of_inInt (hbase false)]; exact hpf false⟩
  · obtain ⟨pre, post, hsplit⟩ := List.append_of_mem hc
    rw [hk pre c post hsplit]
    unfold spanOf
    rw [if_neg (by cases verticalOf h f <;> simp), add_zero, wrap_of_inInt (hbase _)]
  · have h1 := hexact pre c (d :: post) hc
    have h2 := hexact (pre ++ [c]) d post (by rw [hc]; simp)
    rw [spanOf_append, spanOf_cons, spanOf_nil, if_pos rfl] at h2
    rw [h1, h2]; ring
  · have h1 := hexact pre c (mid ++ d :: post) hc
    have h2 := hexact (pre ++ c :: mid) d post (by rw [hc]; simp)
    rw [spanOf_append, spanOf_cons, if_pos rfl] at h2
    have hmid : 0 ≤ spanOf h' (verticalOf h f) mid (verticalOf h f) :=
      spanOf_nonneg (fun m hm => by
        rw [hD]
        exact hnn m (by rw [hc]; simp [hm]))
    rw [h1, h2]
    omega

theorem setPos_children_contiguous_witness :
    ∃ h', setPos threePanes.frames 0 10 20 = some h' ∧ posOf h' 0 true = 10 ∧
      posOf h' 0 false = 20 ∧
      (∀ c0 rest, childrenOf threePanes.frames 0 = c0 :: rest →
        posOf h' c0 true = 10 ∧ posOf h' c0 false = 20) ∧
      (∀ c ∈ childrenOf threePanes.frames 0,
        posOf h' c (!verticalOf threePanes.frames 0) =
          posOf h' 0 (!verticalOf threePanes.frames 0)) ∧
      (∀ pre c d post, childrenOf threePanes.frames 0 = pre ++ c :: d :: post →
        posOf h' d (verticalOf threePanes.frames 0) =
          posOf h' c (verticalOf threePanes.frames 0) +
            dimOf h' c (verticalOf threePanes.frames 0)) ∧
      (∀ pre c mid d post, childrenOf threePanes.frames 0 = pre ++ c :: (mid ++ d :: post) →
        posOf h' c (verticalOf threePanes.frames 0) +
            dimOf h' c (verticalOf threePanes.frames 0) ≤
          posOf h' d (verticalOf threePanes.frames 0)) ∧
      (∀ a A, dimOf h' a A = dimOf threePanes.frames a A) ∧
      (∀ a, verticalOf h' a = verticalOf threePanes.frames a) ∧
      (∀ a, childrenOf h' a = childrenOf threePanes.frames a) :=
  setPos_children_contiguous threePanes.frames (fun a => threePanes.frames.length - a) 0 10 20
    threePanes_wf.toTreeHeap (by decide) (by decide) ⟨by decide, by decide⟩
    ⟨by decide, by decide⟩ (by decide)

/-- C18, as the claim states it, fails: Go `int` has 64 bits.  On the node `2` of
`unevenHeap`, a stacked node of three leaves, `setSize` on the stacked axis with
the unit 2^62 gives each leaf the height 4611686018427387904 and the node the
height -4611686018427387904, which is not the sum 13835058055282163712 of the
heights of its children. -/
theorem setSize_tile_counterexample :
    verticalOf unevenHeap 2 = false ∧ childrenOf unevenHeap 2 = [5, 6, 7] ∧
      InInt 4611686018427387904 ∧
      (setSize unevenHeap 2 false 4611686018427387904).map
          (fun h' => (dimOf h' 2 false,
            ((childrenOf unevenHeap 2).map fun c => dimOf h' c false).sum)) =
        some (-4611686018427387904, 13835058055282163712) :=
  ⟨rfl, rfl, ⟨by decide, by decide⟩, rfl⟩

/-- C18, amended: on a frame tree, for a frame `f` with children whose
orientation is the axis `A`, every unit `u` and every `x`, `y` of type `int` for
which `u * countSplits(f, A)` and the coordinate of `f` along `A` plus
`u * countSplits(f, A)` are in the range of `int`, `setSize(f, A, u)` returns and
the sizes of the children of `f` along `A` add up to the size of `f` along `A`;
after `setPos(f, x, y)` the first child starts where `f` starts, every child
starts at the start of `f` plus the sizes of the children before it, and the last
child ends where `f` ends. -/
theorem setSize_children_tile (h : Heap) (r : Nat → Nat) (f : Nat) (A : Bool) (u x y : Int)
    (t : TreeHeap h r) (hint : childrenOf h f ≠ []) (hv : verticalOf h f = A)
    (hu : InInt u) (hx : InInt x) (hy : InInt y)
    (hfit : ∀ max, countSplits h f A = some max →
      InInt (u * max) ∧ InInt ((if A then x else y) + u * max)) :
    ∃ h1 h2, setSize h f A u = some h1 ∧ setPos h1 f x y = some h2 ∧
      ((childrenOf h f).map fun c => dimOf h1 c A).sum = dimOf h1 f A ∧
      (∀ a v, dimOf h2 a v = dimOf h1 a v) ∧
      (∀ c0 rest, childrenOf h f = c0 :: rest → posOf h2 c0 A = posOf h2 f A) ∧
      (∀ pre c post, childrenOf h f = pre ++ c :: post →
        posOf h2 c A = posOf h2 f A + (pre.map fun c => dimOf h2 c A).sum) ∧
      (∀ pre c, childrenOf h f = pre ++ [c] →
        posOf h2 c A + dimOf h2 c A = posOf h2 f A + dimOf h2 f A) := by
  have hf : f < h.length := by
    by_contra hge
    exact hint (childrenOf_none (Nat.le_of_not_lt hge))
  obtain ⟨fr, hfr⟩ := getElem?_of_lt hf
  have hint' := hint
  rw [childrenOf_eq hfr] at hint'
  have hh := hasChildren_eq_true.2 hint'
  rw [verticalOf_eq hfr] at hv
  have hv' : (fr.vertical == A) = true := by rw [hv]; simp
  obtain ⟨h1, max, e1, st1, hmax, hdf, hch⟩ := setSizeAux_children A t hfr hh u hu
    (h.length + 1) (Nat.lt_succ_of_le (t.ranked.bound f hf))
  obtain ⟨hfu, hfp⟩ := hfit max hmax
  rw [mul_comm u max] at hfu hfp
  rw [wrap_of_inInt hfu] at hdf
  have hzero : InInt 0 := ⟨by decide, by decide⟩
  -- the counts of the children, and the sizes they get
  have hmaxsum := hmax
  rw [countSplits_sum t.ranked A hfr hh hv'] at hmaxsum
  have hmaxsum' : (fr.children.map fun c => (countSplits h c A).getD 0).sum = max :=
    Option.some.inj hmaxsum
  have hk1 : ∀ c ∈ fr.children, 1 ≤ (countSplits h c A).getD 0 ∧
      dimOf h1 c A = wrap ((countSplits h c A).getD 0 * u) := by
    intro c hc
    obtain ⟨n, hn, hpos, hd⟩ := hch c hc
    rw [hv', if_pos rfl] at hd
    rw [hn]
    exact ⟨hpos, hd⟩
  have hpre : ∀ pre post, fr.children = pre ++ post →
      0 ≤ (pre.map fun c => (countSplits h c A).getD 0).sum ∧
        (pre.map fun c => (countSplits h c A).getD 0).sum ≤ max := by
    intro pre post hsplit
    have hnn : ∀ l : List Nat, (∀ c ∈ l, c ∈ fr.children) →
        0 ≤ (l.map fun c => (countSplits h c A).getD 0).sum := by
      intro l hl
      apply List.sum_nonneg
      intro z hz
      obtain ⟨c, hc, rfl⟩ := List.mem_map.1 hz
      have := (hk1 c (hl c hc)).1
      omega
    have h1' := hnn pre (fun c hc => by rw [hsplit]; exact List.mem_append_left _ hc)
    have h2' := hnn post (fun c hc => by rw [hsplit]; exact List.mem_append_right _ hc)
    rw [← hmaxsum', hsplit, List.map_append, List.sum_append]
    exact ⟨h1', by omega⟩
  have hdim : ∀ c ∈ fr.children, dimOf h1 c A = (countSplits h c A).getD 0 * u := by
    intro c hc
    obtain ⟨pre, post, hsplit⟩ := List.append_of_mem hc
    have hle := hpre (pre ++ [c]) post (by rw [hsplit]; simp)
    have hle0 := hpre pre (c :: post) hsplit
    rw [List.map_append, List.sum_append, List.map_singleton, List.sum_singleton] at hle
    rw [(hk1 c hc).2]
    exact wrap_of_inInt (inInt_between hzero hfu
      (mul_between (by have := (hk1 c hc).1; omega) (by omega)))
  have hsum : ((childrenOf h f).map fun c => dimOf h1 c A).sum = dimOf h1 f A := by
    rw [hdf, ← hmaxsum', childrenOf_eq hfr, ← List.sum_map_mul_right]
    congr 1
    exact List.map_congr_left hdim
  have hint1 : childrenOf h1 f ≠ [] := by rw [st1.childrenOf]; exact hint
  obtain ⟨h2, e2, _, hD, hpf, hk⟩ := setPos_layout x y hx hy (st1.treeHeapOf t) hint1
  have hspan : ∀ pre post, fr.children = pre ++ post →
      spanOf h2 (verticalOf h1 f) pre A = (pre.map fun c => dimOf h2 c A).sum ∧
        (pre.map fun c => dimOf h2 c A).sum =
          (pre.map fun c => (countSplits h c A).getD 0).sum * u := by
    intro pre post hsplit
    refine ⟨?_, ?_⟩
    · unfold spanOf
      rw [st1.verticalOf, verticalOf_eq hfr, if_pos hv]
    · rw [← List.sum_map_mul_right]
      congr 1
      apply List.map_congr_left
      intro c hc
      rw [hD]
      exact hdim c (by rw [hsplit]; exact List.mem_append_left _ hc)
  have hplace : ∀ pre c post, childrenOf h f = pre ++ c :: post →
      posOf h2 c A = posOf h2 f A + (pre.map fun c => dimOf h2 c A).sum := by
    intro pre c post hc
    have hsplit : fr.children = pre ++ c :: post := by rw [← childrenOf_eq hfr]; exact hc
    obtain ⟨hs1, hs2⟩ := hspan pre (c :: post) hsplit
    have hle := hpre pre (c :: post) hsplit
    rw [hk pre c post (by rw [st1.childrenOf]; exact hc) A, hs1]
    apply wrap_of_inInt
    rw [hs2, hpf]
    have hb : InInt (if A then x else y) := by
      cases A
      · exact hy
      · exact hx
    rcases mul_between (u := u) hle.1 hle.2 with hm | hm
    · exact inInt_between hb hfp (Or.inl ⟨by omega, by omega⟩)
    · exact inInt_between hb hfp (Or.inr ⟨by omega, by omega⟩)
  refine ⟨h1, h2, e1, e2, hsum, hD, fun c0 rest hc => ?_, hplace, fun pre c hc => ?_⟩
  · have := hplace [] c0 rest hc
    simpa using this
  · rw [hplace pre c [] hc, hD f, ← hsum, hc, List.map_append, List.sum_append,
      List.map_singleton, List.sum_singleton]
    simp only [hD]
    ring

theorem setSize_children_tile_witness :
    ∃ h1 h2, setSize unevenHeap 2 false 101 = some h1 ∧ setPos h1 2 10 20 = some h2 ∧
      ((childrenOf unevenHeap 2).map fun c => dimOf h1 c false).sum = dimOf h1 2 false ∧
      (∀ a v, dimOf h2 a v = dimOf h1 a v) ∧
      (∀ c0 rest, childrenOf unevenHeap 2 = c0 :: rest → posOf h2 c0 false = posOf h2 2 false) ∧
      (∀ pre c post, childrenOf unevenHeap 2 = pre ++ c :: post →
        posOf h2 c false = posOf h2 2 false + (pre.map fun c => dimOf h2 c false).sum) ∧
      (∀ pre c, childrenOf unevenHeap 2 = pre ++ [c] →
        posOf h2 c false + dimOf h2 c false = posOf h2 2 false + dimOf h2 2 false) :=
  setSize_children_tile unevenHeap (fun a => 8 - a) 2 false 101 10 20 unevenHeap_tree
    (by decide) (by decide) ⟨by decide, by decide⟩ ⟨by decide, by decide⟩
    ⟨by decide, by decide⟩
    (fun max hmax => by
      have h3 : countSplits unevenHeap 2 false = some 3 := rfl
      rw [h3] at hmax
      rw [← Option.some.inj hmax]
      exact ⟨⟨by decide, by decide⟩, ⟨by decide, by decide⟩⟩)

/-! ## Claim C16: `close` terminates and takes out one pane -/

/-- A leaf other than the closed leaf stays where it is in the tree. -/
theorem CloseTree.keepsLeaf {h h' : Heap} {f : Nat} {nf : Option Nat} (ct : CloseTree h h' f nf)
    (hl : childrenOf h f = []) {a : Nat} (ha : childrenOf h a = []) (haf : a ≠ f) {r : Nat}
    (d : Desc h r a) : Desc h' r a := by
  induction d with
  | refl a => exact Desc.refl a
  | @step r c a hc hd ih =>
    have : c ∈ childrenOf h' r := by
      by_contra hn
      exact haf (ct.kept hl r c hc hn a hd ha)
    exact Desc.step this (ih ha haf)

theorem panes_finite {s : Editor} (w : WF s) : (panes s).Finite :=
  Set.Finite.subset (Set.finite_lt_nat s.frames.length) (fun _ ha => InTree.lt w ha.1)

/-- A `close` that is not rejected takes the closed leaf, and no other, out of
the window-bearing leaves of the tree, and its window out of the registry. -/
theorem close_panes {s : Editor} {f p : Nat} (w : WF s) (ht : InTree s f)
    (hleaf : childrenOf s.frames f = []) (hpar : parentOf s.frames f = some p) :
    ∃ s' nf x win, close s f = some (s', nf) ∧ WF s' ∧ winOf s.frames f = some x ∧
      s.windows[x]? = some win ∧ s'.wins = regDelete s.wins win.id ∧
      f ∈ panes s ∧ panes s' = panes s \ {f} := by
  obtain ⟨hmem, hp, _⟩ := InTree.parent w ht hpar
  obtain ⟨x, hwin⟩ := leaf_window w hmem hleaf
  obtain ⟨s', nf, pre, post, e, _, _, _, ct, ce, w', _⟩ := close_spec w ht hleaf hwin hpar
  obtain ⟨win, hwx, _, hreg⟩ := ce.windows
  have hfp : f ∈ panes s := ⟨ht, hleaf, by rw [hwin]; simp⟩
  refine ⟨s', nf, x, win, e, w', hwin, hwx, hreg, hfp, ?_⟩
  ext a
  constructor
  · rintro ⟨hta, hla, hwa⟩
    have hta' : InTree s a := by
      have := Desc.mono (fun q c hc => (ct.sub q).subset hc) hta
      rw [ce.top] at this
      exact this
    rw [ct.win] at hwa
    have hla' : childrenOf s.frames a = [] := by
      by_contra hne
      exact hwa (w.noBoth a (InTree.lt w hta') hne)
    refine ⟨⟨hta', hla', hwa⟩, fun haf => ?_⟩
    have haf' : a = f := haf
    rw [haf'] at hta
    rcases Desc.last hta with h0 | ⟨q, _, hq⟩
    · rw [ce.top] at h0
      rw [← h0, w.rootParent] at hpar
      cases hpar
    · have e1 := (w'.edge q (childrenOf_lt hq) f hq).2.2.1
      rw [ct.parent, hpar] at e1
      obtain ⟨t, hcol, _⟩ := ct.chain p hpar
      exact hcol.removed hpar (by rw [Option.some.inj e1]; exact hq)
  · rintro ⟨⟨hta, hla, hwa⟩, haf⟩
    refine ⟨?_, ?_, by rw [ct.win]; exact hwa⟩
    · show Desc s'.frames s'.topFrame a
      rw [ce.top]
      exact ct.keepsLeaf hleaf hla haf hta
    · have := ct.sub a
      rw [hla] at this
      exact List.sublist_nil.1 this

/-- A run of closes that are not rejected is no longer than the number of
window-bearing leaves it starts with. -/
theorem Closes.count {s s' : Editor} {fs : List Nat} (c : Closes s fs s') :
    WF s → WF s' ∧ fs.length + (panes s').ncard = (panes s).ncard := by
  induction c with
  | done s => exact fun w => ⟨w, by simp⟩
  | @next s s1 s' f nf fs ht hleaf hpar e _ ih =>
    intro w
    obtain ⟨p, hp⟩ := Option.ne_none_iff_exists'.1 hpar
    obtain ⟨s2, nf2, _, _, e2, w2, _, _, _, hfp, hset⟩ := close_panes w ht hleaf hp
    rw [e] at e2
    cases e2
    obtain ⟨w', hcount⟩ := ih w2
    refine ⟨w', ?_⟩
    have := Set.ncard_diff_singleton_add_one hfp (panes_finite w)
    rw [← hset] at this
    rw [List.length_cons]
    omega

/-- Below every frame of a ranked heap there is a frame without children. -/
theorem exists_leaf {h : Heap} {r : Nat → Nat} (hr : Ranked h r) :
    ∀ (n a : Nat), r a ≤ n → a < h.length → ∃ l, Desc h a l ∧ childrenOf h l = []
  | 0, a, hn, ha => by
    cases hc : childrenOf h a with
    | nil => exact ⟨a, Desc.refl a, hc⟩
    | cons c cs =>
      have := hr.child a ha c (by rw [hc]; simp)
      omega
  | n + 1, a, hn, ha => by
    cases hc : childrenOf h a with
    | nil => exact ⟨a, Desc.refl a, hc⟩
    | cons c cs =>
      have hcm : c ∈ childrenOf h a := by rw [hc]; simp
      have := hr.child a ha c hcm
      obtain ⟨l, hd, hl⟩ := exists_leaf hr n c (by omega) this.1
      exact ⟨l, Desc.step hcm hd, hl⟩

/-- C16: in every well-formed state, `close` returns on every frame of the tree,
with a well-formed state; on the root it returns the state as it is and no focus
candidate.  A `close` that is not rejected, one on a leaf `f` of the tree that
has a parent, takes the window of `f` out of the registry and `f`, and no other
frame, out of the window-bearing leaves of the tree, whose number goes down by
one; so a run of closes that are not rejected is no longer than the number of
window-bearing leaves at its start, and it ends with as many fewer.  When `close`
is rejected on every leaf of the tree, the root has no children. -/
theorem close_terminates_and_counts (s : Editor) (w : WF s) :
    (∀ f, InTree s f → ∃ s' nf, close s f = some (s', nf) ∧ WF s') ∧
      close s s.topFrame = some (s, none) ∧
      (∀ f, InTree s f → childrenOf s.frames f = [] → parentOf s.frames f ≠ none →
        ∃ s' nf x win, close s f = some (s', nf) ∧ WF s' ∧ winOf s.frames f = some x ∧
          s.windows[x]? = some win ∧ s'.wins = regDelete s.wins win.id ∧
          f ∈ panes s ∧ (∀ a, a ∈ panes s' ↔ a ∈ panes s ∧ a ≠ f) ∧
          (panes s').ncard + 1 = (panes s).ncard) ∧
      (∀ fs s', Closes s fs s' →
        fs.length + (panes s').ncard = (panes s).ncard ∧ fs.length ≤ (panes s).ncard) ∧
      ((∀ f, InTree s f → childrenOf s.frames f = [] → parentOf s.frames f = none) →
        childrenOf s.frames s.topFrame = []) := by
  refine ⟨fun f ht => ?_, close_rejected w.root (Or.inr w.rootParent),
    fun f ht hleaf hpar => ?_, fun fs s' c => ?_, fun hrej => ?_⟩
  · obtain ⟨s', e, w'⟩ := step_total w (Op.close f) ht
    obtain ⟨r, hr, hs⟩ := Option.map_eq_some'.1 e
    exact ⟨r.1, r.2, hr, hs ▸ w'⟩
  · obtain ⟨p, hp⟩ := Option.ne_none_iff_exists'.1 hpar
    obtain ⟨s', nf, x, win, e, w', hwin, hwx, hreg, hfp, hset⟩ := close_panes w ht hleaf hp
    refine ⟨s', nf, x, win, e, w', hwin, hwx, hreg, hfp, fun a => ?_, ?_⟩
    · rw [hset]
      exact Iff.rfl
    · rw [hset]
      exact Set.ncard_diff_singleton_add_one hfp (panes_finite w)
  · have := (c.count w).2
    exact ⟨this, by omega⟩
  · by_contra hne
    obtain ⟨c, hc⟩ := List.exists_mem_of_ne_nil _ hne
    have hcl := (w.edge s.topFrame w.root c hc).2.1
    obtain ⟨l, hd, hl⟩ := exists_leaf w.ranked _ c (le_refl _) hcl
    have htl : InTree s l := Desc.step hc hd
    have hpl := hrej l htl hl
    have := InTree.root w htl hpl
    have hle := Desc.le w hd hcl
    have hlt := (w.edge s.topFrame w.root c hc).1
    omega

theorem close_terminates_and_counts_witness :
    (∀ f, InTree threePanes f → ∃ s' nf, close threePanes f = some (s', nf) ∧ WF s') ∧
      close threePanes threePanes.topFrame = some (threePanes, none) ∧
      (∀ f, InTree threePanes f → childrenOf threePanes.frames f = [] →
        parentOf threePanes.frames f ≠ none →
        ∃ s' nf x win, close threePanes f = some (s', nf) ∧ WF s' ∧
          winOf threePanes.frames f = some x ∧
          threePanes.windows[x]? = some win ∧ s'.wins = regDelete threePanes.wins win.id ∧
          f ∈ panes threePanes ∧ (∀ a, a ∈ panes s' ↔ a ∈ panes threePanes ∧ a ≠ f) ∧
          (panes s').ncard + 1 = (panes threePanes).ncard) ∧
      (∀ fs s', Closes threePanes fs s' →
        fs.length + (panes s').ncard = (panes threePanes).ncard ∧
          fs.length ≤ (panes threePanes).ncard) ∧
      ((∀ f, InTree threePanes f → childrenOf threePanes.frames f = [] →
          parentOf threePanes.frames f = none) →
        childrenOf threePanes.frames threePanes.topFrame = []) :=
  close_terminates_and_counts threePanes threePanes_wf

/-! ## Claim C15: window ids -/

theorem winStep_grow {s s' : Editor} (op : WinOp) (e : winStep s op = some s') :
    IdGrow s s' := by
  cases op with
  | create frame =>
    obtain ⟨r, hr, hs⟩ := Option.map_eq_some'.1 e
    rw [← hs]
    exact NewWindow_grow (w := r.2) hr
  | split f v => exact split_grow e
  | close f =>
    obtain ⟨r, hr, hs⟩ := Option.map_eq_some'.1 e
    rw [← hs]
    obtain ⟨h1, h2, h3⟩ := closeAux_grow _ _ _ r hr
    exact IdGrow.ofSame h1 h2 h3
  | exchange f => exact exchangeAux_grow _ _ _ _ e

theorem winRun_grow : ∀ (ops : List WinOp) (s s' : Editor), winRun s ops = some s' →
    IdGrow s s'
  | [], s, s', e => by
    cases e
    exact IdGrow.idle s
  | op :: ops, s, s', e => by
    obtain ⟨s1, h1, h2⟩ := Option.bind_eq_some.1 e
    exact (winStep_grow op h1).andThen (winRun_grow ops s1 s' h2)

theorem initEditor_idInv (b : Nat) (w h : Int) : IdInv (initEditor b w h) :=
  ⟨by simp [idsOf, initEditor], by simp [idsOf, initEditor], by simp [initEditor]⟩

/-- C15: from a state in which the window ids increase in the order of creation
and every id and every registry key is below the id counter (the start-up state
is one), after every sequence of `NewWindow`, `split`, `close` and `exchange`
that returns: the ids of the windows that existed are unchanged, closed ones
included; every window created since has an id above every id assigned before
it; all ids are distinct; every id and every registry key is below the id
counter, which never goes down; and the next `NewWindow` gives its window the
value of the counter, an id no window has or had. -/
theorem window_ids_never_reused (s s' : Editor) (ops : List WinOp) (hinv : IdInv s)
    (hrun : winRun s ops = some s') :
    (∃ new, idsOf s' = idsOf s ++ new ∧ ∀ i ∈ new, (∀ j ∈ idsOf s, j < i) ∧ s.winIndex ≤ i) ∧
      (idsOf s').Pairwise (· < ·) ∧ (idsOf s').Nodup ∧
      (∀ i ∈ idsOf s', i < s'.winIndex) ∧ (∀ e ∈ s'.wins, e.1 < s'.winIndex) ∧
      s.winIndex ≤ s'.winIndex ∧
      ∀ frame s1 w, NewWindow s' frame = some (s1, w) →
        (s1.windows[w]?).map (fun x => x.id) = some s'.winIndex ∧
          s'.winIndex ∉ idsOf s' ∧ s1.winIndex = s'.winIndex + 1 := by
  have g := winRun_grow ops s s' hrun
  have inv' := hinv.grow g
  obtain ⟨new, e, _, b⟩ := g.ids
  refine ⟨⟨new, e, fun i hi => ⟨fun j hj => ?_, (b i hi).1⟩⟩, inv'.increasing, ?_, inv'.below,
    inv'.keys, g.index, fun frame s1 w hnew => ?_⟩
  · have := hinv.below j hj
    have := (b i hi).1
    omega
  · exact inv'.increasing.imp (fun h => Nat.ne_of_lt h)
  · obtain ⟨_, hx, _, hid⟩ := NewWindow_ids hnew
    refine ⟨hid, fun hmem => ?_, hx⟩
    have := inv'.below _ hmem
    omega

theorem window_ids_never_reused_witness :
    (∃ new, idsOf nestedPanes = idsOf (initEditor 7 800 600) ++ new ∧
        ∀ i ∈ new, (∀ j ∈ idsOf (initEditor 7 800 600), j < i) ∧
          (initEditor 7 800 600).winIndex ≤ i) ∧
      (idsOf nestedPanes).Pairwise (· < ·) ∧ (idsOf nestedPanes).Nodup ∧
      (∀ i ∈ idsOf nestedPanes, i < nestedPanes.winIndex) ∧
      (∀ e ∈ nestedPanes.wins, e.1 < nestedPanes.winIndex) ∧
      (initEditor 7 800 600).winIndex ≤ nestedPanes.winIndex ∧
      ∀ frame s1 w, NewWindow nestedPanes frame = some (s1, w) →
        (s1.windows[w]?).map (fun x => x.id) = some nestedPanes.winIndex ∧
          nestedPanes.winIndex ∉ idsOf nestedPanes ∧
          s1.winIndex = nestedPanes.winIndex + 1 :=
  window_ids_never_reused (initEditor 7 800 600) nestedPanes
    [WinOp.split 0 true, WinOp.split 1 false, WinOp.close 3] (initEditor_idInv 7 800 600) rfl

end Lapce
